import Mathlib

/-!
# Verification of the explicit heap allocator (`src/mm.c`)

This file shallowly embeds the allocator from `src/mm.c` and proves the
specification claims about it.

Modelling conventions:
* The heap simulator's region starts at address `0` (`mem_heap_lo() = 0`) and
  currently spans `size` bytes, so `mem_heap_hi() = size - 1`.  The target is
  64-bit: `WORD_SIZE = sizeof(void*) = 8`, `sizeof(struct block_info) = 24`.
* Every memory access performed by `mm.c` is a single word read or write at an
  8-aligned address (headers, footers, the free-list head word, and the
  `next`/`prev` fields).  Memory is therefore modelled as a map from byte
  addresses to word values, `mem : Nat → Nat`; only 8-aligned addresses are
  ever used.  Pointers are byte addresses; the null pointer is `0` (no block
  ever lives at address `0`, which holds the free-list head word).
* `size_t` values are modelled as `Nat`.  The quantities involved stay far
  below `2 ^ 64`, so two's-complement wraparound never occurs; bit masking
  with `~x` (which does not exist on `Nat`) is expressed arithmetically:
  `y & ~m = y - (y &&& m)` for a single-bit mask `m`, and
  `y & ~(ALIGNMENT-1) = y - y % 8`.  These identities hold for all naturals.
* The C `while` loops (free-list search and the two coalescing loops) are
  written with an explicit fuel argument; the fuel passed by the wrappers
  (`size` bytes) strictly exceeds any possible free-list length, so on
  well-formed heaps the fuel is never exhausted.
* `mem_sbrk` never fails in the model (the C program calls `exit` on failure,
  so no post-state exists on that path).
-/

set_option maxHeartbeats 1000000
set_option linter.all false

namespace MM

/-- `WORD_SIZE = sizeof(void*)`, on the 64-bit target. -/
def WORD_SIZE : Nat := 8

/-- `MIN_BLOCK_SIZE = sizeof(struct block_info) + WORD_SIZE`:
header word + next pointer + prev pointer (24 bytes) + footer word. -/
def MIN_BLOCK_SIZE : Nat := 32

/-- `ALIGNMENT` requirement for the allocator. -/
def ALIGNMENT : Nat := 8

/-- `TAG_USED`: bit mask for the used flag (bit 0). -/
def TAG_USED : Nat := 1

/-- `TAG_PRECEDING_USED`: bit mask for the preceding-used flag (bit 1). -/
def TAG_PRECEDING_USED : Nat := 2

/-- The heap simulator's page size (`mem_pagesize()` = 4096, as in `memlib.c`
and as assumed by the spec's end-to-end scenarios). -/
def PAGE_SIZE : Nat := 4096

/-- `SIZE(x) = x & ~(ALIGNMENT - 1)`: clear the low three bits, i.e. round
down to a multiple of 8.  On `Nat` this is `x - x % 8`. -/
def SIZE (x : Nat) : Nat := x - x % 8

/-- `x & ~m` for a single-bit mask `m` (used with `~TAG_USED` and
`~TAG_PRECEDING_USED`): clearing the bit subtracts its current value. -/
def andNot (x m : Nat) : Nat := x - (x &&& m)

/-- The allocator's view of the heap simulator: the word memory and the
current heap extent in bytes (`mem_heap_hi() = size - 1`). -/
structure Heap where
  mem : Nat → Nat
  size : Nat

/-- Read the word at byte address `a`. -/
def rd (h : Heap) (a : Nat) : Nat := h.mem a

/-- Write the word at byte address `a`. -/
def wr (h : Heap) (a v : Nat) : Heap :=
  { h with mem := fun x => if x = a then v else h.mem x }

@[simp] theorem rd_wr (h : Heap) (a v x : Nat) :
    rd (wr h a v) x = if x = a then v else rd h x := rfl

@[simp] theorem size_wr (h : Heap) (a v : Nat) : (wr h a v).size = h.size := rfl

/-- `mem_sbrk(n)`: extend the heap by `n` bytes, returning the address of the
first new byte.  Never fails in the model (cf. module comment). -/
def mem_sbrk (h : Heap) (n : Nat) : Heap × Nat :=
  ({ h with size := h.size + n }, h.size)

/-- `FREE_LIST_HEAD`: the pointer stored in the first word of the heap
(`mem_heap_lo()`). -/
def freeListHead (h : Heap) : Nat := rd h 0

/-- The loop of `search_free_list`, with explicit fuel. -/
def searchLoop (h : Heap) (req_size : Nat) : Nat → Nat → Nat
  | 0, _ => 0
  | fuel + 1, free_block =>
    if free_block = 0 then 0
    else if req_size ≤ SIZE (rd h free_block) then free_block
    else searchLoop h req_size fuel (rd h (free_block + WORD_SIZE))

/-- `search_free_list(req_size)`: first-fit scan of the free list from
`FREE_LIST_HEAD`; returns null (`0`) if no free block is large enough. -/
def search_free_list (h : Heap) (req_size : Nat) : Nat :=
  searchLoop h req_size h.size (freeListHead h)

/-- `insert_free_block(free_block)`: LIFO insertion at the head of the list. -/
def insert_free_block (h : Heap) (free_block : Nat) : Heap :=
  let old_head := freeListHead h
  let h := wr h (free_block + WORD_SIZE) old_head
  let h := if old_head ≠ 0 then wr h (old_head + 2 * WORD_SIZE) free_block else h
  let h := wr h (free_block + 2 * WORD_SIZE) 0
  wr h 0 free_block

/-- `remove_free_block(free_block)`: unlink a block from the free list. -/
def remove_free_block (h : Heap) (free_block : Nat) : Heap :=
  let next_free := rd h (free_block + WORD_SIZE)
  let prev_free := rd h (free_block + 2 * WORD_SIZE)
  let h := if next_free ≠ 0 then wr h (next_free + 2 * WORD_SIZE) prev_free else h
  if free_block = freeListHead h then wr h 0 next_free
  else wr h (prev_free + WORD_SIZE) next_free

/-- The first loop of `coalesce_free_block`: absorb preceding free blocks.
State: `(heap, block_cursor, new_size)`. -/
def coalesceBack : Nat → Heap → Nat → Nat → Heap × Nat × Nat
  | 0, h, block_cursor, new_size => (h, block_cursor, new_size)
  | fuel + 1, h, block_cursor, new_size =>
    if rd h block_cursor &&& TAG_PRECEDING_USED = 0 then
      let size := SIZE (rd h (block_cursor - WORD_SIZE))
      let free_block := block_cursor - size
      coalesceBack fuel (remove_free_block h free_block) free_block (new_size + size)
    else (h, block_cursor, new_size)

/-- The second loop of `coalesce_free_block`: absorb following free blocks.
State: `(heap, block_cursor, new_size)`. -/
def coalesceFwd : Nat → Heap → Nat → Nat → Heap × Nat × Nat
  | 0, h, block_cursor, new_size => (h, block_cursor, new_size)
  | fuel + 1, h, block_cursor, new_size =>
    if rd h block_cursor &&& TAG_USED = 0 then
      let size := SIZE (rd h block_cursor)
      coalesceFwd fuel (remove_free_block h block_cursor) (block_cursor + size) (new_size + size)
    else (h, block_cursor, new_size)

/-- `coalesce_free_block(old_block)`: merge with any preceding or following
free blocks; if the block grew, relink it at the head of the free list. -/
def coalesce_free_block (h : Heap) (old_block : Nat) : Heap :=
  let old_size := SIZE (rd h old_block)
  let r1 := coalesceBack h.size h old_block old_size
  let h1 := r1.1
  let new_block := r1.2.1
  let r2 := coalesceFwd h1.size h1 (old_block + old_size) r1.2.2
  let h2 := r2.1
  let block_cursor := r2.2.1
  let new_size := r2.2.2
  if new_size ≠ old_size then
    let h3 := remove_free_block h2 old_block
    let h4 := wr h3 new_block (new_size ||| TAG_PRECEDING_USED)
    let h5 := wr h4 (block_cursor - WORD_SIZE) (new_size ||| TAG_PRECEDING_USED)
    insert_free_block h5 new_block
  else h2

/-- `request_more_space(req_size)`: grow the heap by a whole number of pages,
lay out the new space as one free block (its header overlapping the old
end-of-heap word), write a new end-of-heap word, insert and coalesce. -/
def request_more_space (h : Heap) (req_size : Nat) : Heap :=
  let pagesize := PAGE_SIZE
  let num_pages := (req_size + pagesize - 1) / pagesize
  let total_size := num_pages * pagesize
  let sb := mem_sbrk h total_size
  let h := sb.1
  let new_block := sb.2 - WORD_SIZE
  let prev_last_word_mask := rd h new_block &&& TAG_PRECEDING_USED
  let h := wr h new_block (total_size ||| prev_last_word_mask)
  let h := wr h (new_block + (total_size - WORD_SIZE)) (total_size ||| prev_last_word_mask)
  let h := wr h (new_block + total_size) TAG_USED
  let h := insert_free_block h new_block
  coalesce_free_block h new_block

/-- `mm_init()`: create the initial heap: a word for the free-list head, one
free block of `MIN_BLOCK_SIZE` bytes, and the end-of-heap word. -/
def mm_init (h : Heap) : Heap :=
  let init_size := WORD_SIZE + MIN_BLOCK_SIZE + WORD_SIZE
  let sb := mem_sbrk h init_size
  let h := sb.1
  let first_free_block := WORD_SIZE
  let total_size := init_size - WORD_SIZE - WORD_SIZE
  let h := wr h first_free_block (total_size ||| TAG_PRECEDING_USED)
  let h := wr h (first_free_block + WORD_SIZE) 0
  let h := wr h (first_free_block + 2 * WORD_SIZE) 0
  let h := wr h (first_free_block + (total_size - WORD_SIZE)) (total_size ||| TAG_PRECEDING_USED)
  let h := wr h (h.size - WORD_SIZE) TAG_USED
  wr h 0 first_free_block

/-- The request-size computation at the top of `mm_malloc`: add a word for
the header, then take `MIN_BLOCK_SIZE` or round up to the alignment. -/
def reqSize (size : Nat) : Nat :=
  let size := size + WORD_SIZE
  if size ≤ MIN_BLOCK_SIZE then MIN_BLOCK_SIZE
  else ALIGNMENT * ((size + ALIGNMENT - 1) / ALIGNMENT)

/-- The second half of `mm_malloc` (`src/mm.c` lines 396-432), after the
free-list scan has produced `ptr_free_block`: mark the block used, unlink
it, split it if the excess is at least `MIN_BLOCK_SIZE`, and return the
payload address. -/
def mallocFinish (h : Heap) (req_size ptr_free_block : Nat) : Option Nat × Heap :=
  let h := wr h ptr_free_block (rd h ptr_free_block ||| TAG_USED)
    let h := remove_free_block h ptr_free_block
    let block_size := SIZE (rd h ptr_free_block)
    let preceding_block_use_tag := rd h ptr_free_block &&& TAG_PRECEDING_USED
    if MIN_BLOCK_SIZE ≤ block_size - req_size then
      let h := wr h ptr_free_block (req_size ||| preceding_block_use_tag)
      let h := wr h ptr_free_block (rd h ptr_free_block ||| TAG_USED)
      let split_ptr := ptr_free_block + req_size
      let h := wr h split_ptr (block_size - req_size)
      let h := wr h split_ptr (andNot (rd h split_ptr) TAG_USED)
      let h := wr h split_ptr (rd h split_ptr ||| TAG_PRECEDING_USED)
      let split_size := SIZE (rd h split_ptr)
      let h := wr h (split_ptr + split_size - WORD_SIZE) (rd h split_ptr)
      let h := insert_free_block h split_ptr
      (some (ptr_free_block + WORD_SIZE), h)
    else
      let following_block := ptr_free_block + block_size
      let h := wr h following_block (rd h following_block ||| TAG_PRECEDING_USED)
      (some (ptr_free_block + WORD_SIZE), h)

/-- `mm_malloc(size)`: returns the payload address (`none` models the NULL
return for `size == 0`) together with the new heap state. -/
def mm_malloc (h : Heap) (size : Nat) : Option Nat × Heap :=
  if size = 0 then (none, h)
  else
    let req_size := reqSize size
    let found := search_free_list h req_size
    if found = 0 then
      let h := request_more_space h req_size
      mallocFinish h req_size (search_free_list h req_size)
    else mallocFinish h req_size found

/-- `mm_free(ptr)`: clear the used tag, clear the following block's
preceding-used tag, write the footer, insert at the head, and coalesce. -/
def mm_free (h : Heap) (ptr : Nat) : Heap :=
  let block_to_free := ptr - WORD_SIZE
  let block_size := SIZE (rd h block_to_free)
  let following_block := block_to_free + block_size
  let h := wr h block_to_free (andNot (rd h block_to_free) TAG_USED)
  let h := wr h following_block (andNot (rd h following_block) TAG_PRECEDING_USED)
  let h := wr h (block_to_free + (block_size - WORD_SIZE)) (rd h block_to_free)
  let h := insert_free_block h block_to_free
  coalesce_free_block h block_to_free

/-- `mm_check()`: the heap consistency checker of `src/mm.c`; it is a stub
that performs no checking and returns `0` on every heap state. -/
def mm_check (_ : Heap) : Nat := 0

/-- The heap the simulator presents before `mm_init` runs: empty. -/
def emptyHeap : Heap := { mem := fun _ => 0, size := 0 }

/-! ## Observed views of a heap state

The following functions read the block structure and free list back out of a
heap, the way `examine_heap` in `src/mm.c` walks the heap: start at the first
block (`mem_heap_lo() + WORD_SIZE`), step by `SIZE(header)`, stop at the
end-of-heap word (size `0`).  They are used to state the specification claims
about heap states. -/

/-- Walk the heap's block sequence from address `a`, recording
`(address, header word)` for every block, stopping at a zero-size header
(the end-of-heap word).  `fuel` bounds the walk. -/
def heapBlocksLoop (h : Heap) : Nat → Nat → List (Nat × Nat)
  | 0, _ => []
  | fuel + 1, a =>
    if SIZE (rd h a) = 0 then []
    else (a, rd h a) :: heapBlocksLoop h fuel (a + SIZE (rd h a))

/-- The `(address, header word)` list of all real blocks in the heap. -/
def heapBlocks (h : Heap) : List (Nat × Nat) := heapBlocksLoop h h.size WORD_SIZE

/-- Walk the free list from the head, recording each node's address. -/
def freeListLoop (h : Heap) : Nat → Nat → List Nat
  | 0, _ => []
  | fuel + 1, b => if b = 0 then [] else b :: freeListLoop h fuel (rd h (b + WORD_SIZE))

/-- The addresses on the free list, in list order from the head. -/
def freeListView (h : Heap) : List Nat := freeListLoop h h.size (freeListHead h)

/-- A block header is marked used iff bit 0 of the header word is set. -/
def usedBit (hdr : Nat) : Bool := hdr &&& TAG_USED ≠ 0

/-- No two blocks that are adjacent in memory are both free (invariant I4),
as a check on the extracted `(address, header)` list. -/
def noAdjacentFree : List (Nat × Nat) → Bool
  | (_, h1) :: (a2, h2) :: rest =>
    (usedBit h1 || usedBit h2) && noAdjacentFree ((a2, h2) :: rest)
  | _ => true

/-- Sum of the sizes of the listed blocks. -/
def sumSizes (l : List (Nat × Nat)) : Nat := (l.map (fun e => SIZE e.2)).sum

/-- The abstract heap state compared by the spec's scenario S3/S4: the block
layout with all boundary tags (headers, and footers of free blocks), and the
free list contents (node addresses with their `next`/`prev` fields). -/
def heapView (h : Heap) : List (Nat × Nat × Nat) × List (Nat × Nat × Nat) :=
  ((heapBlocks h).map fun e =>
      (e.1, e.2, if usedBit e.2 then 0 else rd h (e.1 + SIZE e.2 - WORD_SIZE)),
   (freeListView h).map fun b => (b, rd h (b + WORD_SIZE), rd h (b + 2 * WORD_SIZE)))

/-- A pointer is a valid argument to `free` iff it is the payload address of
a block currently marked used: its block starts one word earlier. -/
def validFreeArg (h : Heap) (ptr : Nat) : Bool :=
  (heapBlocks h).any fun e => e.1 + WORD_SIZE = ptr ∧ usedBit e.2

/-- The heap states reachable by a valid call sequence: `mm_init` first, then
any interleaving of `mm_malloc` (any size) and `mm_free` (on payloads of
currently allocated blocks). -/
inductive Reach : Heap → Prop
  | init : Reach (mm_init emptyHeap)
  | malloc (h : Heap) (n : Nat) : Reach h → Reach (mm_malloc h n).2
  | free (h : Heap) (p : Nat) : Reach h → validFreeArg h p = true → Reach (mm_free h p)

/-! ## Arithmetic bridges for the bit operations

All boundary-tag words manipulated by the allocator have their size in the
bits above bit 2 and the two flags in bits 0 and 1.  The following lemmas
convert the `|||`/`&&&` operations used in the code into plain arithmetic on
such values. -/

theorem or_one_of_even {x : Nat} (hx : x % 2 = 0) : x ||| 1 = x + 1 := by
  have hm : (x ||| 1) % 2 = 1 := Nat.or_mod_two_eq_one.mpr (Or.inr (by norm_num))
  have hd : (x ||| 1) / 2 = x / 2 := by
    rw [Nat.or_div_two]; norm_num
  have h1 := Nat.div_add_mod (x ||| 1) 2
  have h2 := Nat.div_add_mod x 2
  omega

theorem or_one_self {x : Nat} (hx : x % 2 = 1) : x ||| 1 = x := by
  have hm : (x ||| 1) % 2 = 1 := Nat.or_mod_two_eq_one.mpr (Or.inr (by norm_num))
  have hd : (x ||| 1) / 2 = x / 2 := by
    rw [Nat.or_div_two]; norm_num
  have h1 := Nat.div_add_mod (x ||| 1) 2
  have h2 := Nat.div_add_mod x 2
  omega

theorem or_two_mod_two (x : Nat) : (x ||| 2) % 2 = x % 2 := by
  rcases Nat.mod_two_eq_zero_or_one (x ||| 2) with h | h <;>
    rcases Nat.mod_two_eq_zero_or_one x with h' | h'
  · omega
  · have hc : (x ||| 2) % 2 = 1 := Nat.or_mod_two_eq_one.mpr (Or.inl h')
    omega
  · rcases Nat.or_mod_two_eq_one.mp h with h'' | h'' <;> omega
  · omega

theorem or_two_of {x : Nat} (hx : x / 2 % 2 = 0) : x ||| 2 = x + 2 := by
  have hm := or_two_mod_two x
  have hd : (x ||| 2) / 2 = x / 2 + 1 := by
    have h := @Nat.or_div_two x 2
    norm_num at h
    rw [h]
    exact or_one_of_even hx
  have h1 := Nat.div_add_mod (x ||| 2) 2
  have h2 := Nat.div_add_mod x 2
  omega

theorem or_two_self {x : Nat} (hx : x / 2 % 2 = 1) : x ||| 2 = x := by
  have hm := or_two_mod_two x
  have hd : (x ||| 2) / 2 = x / 2 := by
    have h := @Nat.or_div_two x 2
    norm_num at h
    rw [h]
    exact or_one_self hx
  have h1 := Nat.div_add_mod (x ||| 2) 2
  have h2 := Nat.div_add_mod x 2
  omega

theorem and_two_eq (x : Nat) : x &&& 2 = x / 2 % 2 * 2 := by
  have hm : (x &&& 2) % 2 = 0 := by
    rcases Nat.mod_two_eq_zero_or_one (x &&& 2) with h | h
    · exact h
    · have := Nat.and_mod_two_eq_one.mp h
      omega
  have hd : (x &&& 2) / 2 = x / 2 % 2 := by
    rw [Nat.and_div_two]
    norm_num
  have h1 := Nat.div_add_mod (x &&& 2) 2
  omega

theorem andNot_one (x : Nat) : andNot x 1 = x - x % 2 := by
  rw [andNot, Nat.and_one_is_mod]

theorem andNot_two (x : Nat) : andNot x 2 = x - x / 2 % 2 * 2 := by
  rw [andNot, and_two_eq]

/-- The boundary-tag word of a block of size `sz` with the given flags:
`sz | (prec ? TAG_PRECEDING_USED : 0) | (used ? TAG_USED : 0)`. -/
def hdrVal (sz : Nat) (prec used : Bool) : Nat :=
  sz + (if prec then TAG_PRECEDING_USED else 0) + (if used then TAG_USED else 0)

theorem SIZE_hdrVal {sz : Nat} (hsz : sz % 8 = 0) (p u : Bool) :
    SIZE (hdrVal sz p u) = sz := by
  cases p <;> cases u <;> simp [SIZE, hdrVal, TAG_USED, TAG_PRECEDING_USED] <;> omega

theorem hdrVal_and_one {sz : Nat} (hsz : sz % 8 = 0) (p u : Bool) :
    hdrVal sz p u &&& 1 = if u then 1 else 0 := by
  rw [Nat.and_one_is_mod]
  cases p <;> cases u <;> simp [hdrVal, TAG_USED, TAG_PRECEDING_USED] <;> omega

theorem hdrVal_and_two {sz : Nat} (hsz : sz % 8 = 0) (p u : Bool) :
    hdrVal sz p u &&& 2 = if p then 2 else 0 := by
  rw [and_two_eq]
  cases p <;> cases u <;> simp [hdrVal, TAG_USED, TAG_PRECEDING_USED] <;> omega

theorem hdrVal_or_one {sz : Nat} (hsz : sz % 8 = 0) (p : Bool) :
    hdrVal sz p false ||| 1 = hdrVal sz p true := by
  rw [or_one_of_even] <;> cases p <;>
    simp [hdrVal, TAG_USED, TAG_PRECEDING_USED] <;> omega

theorem hdrVal_or_two {sz : Nat} (hsz : sz % 8 = 0) (u : Bool) :
    hdrVal sz false u ||| 2 = hdrVal sz true u := by
  rw [or_two_of] <;> cases u <;>
    simp [hdrVal, TAG_USED, TAG_PRECEDING_USED] <;> omega

theorem hdrVal_or_two_self {sz : Nat} (hsz : sz % 8 = 0) (u : Bool) :
    hdrVal sz true u ||| 2 = hdrVal sz true u := by
  rw [or_two_self] <;> cases u <;>
    simp [hdrVal, TAG_USED, TAG_PRECEDING_USED] <;> omega

theorem hdrVal_andNot_one {sz : Nat} (hsz : sz % 8 = 0) (p u : Bool) :
    andNot (hdrVal sz p u) 1 = hdrVal sz p false := by
  rw [andNot_one]
  cases p <;> cases u <;> simp [hdrVal, TAG_USED, TAG_PRECEDING_USED] <;> omega

theorem hdrVal_andNot_two {sz : Nat} (hsz : sz % 8 = 0) (p u : Bool) :
    andNot (hdrVal sz p u) 2 = hdrVal sz false u := by
  rw [andNot_two]
  cases p <;> cases u <;> simp [hdrVal, TAG_USED, TAG_PRECEDING_USED] <;> omega

theorem or_mask {sz : Nat} (hsz : sz % 8 = 0) (p : Bool) :
    sz ||| (if p then 2 else 0) = sz + (if p then 2 else 0) := by
  cases p
  · simp
  · simpa using (@or_two_of sz (by omega))

theorem usedBit_hdrVal {sz : Nat} (hsz : sz % 8 = 0) (p u : Bool) :
    usedBit (hdrVal sz p u) = u := by
  simp only [usedBit, TAG_USED, hdrVal_and_one hsz]
  cases u <;> simp

/-! ## The heap well-formedness invariant

A well-formed heap is described by a list `bl` of `(size, used)` pairs — the
blocks in memory order, starting at address `WORD_SIZE` — together with the
list `fl` of free-list node addresses in list order.  `blocksSeg` states that
a sublist of blocks is laid out correctly from a given address with a given
preceding-used flag; `chainSeg` states that a sublist of free-list nodes is
correctly doubly linked. -/

/-- End address of a run of blocks laid out from `a`. -/
def endA (a : Nat) : List (Nat × Bool) → Nat
  | [] => a
  | (sz, _) :: rest => endA (a + sz) rest

/-- Used-flag of the last block of a run (`p` if the run is empty). -/
def endP (p : Bool) : List (Nat × Bool) → Bool
  | [] => p
  | (_, u) :: rest => endP u rest

/-- The blocks `bl` are laid out consecutively from address `a`, where the
block preceding `a` in memory has used-flag `p`: each block's header carries
its size, preceding-used flag and used flag, free blocks carry a matching
footer, and sizes are aligned and at least `MIN_BLOCK_SIZE`. -/
def blocksSeg (h : Heap) : Nat → Bool → List (Nat × Bool) → Prop
  | _, _, [] => True
  | a, p, (sz, u) :: rest =>
    MIN_BLOCK_SIZE ≤ sz ∧ sz % 8 = 0 ∧
    rd h a = hdrVal sz p u ∧
    (u = false → rd h (a + sz - WORD_SIZE) = hdrVal sz p false) ∧
    blocksSeg h (a + sz) u rest

/-- The free-list nodes `l`, entered with predecessor node `prev` via the
pointer value `p`, are correctly doubly linked; the run ends in predecessor
`prev'` with outgoing pointer value `p'`. -/
def chainSeg (h : Heap) : Nat → Nat → List Nat → Nat → Nat → Prop
  | prev, p, [], prev', p' => prev' = prev ∧ p' = p
  | prev, p, b :: rest, prev', p' =>
    p = b ∧ b ≠ 0 ∧ rd h (b + 2 * WORD_SIZE) = prev ∧
    chainSeg h b (rd h (b + WORD_SIZE)) rest prev' p'

/-- Addresses of the free blocks of a run laid out from `a`, in memory
order. -/
def freeAddrs : Nat → List (Nat × Bool) → List Nat
  | _, [] => []
  | a, (sz, u) :: rest =>
    if u then freeAddrs (a + sz) rest else a :: freeAddrs (a + sz) rest

/-- The `(address, size, used)` triples of a run laid out from `a`. -/
def withAddrs : Nat → List (Nat × Bool) → List (Nat × Nat × Bool)
  | _, [] => []
  | a, (sz, u) :: rest => (a, sz, u) :: withAddrs (a + sz) rest

/-- No two adjacent blocks are both free; `pu` is the used-flag of the block
preceding the run. -/
def noAdjFree : Bool → List (Nat × Bool) → Prop
  | _, [] => True
  | pu, (_, u) :: rest => (pu = true ∨ u = true) ∧ noAdjFree u rest

/-- Well-formedness of a heap `h` with block list `bl` and free list `fl`:
invariants I1–I6 of the specification. -/
structure WF (h : Heap) (bl : List (Nat × Bool)) (fl : List Nat) : Prop where
  seg : blocksSeg h WORD_SIZE true bl
  sentinelAddr : endA WORD_SIZE bl + WORD_SIZE = h.size
  sentinelVal : rd h (endA WORD_SIZE bl) = hdrVal 0 (endP true bl) true
  chain : ∃ pl, chainSeg h 0 (freeListHead h) fl pl 0
  perm : fl.Perm (freeAddrs WORD_SIZE bl)
  adj : noAdjFree true bl

/-- A heap is well formed if some block list and free list describe it. -/
def Inv (h : Heap) : Prop := ∃ bl fl, WF h bl fl

/-! ### Basic lemmas about the layout descriptions -/

theorem WORD_SIZE_eq : WORD_SIZE = 8 := rfl

theorem MIN_BLOCK_SIZE_eq : MIN_BLOCK_SIZE = 32 := rfl

theorem TAG_USED_eq : TAG_USED = 1 := rfl

theorem TAG_PRECEDING_USED_eq : TAG_PRECEDING_USED = 2 := rfl

theorem PAGE_SIZE_eq : PAGE_SIZE = 4096 := rfl

theorem freeAddrs_cons_used (a sz : Nat) (tl : List (Nat × Bool)) :
    freeAddrs a ((sz, true) :: tl) = freeAddrs (a + sz) tl := rfl

theorem freeAddrs_cons_free (a sz : Nat) (tl : List (Nat × Bool)) :
    freeAddrs a ((sz, false) :: tl) = a :: freeAddrs (a + sz) tl := rfl

theorem le_endA (a : Nat) (bl : List (Nat × Bool)) : a ≤ endA a bl := by
  induction bl generalizing a with
  | nil => exact Nat.le_refl a
  | cons hd tl ih =>
    obtain ⟨sz, u⟩ := hd
    exact Nat.le_trans (Nat.le_add_right a sz) (ih (a + sz))

theorem endA_append (a : Nat) (l1 l2 : List (Nat × Bool)) :
    endA a (l1 ++ l2) = endA (endA a l1) l2 := by
  induction l1 generalizing a with
  | nil => rfl
  | cons hd tl ih => obtain ⟨sz, u⟩ := hd; simp [endA, ih]

theorem endP_append (p : Bool) (l1 l2 : List (Nat × Bool)) :
    endP p (l1 ++ l2) = endP (endP p l1) l2 := by
  induction l1 generalizing p with
  | nil => rfl
  | cons hd tl ih => obtain ⟨sz, u⟩ := hd; simp [endP, ih]

theorem blocksSeg_append {h : Heap} {a : Nat} {p : Bool} {l1 l2 : List (Nat × Bool)} :
    blocksSeg h a p (l1 ++ l2) ↔
      blocksSeg h a p l1 ∧ blocksSeg h (endA a l1) (endP p l1) l2 := by
  induction l1 generalizing a p with
  | nil => simp [blocksSeg, endA, endP]
  | cons hd tl ih =>
    obtain ⟨sz, u⟩ := hd
    simp [blocksSeg, endA, endP, ih, and_assoc]

theorem blocksSeg_frame {h h' : Heap} {a : Nat} {p : Bool} {bl : List (Nat × Bool)}
    (hseg : blocksSeg h a p bl)
    (hag : ∀ x, a ≤ x → x < endA a bl → rd h' x = rd h x) :
    blocksSeg h' a p bl := by
  induction bl generalizing a p with
  | nil => trivial
  | cons hd tl ih =>
    obtain ⟨sz, u⟩ := hd
    obtain ⟨h1, h2, h3, h4, h5⟩ := hseg
    have h1' : 32 ≤ sz := h1
    have hend : a + sz ≤ endA (a + sz) tl := le_endA _ _
    refine ⟨h1, h2, ?_, ?_, ?_⟩
    · rw [hag a (Nat.le_refl a) (by simp only [endA]; omega), h3]
    · intro hu
      rw [hag (a + sz - WORD_SIZE) (by simp only [WORD_SIZE_eq]; omega)
          (by simp only [endA, WORD_SIZE_eq]; omega)]
      exact h4 hu
    · exact ih h5 fun x hx1 hx2 => hag x (by omega) (by simpa only [endA] using hx2)

theorem chainSeg_append {h : Heap} {prev p : Nat} {l1 l2 : List Nat} {pl p' : Nat} :
    chainSeg h prev p (l1 ++ l2) pl p' ↔
      ∃ pm qm, chainSeg h prev p l1 pm qm ∧ chainSeg h pm qm l2 pl p' := by
  induction l1 generalizing prev p with
  | nil =>
    constructor
    · intro hc; exact ⟨prev, p, ⟨rfl, rfl⟩, hc⟩
    · rintro ⟨pm, qm, ⟨h1, h2⟩, hc⟩; rwa [h1, h2] at hc
  | cons b tl ih =>
    constructor
    · rintro ⟨h1, h2, h3, h4⟩
      obtain ⟨pm, qm, hc1, hc2⟩ := ih.mp h4
      exact ⟨pm, qm, ⟨h1, h2, h3, hc1⟩, hc2⟩
    · rintro ⟨pm, qm, ⟨h1, h2, h3, h4⟩, hc⟩
      exact ⟨h1, h2, h3, ih.mpr ⟨pm, qm, h4, hc⟩⟩

theorem chainSeg_frame {h h' : Heap} {prev p : Nat} {l : List Nat} {pl p' : Nat}
    (hc : chainSeg h prev p l pl p')
    (hag : ∀ b ∈ l, rd h' (b + WORD_SIZE) = rd h (b + WORD_SIZE) ∧
      rd h' (b + 2 * WORD_SIZE) = rd h (b + 2 * WORD_SIZE)) :
    chainSeg h' prev p l pl p' := by
  induction l generalizing prev p with
  | nil => exact hc
  | cons b tl ih =>
    obtain ⟨h1, h2, h3, h4⟩ := hc
    obtain ⟨hagn, hagp⟩ := hag b (List.mem_cons_self b tl)
    refine ⟨h1, h2, by rw [hagp, h3], ?_⟩
    rw [hagn]
    exact ih h4 fun c hc' => hag c (List.mem_cons_of_mem b hc')

theorem mem_withAddrs_facts {h : Heap} {a : Nat} {p : Bool} {bl : List (Nat × Bool)}
    (hseg : blocksSeg h a p bl) {b sz : Nat} {u : Bool}
    (hmem : (b, sz, u) ∈ withAddrs a bl) :
    a ≤ b ∧ b + sz ≤ endA a bl ∧ MIN_BLOCK_SIZE ≤ sz ∧ sz % 8 = 0 ∧
      (∃ q, rd h b = hdrVal sz q u ∧
        (u = false → rd h (b + sz - WORD_SIZE) = hdrVal sz q false)) := by
  induction bl generalizing a p with
  | nil => simp [withAddrs] at hmem
  | cons hd tl ih =>
    obtain ⟨sz', u'⟩ := hd
    obtain ⟨h1, h2, h3, h4, h5⟩ := hseg
    rcases List.mem_cons.mp hmem with heq | hmem'
    · simp only [Prod.mk.injEq] at heq
      obtain ⟨rfl, rfl, rfl⟩ := heq
      refine ⟨Nat.le_refl _, ?_, h1, h2, p, h3, h4⟩
      simpa only [endA] using le_endA (b + sz) tl
    · obtain ⟨k1, k2, k3, k4, k5⟩ := ih h5 hmem'
      refine ⟨by omega, by simpa only [endA] using k2, k3, k4, k5⟩

theorem mem_freeAddrs_iff {a : Nat} {bl : List (Nat × Bool)} {b : Nat} :
    b ∈ freeAddrs a bl ↔ ∃ sz, (b, sz, false) ∈ withAddrs a bl := by
  induction bl generalizing a with
  | nil => simp [freeAddrs, withAddrs]
  | cons hd tl ih =>
    obtain ⟨sz', u'⟩ := hd
    cases u' <;> simp [freeAddrs, withAddrs, ih] <;> aesop

theorem withAddrs_append (a : Nat) (l1 l2 : List (Nat × Bool)) :
    withAddrs a (l1 ++ l2) = withAddrs a l1 ++ withAddrs (endA a l1) l2 := by
  induction l1 generalizing a with
  | nil => rfl
  | cons hd tl ih => obtain ⟨sz, u⟩ := hd; simp [withAddrs, endA, ih]

theorem freeAddrs_append (a : Nat) (l1 l2 : List (Nat × Bool)) :
    freeAddrs a (l1 ++ l2) = freeAddrs a l1 ++ freeAddrs (endA a l1) l2 := by
  induction l1 generalizing a with
  | nil => rfl
  | cons hd tl ih =>
    obtain ⟨sz, u⟩ := hd
    cases u <;> simp [freeAddrs, endA, ih]

theorem mem_freeAddrs_lb {h : Heap} {a : Nat} {p : Bool} {bl : List (Nat × Bool)}
    (hseg : blocksSeg h a p bl) {b : Nat} (hb : b ∈ freeAddrs a bl) : a ≤ b := by
  obtain ⟨sz, hmem⟩ := mem_freeAddrs_iff.mp hb
  exact (mem_withAddrs_facts hseg hmem).1

theorem freeAddrs_nodup {h : Heap} {a : Nat} {p : Bool} {bl : List (Nat × Bool)}
    (hseg : blocksSeg h a p bl) : (freeAddrs a bl).Nodup := by
  induction bl generalizing a p with
  | nil => simp [freeAddrs]
  | cons hd tl ih =>
    obtain ⟨sz, u⟩ := hd
    obtain ⟨h1, h2, h3, h4, h5⟩ := hseg
    have h1' : 32 ≤ sz := h1
    cases u with
    | true => rw [freeAddrs_cons_used]; exact ih h5
    | false =>
      rw [freeAddrs_cons_free, List.nodup_cons]
      refine ⟨fun hmem => ?_, ih h5⟩
      have := mem_freeAddrs_lb h5 hmem
      omega

theorem withAddrs_disjoint {h : Heap} {a : Nat} {p : Bool} {bl : List (Nat × Bool)}
    (hseg : blocksSeg h a p bl) {b1 s1 b2 s2 : Nat} {u1 u2 : Bool}
    (hm1 : (b1, s1, u1) ∈ withAddrs a bl) (hm2 : (b2, s2, u2) ∈ withAddrs a bl)
    (hne : b1 ≠ b2) : b1 + s1 ≤ b2 ∨ b2 + s2 ≤ b1 := by
  induction bl generalizing a p with
  | nil => simp [withAddrs] at hm1
  | cons hd tl ih =>
    obtain ⟨sz, u⟩ := hd
    obtain ⟨h1, h2, h3, h4, h5⟩ := hseg
    rcases List.mem_cons.mp hm1 with he1 | hm1' <;> rcases List.mem_cons.mp hm2 with he2 | hm2'
    · simp only [Prod.mk.injEq] at he1 he2
      exact absurd (he1.1.trans he2.1.symm) hne
    · simp only [Prod.mk.injEq] at he1
      obtain ⟨rfl, rfl, rfl⟩ := he1
      exact Or.inl (mem_withAddrs_facts h5 hm2').1
    · simp only [Prod.mk.injEq] at he2
      obtain ⟨rfl, rfl, rfl⟩ := he2
      exact Or.inr (mem_withAddrs_facts h5 hm1').1
    · exact ih h5 hm1' hm2'

theorem freeAddrs_sep {h : Heap} {a : Nat} {p : Bool} {bl : List (Nat × Bool)}
    (hseg : blocksSeg h a p bl) {b1 b2 : Nat}
    (hm1 : b1 ∈ freeAddrs a bl) (hm2 : b2 ∈ freeAddrs a bl) (hne : b1 ≠ b2) :
    b1 + 32 ≤ b2 ∨ b2 + 32 ≤ b1 := by
  obtain ⟨s1, hw1⟩ := mem_freeAddrs_iff.mp hm1
  obtain ⟨s2, hw2⟩ := mem_freeAddrs_iff.mp hm2
  have hs1 : MIN_BLOCK_SIZE ≤ s1 := (mem_withAddrs_facts hseg hw1).2.2.1
  have hs2 : MIN_BLOCK_SIZE ≤ s2 := (mem_withAddrs_facts hseg hw2).2.2.1
  have hs1' : 32 ≤ s1 := hs1
  have hs2' : 32 ≤ s2 := hs2
  rcases withAddrs_disjoint hseg hw1 hw2 hne with hle | hle
  · exact Or.inl (by omega)
  · exact Or.inr (by omega)

/-! ### Free-list chain lemmas for `insert_free_block`, `remove_free_block`,
and `search_free_list` -/

theorem chainSeg_last {h : Heap} {prev p : Nat} {l : List Nat} {pm qm : Nat}
    (hc : chainSeg h prev p l pm qm) :
    l = [] ∨ (pm ∈ l ∧ qm = rd h (pm + WORD_SIZE)) := by
  induction l generalizing prev p with
  | nil => exact Or.inl rfl
  | cons b tl ih =>
    obtain ⟨h1, h2, h3, h4⟩ := hc
    rcases ih h4 with rfl | ⟨hm, hq⟩
    · obtain ⟨he1, he2⟩ := h4
      exact Or.inr ⟨by simp [he1], by rw [he2, he1]⟩
    · exact Or.inr ⟨List.mem_cons_of_mem b hm, hq⟩

theorem chainSeg_head {h : Heap} {prev p : Nat} {l : List Nat} {pm qm : Nat}
    (hc : chainSeg h prev p l pm qm) (hne : l ≠ []) : p = l.headI := by
  cases l with
  | nil => exact absurd rfl hne
  | cons b tl => exact hc.1

theorem chainSeg_mem_ne_zero {h : Heap} {prev p : Nat} {l : List Nat} {pm qm : Nat}
    (hc : chainSeg h prev p l pm qm) {b : Nat} (hb : b ∈ l) : b ≠ 0 := by
  induction l generalizing prev p with
  | nil => simp at hb
  | cons c tl ih =>
    obtain ⟨h1, h2, h3, h4⟩ := hc
    rcases List.mem_cons.mp hb with rfl | hb'
    · exact h2
    · exact ih h4 hb'

theorem chainSeg_wr_frame {h : Heap} {prev p : Nat} {l : List Nat} {pm qm : Nat}
    (hc : chainSeg h prev p l pm qm) {x v : Nat}
    (hx : ∀ c ∈ l, x ≠ c + WORD_SIZE ∧ x ≠ c + 2 * WORD_SIZE) :
    chainSeg (wr h x v) prev p l pm qm :=
  chainSeg_frame hc fun b hb => by
    obtain ⟨hx1, hx2⟩ := hx b hb
    constructor <;> simp [rd_wr] <;> omega

/-- Writing `v` into the `next` field of the last node of a chain run turns
its exit pointer into `v`. -/
theorem chainSeg_set_last_next {h : Heap} {prev p : Nat} {l : List Nat} {pm qm : Nat}
    (hc : chainSeg h prev p l pm qm) (hne : l ≠ [])
    (hsep : ∀ b1 ∈ l, ∀ b2 ∈ l, b1 ≠ b2 → b1 + 32 ≤ b2 ∨ b2 + 32 ≤ b1)
    (hnd : l.Nodup) (v : Nat) :
    chainSeg (wr h (pm + WORD_SIZE) v) prev p l pm v := by
  induction l generalizing prev p with
  | nil => exact absurd rfl hne
  | cons b tl ih =>
    obtain ⟨h1, h2, h3, h4⟩ := hc
    cases tl with
    | nil =>
      obtain ⟨he1, he2⟩ := h4
      subst he1
      refine ⟨h1, h2, ?_, rfl, ?_⟩
      · have hx : pm + 2 * WORD_SIZE ≠ pm + WORD_SIZE := by simp [WORD_SIZE_eq]
        rw [rd_wr, if_neg hx]
        exact h3
      · simp [rd_wr]
    | cons c tl' =>
      have hpm : pm ∈ c :: tl' := by
        rcases chainSeg_last h4 with he | ⟨hm, _⟩
        · exact absurd he (by simp)
        · exact hm
      have hbpm : b ≠ pm := (List.nodup_cons.mp hnd).1 ∘ fun he => he ▸ hpm
      have hsepb : b + 32 ≤ pm ∨ pm + 32 ≤ b :=
        hsep b (by simp) pm (List.mem_cons_of_mem b hpm) hbpm
      refine ⟨h1, h2, ?_, ?_⟩
      · rw [rd_wr]
        rw [if_neg (by simp [WORD_SIZE_eq]; omega), h3]
      · have hb8 : b + WORD_SIZE ≠ pm + WORD_SIZE := by simp [WORD_SIZE_eq]; omega
        rw [rd_wr, if_neg hb8]
        exact ih h4 (by simp)
          (fun b1 hb1 b2 hb2 => hsep b1 (List.mem_cons_of_mem b hb1) b2 (List.mem_cons_of_mem b hb2))
          (List.nodup_cons.mp hnd).2

/-- Specification of `remove_free_block` on a well-linked free list: the
node is unlinked, the heap size is unchanged, and only the head word and
`next`/`prev` fields of list nodes are written. -/
theorem remove_spec {h : Heap} {fl : List Nat} {pl b : Nat}
    (hch : chainSeg h 0 (freeListHead h) fl pl 0)
    (hnd : fl.Nodup)
    (hsep : ∀ b1 ∈ fl, ∀ b2 ∈ fl, b1 ≠ b2 → b1 + 32 ≤ b2 ∨ b2 + 32 ≤ b1)
    (hb : b ∈ fl) :
    (∃ pl', chainSeg (remove_free_block h b) 0 (freeListHead (remove_free_block h b))
        (fl.erase b) pl' 0) ∧
    (remove_free_block h b).size = h.size ∧
    (∀ x, x ≠ 0 → (∀ c ∈ fl, x ≠ c + WORD_SIZE ∧ x ≠ c + 2 * WORD_SIZE) →
      rd (remove_free_block h b) x = rd h x) := by
  obtain ⟨l1, l2, rfl⟩ := List.append_of_mem hb
  obtain ⟨hnd1, hndb2, hdisj⟩ := List.nodup_append.mp hnd
  have hbl1 : b ∉ l1 := fun hmem => hdisj hmem (List.mem_cons_self b l2)
  have hnd2 : l2.Nodup := (List.nodup_cons.mp hndb2).2
  have hbl2 : b ∉ l2 := (List.nodup_cons.mp hndb2).1
  have herase : (l1 ++ b :: l2).erase b = l1 ++ l2 := by
    rw [List.erase_append_right _ hbl1, List.erase_cons_head]
  obtain ⟨pm, qm, hc1, hc2⟩ := chainSeg_append.mp hch
  obtain ⟨hq, hb0, hprev, hrest⟩ := hc2
  rw [hq] at hc1
  clear hq
  rw [herase]
  cases l1 with
  | nil =>
    obtain ⟨hpm0, hqh⟩ := hc1
    subst hpm0
    have hhead : freeListHead h = b := hqh.symm
    cases l2 with
    | nil =>
      obtain ⟨hplb, hnext0⟩ := hrest
      have hnext : rd h (b + WORD_SIZE) = 0 := hnext0.symm
      have hfinal : remove_free_block h b = wr h 0 0 := by
        simp only [remove_free_block]
        rw [hnext, hprev]
        rw [if_neg (show ¬ (0:Nat) ≠ 0 by simp)]
        rw [if_pos (show b = freeListHead h from hhead.symm)]
      refine ⟨⟨0, ?_⟩, by simp [hfinal], ?_⟩
      · rw [hfinal]
        exact ⟨rfl, by simp [freeListHead, rd_wr]⟩
      · intro x hx0 hcells
        rw [hfinal, rd_wr, if_neg hx0]
    | cons n l2' =>
      obtain ⟨hn, hn0, hnprev, hrest'⟩ := hrest
      have hnb : n ≠ b := fun he => hbl2 (List.mem_cons.mpr (Or.inl he.symm))
      have hfinal : remove_free_block h b = wr (wr h (n + 2 * WORD_SIZE) 0) 0 n := by
        simp only [remove_free_block]
        rw [hn, hprev]
        have hcond : b = freeListHead (wr h (n + 2 * WORD_SIZE) 0) := by
          have hne : (0:Nat) ≠ n + 2 * WORD_SIZE := by simp [WORD_SIZE_eq]
          simp only [freeListHead, rd_wr, if_neg hne]
          exact hhead.symm
        rw [if_pos (show (n:Nat) ≠ 0 from hn0)]
        rw [if_pos hcond]
      refine ⟨⟨pl, ?_⟩, by simp [hfinal], ?_⟩
      · rw [hfinal]
        have hflh : freeListHead (wr (wr h (n + 2 * WORD_SIZE) 0) 0 n) = n := by
          simp [freeListHead, rd_wr]
        rw [hflh]
        refine ⟨rfl, hn0, ?_, ?_⟩
        · have h1 : n + 2 * WORD_SIZE ≠ 0 := by simp [WORD_SIZE_eq]
          rw [rd_wr, if_neg h1, rd_wr, if_pos rfl]
        · have h1 : n + WORD_SIZE ≠ 0 := by simp [WORD_SIZE_eq]
          have h2 : n + WORD_SIZE ≠ n + 2 * WORD_SIZE := by simp [WORD_SIZE_eq]
          rw [rd_wr, if_neg h1, rd_wr, if_neg h2]
          refine chainSeg_wr_frame (chainSeg_wr_frame hrest' ?_) ?_
          · intro c hc
            have hcn : c ≠ n := fun he => (List.nodup_cons.mp hnd2).1 (he ▸ hc)
            have hsepcn : c + 32 ≤ n ∨ n + 32 ≤ c :=
              hsep c (by simp [hc]) n (by simp) hcn
            refine ⟨?_, ?_⟩ <;> simp only [WORD_SIZE_eq] <;> omega
          · intro c _
            refine ⟨?_, ?_⟩ <;> simp only [WORD_SIZE_eq] <;> omega
      · intro x hx0 hcells
        obtain ⟨hxn8, hxn16⟩ := hcells n (by simp)
        rw [hfinal, rd_wr, if_neg hx0, rd_wr, if_neg hxn16]
  | cons m l1' =>
    have hl1ne : (m :: l1') ≠ ([] : List Nat) := by simp
    have hhead : freeListHead h = m := hc1.1
    have hmb : b ≠ m := fun he => hbl1 (List.mem_cons.mpr (Or.inl he))
    obtain ⟨hpmmem, hqmlast⟩ := (chainSeg_last hc1).resolve_left hl1ne
    have hpmmem' : pm ∈ (m :: l1') ++ b :: l2 := List.mem_append_left _ hpmmem
    have hsepl1 : ∀ b1 ∈ m :: l1', ∀ b2 ∈ m :: l1', b1 ≠ b2 → b1 + 32 ≤ b2 ∨ b2 + 32 ≤ b1 :=
      fun b1 h1 b2 h2 hne =>
        hsep b1 (List.mem_append_left _ h1) b2 (List.mem_append_left _ h2) hne
    cases l2 with
    | nil =>
      obtain ⟨hplb, hnext0⟩ := hrest
      have hnext : rd h (b + WORD_SIZE) = 0 := hnext0.symm
      have hfinal : remove_free_block h b = wr h (pm + WORD_SIZE) 0 := by
        simp only [remove_free_block]
        rw [hnext, hprev]
        rw [if_neg (show ¬ (0:Nat) ≠ 0 by simp)]
        rw [if_neg (show ¬ b = freeListHead h from fun he => hmb (he.trans hhead))]
      refine ⟨⟨pm, ?_⟩, by simp [hfinal], ?_⟩
      · rw [hfinal, List.append_nil]
        have hflh : freeListHead (wr h (pm + WORD_SIZE) 0) = m := by
          have hne : (0:Nat) ≠ pm + WORD_SIZE := by simp [WORD_SIZE_eq]
          simp only [freeListHead, rd_wr, if_neg hne]
          exact hhead
        rw [hflh]
        have hres := chainSeg_set_last_next hc1 hl1ne hsepl1 hnd1 0
        rwa [hhead] at hres
      · intro x hx0 hcells
        obtain ⟨hxp8, _⟩ := hcells pm hpmmem'
        rw [hfinal, rd_wr, if_neg hxp8]
    | cons n l2' =>
      obtain ⟨hn, hn0, hnprev, hrest'⟩ := hrest
      have hnmem : n ∈ (m :: l1') ++ b :: n :: l2' := by simp
      have hnpm : n ≠ pm := fun he =>
        hdisj hpmmem (List.mem_cons.mpr (Or.inr (List.mem_cons.mpr (Or.inl he.symm))))
      have hseppn : n + 32 ≤ pm ∨ pm + 32 ≤ n := hsep n hnmem pm hpmmem' hnpm
      have hfinal : remove_free_block h b =
          wr (wr h (n + 2 * WORD_SIZE) pm) (pm + WORD_SIZE) n := by
        simp only [remove_free_block]
        rw [hn, hprev]
        have hflh2 : freeListHead (wr h (n + 2 * WORD_SIZE) pm) = freeListHead h := by
          have hne : (0:Nat) ≠ n + 2 * WORD_SIZE := by simp [WORD_SIZE_eq]
          simp only [freeListHead, rd_wr, if_neg hne]
        have hcond : ¬ b = freeListHead (wr h (n + 2 * WORD_SIZE) pm) :=
          fun he => hmb ((he.trans hflh2).trans hhead)
        rw [if_pos (show (n:Nat) ≠ 0 from hn0)]
        rw [if_neg hcond]
      refine ⟨⟨pl, ?_⟩, by simp [hfinal], ?_⟩
      · rw [hfinal]
        have hflh : freeListHead
            (wr (wr h (n + 2 * WORD_SIZE) pm) (pm + WORD_SIZE) n) = m := by
          have h1 : (0:Nat) ≠ pm + WORD_SIZE := by simp [WORD_SIZE_eq]
          have h2 : (0:Nat) ≠ n + 2 * WORD_SIZE := by simp [WORD_SIZE_eq]
          simp only [freeListHead, rd_wr, if_neg h1, if_neg h2]
          exact hhead
        rw [hflh]
        refine chainSeg_append.mpr ⟨pm, n, ?_, ?_⟩
        · have hstep1 : chainSeg (wr h (n + 2 * WORD_SIZE) pm) 0 m (m :: l1') pm b := by
            refine chainSeg_wr_frame (hhead ▸ hc1) ?_
            intro c hcm
            have hcn : c ≠ n := fun he => hdisj (he ▸ hcm) (by simp)
            have hsepcn := hsep c (List.mem_append_left _ hcm) n hnmem hcn
            refine ⟨?_, ?_⟩ <;> simp only [WORD_SIZE_eq] <;> omega
          exact chainSeg_set_last_next hstep1 hl1ne hsepl1 hnd1 n
        · refine ⟨rfl, hn0, ?_, ?_⟩
          · have hx : n + 2 * WORD_SIZE ≠ pm + WORD_SIZE := by
              simp only [WORD_SIZE_eq]; omega
            rw [rd_wr, if_neg hx, rd_wr, if_pos rfl]
          · have hx1 : n + WORD_SIZE ≠ pm + WORD_SIZE := by
              simp only [WORD_SIZE_eq]; omega
            have hx2 : n + WORD_SIZE ≠ n + 2 * WORD_SIZE := by simp [WORD_SIZE_eq]
            rw [rd_wr, if_neg hx1, rd_wr, if_neg hx2]
            refine chainSeg_wr_frame (chainSeg_wr_frame hrest' ?_) ?_
            · intro c hc
              have hcn : c ≠ n := fun he => (List.nodup_cons.mp hnd2).1 (he ▸ hc)
              have hsepcn := hsep c (by simp [hc]) n hnmem hcn
              refine ⟨?_, ?_⟩ <;> simp only [WORD_SIZE_eq] <;> omega
            · intro c hc
              have hcpm : c ≠ pm := by
                intro he
                subst he
                exact hdisj hpmmem
                  (List.mem_cons.mpr (Or.inr (List.mem_cons.mpr (Or.inr hc))))
              have hsepcpm := hsep c (by simp [hc]) pm hpmmem' hcpm
              refine ⟨?_, ?_⟩ <;> simp only [WORD_SIZE_eq] <;> omega
      · intro x hx0 hcells
        obtain ⟨hxp8, _⟩ := hcells pm hpmmem'
        obtain ⟨_, hxn16⟩ := hcells n hnmem
        rw [hfinal, rd_wr, if_neg hxp8, rd_wr, if_neg hxn16]

/-- Specification of `insert_free_block`: LIFO insertion at the head; only
the head word, the new node's pointer fields and the old head's `prev`
field are written. -/
theorem insert_spec {h : Heap} {fl : List Nat} {pl b : Nat}
    (hch : chainSeg h 0 (freeListHead h) fl pl 0)
    (hnd : fl.Nodup)
    (hb0 : b ≠ 0)
    (hsep : ∀ c ∈ fl, b + 32 ≤ c ∨ c + 32 ≤ b)
    (hsepfl : ∀ b1 ∈ fl, ∀ b2 ∈ fl, b1 ≠ b2 → b1 + 32 ≤ b2 ∨ b2 + 32 ≤ b1) :
    (∃ pl', chainSeg (insert_free_block h b) 0 (freeListHead (insert_free_block h b))
        (b :: fl) pl' 0) ∧
    (insert_free_block h b).size = h.size ∧
    (∀ x, x ≠ 0 → x ≠ b + WORD_SIZE → x ≠ b + 2 * WORD_SIZE →
      (∀ c ∈ fl, x ≠ c + 2 * WORD_SIZE) →
      rd (insert_free_block h b) x = rd h x) := by
  cases fl with
  | nil =>
    obtain ⟨hpl0, hp⟩ := hch
    have hflh0 : freeListHead h = 0 := hp.symm
    have hfinal : insert_free_block h b =
        wr (wr (wr h (b + WORD_SIZE) 0) (b + 2 * WORD_SIZE) 0) 0 b := by
      simp only [insert_free_block]
      rw [hflh0]
      rw [if_neg (show ¬ (0:Nat) ≠ 0 by simp)]
    have hb8 : b + WORD_SIZE ≠ 0 := by simp [WORD_SIZE_eq]
    have hb16 : b + 2 * WORD_SIZE ≠ 0 := by simp [WORD_SIZE_eq]
    have hb816 : b + WORD_SIZE ≠ b + 2 * WORD_SIZE := by simp [WORD_SIZE_eq]
    refine ⟨⟨b, ?_⟩, by simp [hfinal], ?_⟩
    · rw [hfinal]
      have hflh : freeListHead
          (wr (wr (wr h (b + WORD_SIZE) 0) (b + 2 * WORD_SIZE) 0) 0 b) = b := by
        simp [freeListHead, rd_wr]
      rw [hflh]
      refine ⟨rfl, hb0, ?_, ?_⟩
      · rw [rd_wr, if_neg hb16, rd_wr, if_pos rfl]
      · rw [rd_wr, if_neg hb8, rd_wr, if_neg hb816, rd_wr, if_pos rfl]
        exact ⟨rfl, rfl⟩
    · intro x hx0 hxb8 hxb16 _
      rw [hfinal, rd_wr, if_neg hx0, rd_wr, if_neg hxb16, rd_wr, if_neg hxb8]
  | cons n fl' =>
    obtain ⟨hpn, hn0, hnprev, hrest⟩ := hch
    have hflhn : freeListHead h = n := hpn
    have hbn : b ≠ n := fun he => by
      have := hsep n (List.mem_cons_self n fl')
      omega
    have hsepbn : b + 32 ≤ n ∨ n + 32 ≤ b := hsep n (List.mem_cons_self n fl')
    have hfinal : insert_free_block h b =
        wr (wr (wr (wr h (b + WORD_SIZE) n) (n + 2 * WORD_SIZE) b)
          (b + 2 * WORD_SIZE) 0) 0 b := by
      simp only [insert_free_block]
      rw [hflhn]
      rw [if_pos (show (n:Nat) ≠ 0 from hn0)]
    have hb8 : b + WORD_SIZE ≠ 0 := by simp [WORD_SIZE_eq]
    have hb16 : b + 2 * WORD_SIZE ≠ 0 := by simp [WORD_SIZE_eq]
    have hb816 : b + WORD_SIZE ≠ b + 2 * WORD_SIZE := by simp [WORD_SIZE_eq]
    have hn16b8 : b + WORD_SIZE ≠ n + 2 * WORD_SIZE := by
      simp only [WORD_SIZE_eq]; omega
    have hn16b16 : b + 2 * WORD_SIZE ≠ n + 2 * WORD_SIZE := by
      simp only [WORD_SIZE_eq]; omega
    have hn160 : (0:Nat) ≠ n + 2 * WORD_SIZE := by simp [WORD_SIZE_eq]
    refine ⟨⟨pl, ?_⟩, by simp [hfinal], ?_⟩
    · rw [hfinal]
      have hflh : freeListHead (wr (wr (wr (wr h (b + WORD_SIZE) n)
          (n + 2 * WORD_SIZE) b) (b + 2 * WORD_SIZE) 0) 0 b) = b := by
        simp [freeListHead, rd_wr]
      rw [hflh]
      refine ⟨rfl, hb0, ?_, ?_⟩
      · rw [rd_wr, if_neg hb16, rd_wr, if_pos rfl]
      · rw [rd_wr, if_neg hb8, rd_wr, if_neg hb816, rd_wr, if_neg hn16b8,
          rd_wr, if_pos rfl]
        refine ⟨rfl, hn0, ?_, ?_⟩
        · have h1 : n + 2 * WORD_SIZE ≠ 0 := fun he => hn160 he.symm
          have h2 : n + 2 * WORD_SIZE ≠ b + 2 * WORD_SIZE := fun he => hn16b16 he.symm
          rw [rd_wr, if_neg h1, rd_wr, if_neg h2, rd_wr, if_pos rfl]
        · have h1 : n + WORD_SIZE ≠ 0 := by simp [WORD_SIZE_eq]
          have h2 : n + WORD_SIZE ≠ b + 2 * WORD_SIZE := by
            simp only [WORD_SIZE_eq]; omega
          have h3 : n + WORD_SIZE ≠ n + 2 * WORD_SIZE := by simp [WORD_SIZE_eq]
          have h4 : n + WORD_SIZE ≠ b + WORD_SIZE := by
            simp only [WORD_SIZE_eq]; omega
          rw [rd_wr, if_neg h1, rd_wr, if_neg h2, rd_wr, if_neg h3, rd_wr, if_neg h4]
          refine chainSeg_wr_frame (chainSeg_wr_frame (chainSeg_wr_frame
            (chainSeg_wr_frame hrest ?_) ?_) ?_) ?_
          · intro c hc
            have hsepc := hsep c (List.mem_cons_of_mem n hc)
            refine ⟨?_, ?_⟩ <;> simp only [WORD_SIZE_eq] <;> omega
          · intro c hc
            have hcn : c ≠ n := fun he => (List.nodup_cons.mp hnd).1 (he ▸ hc)
            have hsepc := hsepfl c (List.mem_cons_of_mem n hc) n
              (List.mem_cons_self n fl') hcn
            refine ⟨?_, ?_⟩ <;> simp only [WORD_SIZE_eq] <;> omega
          · intro c hc
            have hsepc := hsep c (List.mem_cons_of_mem n hc)
            refine ⟨?_, ?_⟩ <;> simp only [WORD_SIZE_eq] <;> omega
          · intro c hc
            refine ⟨?_, ?_⟩ <;> simp only [WORD_SIZE_eq] <;> omega
    · intro x hx0 hxb8 hxb16 hcells
      have hxn16 : x ≠ n + 2 * WORD_SIZE := hcells n (List.mem_cons_self n fl')
      rw [hfinal, rd_wr, if_neg hx0, rd_wr, if_neg hxb16, rd_wr, if_neg hxn16,
        rd_wr, if_neg hxb8]

/-- `searchLoop` performs the first-fit scan: it returns the first node of
the chain whose size is at least `req_size`, or `0` when none qualifies,
provided the fuel exceeds the chain length. -/
theorem searchLoop_eq_find {h : Heap} {prev p : Nat} {fl : List Nat} {pl : Nat}
    (hch : chainSeg h prev p fl pl 0) {fuel : Nat} (hfuel : fl.length < fuel)
    (req : Nat) :
    searchLoop h req fuel p =
      ((fl.find? fun c => req ≤ SIZE (rd h c)).getD 0) := by
  induction fl generalizing prev p fuel with
  | nil =>
    obtain ⟨_, hp⟩ := hch
    cases fuel with
    | zero => omega
    | succ f => simp [searchLoop, ← hp]
  | cons b tl ih =>
    obtain ⟨hpb, hb0, _, hrest⟩ := hch
    cases fuel with
    | zero => simp at hfuel
    | succ f =>
      rw [hpb]
      simp only [searchLoop]
      rw [if_neg hb0]
      by_cases hge : req ≤ SIZE (rd h b)
      · rw [if_pos hge, List.find?_cons_of_pos _ (by simpa using hge)]
        rfl
      · rw [if_neg hge, List.find?_cons_of_neg _ (by simpa using hge)]
        exact ih hrest (by simpa using Nat.lt_of_succ_lt_succ hfuel)

theorem freeAddrs_length_le (a : Nat) (bl : List (Nat × Bool)) :
    (freeAddrs a bl).length ≤ bl.length := by
  induction bl generalizing a with
  | nil => simp [freeAddrs]
  | cons hd tl ih =>
    obtain ⟨sz, u⟩ := hd
    cases u with
    | true =>
      rw [freeAddrs_cons_used]
      exact Nat.le_succ_of_le (ih (a + sz))
    | false =>
      rw [freeAddrs_cons_free]
      simpa using ih (a + sz)

theorem blocksSeg_length_bound {h : Heap} {a : Nat} {p : Bool}
    {bl : List (Nat × Bool)} (hseg : blocksSeg h a p bl) :
    a + 32 * bl.length ≤ endA a bl := by
  induction bl generalizing a p with
  | nil => simp [endA]
  | cons hd tl ih =>
    obtain ⟨sz, u⟩ := hd
    obtain ⟨h1, h2, _, _, h5⟩ := hseg
    have h1' : 32 ≤ sz := h1
    have := ih h5
    simp only [endA, List.length_cons]
    omega

/-- On a well-formed heap, the free list is shorter than the heap byte
count, so `search_free_list`'s fuel is sufficient. -/
theorem WF_fl_length_lt {h : Heap} {bl : List (Nat × Bool)} {fl : List Nat}
    (hwf : WF h bl fl) : fl.length < h.size := by
  have hperm := hwf.perm.length_eq
  have hfa := freeAddrs_length_le WORD_SIZE bl
  have hbound := blocksSeg_length_bound hwf.seg
  have hsent := hwf.sentinelAddr
  simp only [WORD_SIZE_eq] at *
  omega

/-- `search_free_list` on a well-formed heap is the first-fit scan over the
free list. -/
theorem search_spec {h : Heap} {bl : List (Nat × Bool)} {fl : List Nat}
    (hwf : WF h bl fl) (req : Nat) :
    search_free_list h req = ((fl.find? fun c => req ≤ SIZE (rd h c)).getD 0) := by
  obtain ⟨pl, hch⟩ := hwf.chain
  exact searchLoop_eq_find hch (WF_fl_length_lt hwf) req

/-! ### Tag-bit tests on boundary-tag words -/

theorem hdrVal_test_prec_false {sz : Nat} (hsz : sz % 8 = 0) (u : Bool) :
    hdrVal sz false u &&& TAG_PRECEDING_USED = 0 := by
  rw [TAG_PRECEDING_USED_eq, hdrVal_and_two hsz]
  simp

theorem hdrVal_test_prec_true {sz : Nat} (hsz : sz % 8 = 0) (u : Bool) :
    hdrVal sz true u &&& TAG_PRECEDING_USED ≠ 0 := by
  rw [TAG_PRECEDING_USED_eq, hdrVal_and_two hsz]
  simp

theorem hdrVal_test_used_false {sz : Nat} (hsz : sz % 8 = 0) (p : Bool) :
    hdrVal sz p false &&& TAG_USED = 0 := by
  rw [TAG_USED_eq, hdrVal_and_one hsz]
  simp

theorem hdrVal_test_used_true {sz : Nat} (hsz : sz % 8 = 0) (p : Bool) :
    hdrVal sz p true &&& TAG_USED ≠ 0 := by
  rw [TAG_USED_eq, hdrVal_and_one hsz]
  simp

/-! ### The coalescing loops: step lemmas -/

theorem coalesceBack_stop {h : Heap} {c n : Nat}
    (hc : rd h c &&& TAG_PRECEDING_USED ≠ 0) (fuel : Nat) :
    coalesceBack fuel h c n = (h, c, n) := by
  cases fuel with
  | zero => rfl
  | succ f => simp only [coalesceBack]; rw [if_neg hc]

theorem coalesceFwd_stop {h : Heap} {c n : Nat}
    (hc : rd h c &&& TAG_USED ≠ 0) (fuel : Nat) :
    coalesceFwd fuel h c n = (h, c, n) := by
  cases fuel with
  | zero => rfl
  | succ f => simp only [coalesceFwd]; rw [if_neg hc]

theorem coalesceBack_one {h : Heap} {A n szP : Nat}
    (hA : rd h A &&& TAG_PRECEDING_USED = 0)
    (hft : SIZE (rd h (A - WORD_SIZE)) = szP)
    (hstop : rd (remove_free_block h (A - szP)) (A - szP) &&& TAG_PRECEDING_USED ≠ 0)
    {fuel : Nat} (hfuel : 2 ≤ fuel) :
    coalesceBack fuel h A n = (remove_free_block h (A - szP), A - szP, n + szP) := by
  obtain ⟨f, rfl⟩ : ∃ f, fuel = f + 2 := ⟨fuel - 2, by omega⟩
  simp only [coalesceBack]
  rw [if_pos hA, hft]
  exact coalesceBack_stop hstop (f + 1)

theorem coalesceFwd_one {h : Heap} {C n szF : Nat}
    (hC : rd h C &&& TAG_USED = 0)
    (hsz : SIZE (rd h C) = szF)
    (hstop : rd (remove_free_block h C) (C + szF) &&& TAG_USED ≠ 0)
    {fuel : Nat} (hfuel : 2 ≤ fuel) :
    coalesceFwd fuel h C n = (remove_free_block h C, C + szF, n + szF) := by
  obtain ⟨f, rfl⟩ : ∃ f, fuel = f + 2 := ⟨fuel - 2, by omega⟩
  simp only [coalesceFwd]
  rw [if_pos hC, hsz]
  exact coalesceFwd_stop hstop (f + 1)

/-- `coalesce_free_block` is the identity when the preceding block is used
and the following block is used (no free memory-neighbor). -/
theorem coalesce_noop {h : Heap} {b : Nat}
    (hprec : rd h b &&& TAG_PRECEDING_USED ≠ 0)
    (hfoll : rd h (b + SIZE (rd h b)) &&& TAG_USED ≠ 0) :
    coalesce_free_block h b = h := by
  simp only [coalesce_free_block]
  rw [coalesceBack_stop hprec, coalesceFwd_stop hfoll]
  simp

/-! ### `mm_init` establishes the invariant -/

theorem init_WF : WF (mm_init emptyHeap) [(32, false)] [8] := by
  refine ⟨?_, ?_, ?_, ⟨8, ?_⟩, ?_, ?_⟩
  · exact ⟨by decide, by decide, by decide, fun _ => by decide, trivial⟩
  · decide
  · decide
  · exact ⟨by decide, by decide, by decide, rfl, by decide⟩
  · rw [freeAddrs_cons_free]
    exact List.Perm.refl _
  · exact ⟨Or.inl rfl, trivial⟩

/-! ### Extraction: the observed views of a well-formed heap -/

theorem heapBlocksLoop_of_seg {h : Heap} {a : Nat} {p q : Bool}
    {bl : List (Nat × Bool)}
    (hseg : blocksSeg h a p bl)
    (hsent : rd h (endA a bl) = hdrVal 0 q true)
    {fuel : Nat} (hfuel : bl.length < fuel) :
    heapBlocksLoop h fuel a = (withAddrs a bl).map (fun e => (e.1, rd h e.1)) := by
  induction bl generalizing a p fuel with
  | nil =>
    cases fuel with
    | zero => omega
    | succ f =>
      simp only [heapBlocksLoop, withAddrs, List.map_nil]
      rw [if_pos]
      simp only [endA] at hsent
      rw [hsent, SIZE_hdrVal (by norm_num)]
  | cons hd tl ih =>
    obtain ⟨sz, u⟩ := hd
    obtain ⟨h1, h2, h3, h4, h5⟩ := hseg
    have h1' : 32 ≤ sz := h1
    cases fuel with
    | zero => simp at hfuel
    | succ f =>
      simp only [heapBlocksLoop, withAddrs, List.map_cons]
      rw [if_neg (by rw [h3, SIZE_hdrVal h2]; omega)]
      rw [h3, SIZE_hdrVal h2]
      congr 1
      exact ih h5 (by simpa only [endA] using hsent) (by simpa using hfuel)

theorem WF_heapBlocks {h : Heap} {bl : List (Nat × Bool)} {fl : List Nat}
    (hwf : WF h bl fl) :
    heapBlocks h = (withAddrs WORD_SIZE bl).map (fun e => (e.1, rd h e.1)) := by
  have hlen : bl.length < h.size := by
    have hbound := blocksSeg_length_bound hwf.seg
    have hsent := hwf.sentinelAddr
    simp only [WORD_SIZE_eq] at *
    omega
  exact heapBlocksLoop_of_seg hwf.seg hwf.sentinelVal hlen

/-- Sum of the block sizes of a run equals the run's extent. -/
theorem endA_eq_add_sum (a : Nat) (bl : List (Nat × Bool)) :
    endA a bl = a + (bl.map Prod.fst).sum := by
  induction bl generalizing a with
  | nil => simp [endA]
  | cons hd tl ih =>
    obtain ⟨sz, u⟩ := hd
    simp only [endA, List.map_cons, List.sum_cons, ih]
    omega

/-! ### Fine-grained framing for block layouts

`segCells` enumerates the memory cells a `blocksSeg` assertion actually
reads: each block's header, and each free block's footer.  Writes to the
`next`/`prev` fields (which live strictly inside free blocks) or to cells
outside the run leave the layout intact. -/

/-- The cells (header and free-block footer addresses) constrained by a
block run laid out from `a`. -/
def segCells : Nat → List (Nat × Bool) → Nat → Prop
  | _, [], _ => False
  | a, (sz, u) :: rest, x =>
    x = a ∨ (u = false ∧ x = a + sz - WORD_SIZE) ∨ segCells (a + sz) rest x

theorem blocksSeg_frame2 {h h' : Heap} {a : Nat} {p : Bool} {bl : List (Nat × Bool)}
    (hseg : blocksSeg h a p bl)
    (hag : ∀ x, segCells a bl x → rd h' x = rd h x) :
    blocksSeg h' a p bl := by
  induction bl generalizing a p with
  | nil => trivial
  | cons hd tl ih =>
    obtain ⟨sz, u⟩ := hd
    obtain ⟨h1, h2, h3, h4, h5⟩ := hseg
    refine ⟨h1, h2, ?_, ?_, ?_⟩
    · rw [hag a (Or.inl rfl), h3]
    · intro hu
      rw [hag (a + sz - WORD_SIZE) (Or.inr (Or.inl ⟨hu, rfl⟩))]
      exact h4 hu
    · exact ih h5 fun x hx => hag x (Or.inr (Or.inr hx))

theorem segCells_mem {a : Nat} {bl : List (Nat × Bool)} {x : Nat}
    (hx : segCells a bl x) :
    ∃ C szC uC, (C, szC, uC) ∈ withAddrs a bl ∧
      (x = C ∨ (uC = false ∧ x = C + szC - WORD_SIZE)) := by
  induction bl generalizing a with
  | nil => simp [segCells] at hx
  | cons hd tl ih =>
    obtain ⟨sz, u⟩ := hd
    rcases hx with rfl | ⟨hu, rfl⟩ | hx'
    · exact ⟨x, sz, u, List.mem_cons_self _ _, Or.inl rfl⟩
    · exact ⟨a, sz, u, List.mem_cons_self _ _, Or.inr ⟨hu, rfl⟩⟩
    · obtain ⟨C, szC, uC, hmem, hc⟩ := ih hx'
      exact ⟨C, szC, uC, List.mem_cons_of_mem _ hmem, hc⟩

theorem segCells_bounds {h : Heap} {a : Nat} {p : Bool} {bl : List (Nat × Bool)}
    (hseg : blocksSeg h a p bl) {x : Nat} (hx : segCells a bl x) :
    a ≤ x ∧ x < endA a bl := by
  obtain ⟨C, szC, uC, hmem, hc⟩ := segCells_mem hx
  obtain ⟨k1, k2, k3, _, _⟩ := mem_withAddrs_facts hseg hmem
  have k3' : 32 ≤ szC := k3
  rcases hc with rfl | ⟨_, rfl⟩
  · simp only [WORD_SIZE_eq] at *
    omega
  · simp only [WORD_SIZE_eq] at *
    omega

theorem withAddrs_addr_inj {h : Heap} {a : Nat} {p : Bool} {bl : List (Nat × Bool)}
    (hseg : blocksSeg h a p bl) {C s1 s2 : Nat} {u1 u2 : Bool}
    (hm1 : (C, s1, u1) ∈ withAddrs a bl) (hm2 : (C, s2, u2) ∈ withAddrs a bl) :
    s1 = s2 ∧ u1 = u2 := by
  induction bl generalizing a p with
  | nil => simp [withAddrs] at hm1
  | cons hd tl ih =>
    obtain ⟨sz, u⟩ := hd
    obtain ⟨h1, h2, _, _, h5⟩ := hseg
    have h1' : 32 ≤ sz := h1
    rcases List.mem_cons.mp hm1 with he1 | hm1' <;> rcases List.mem_cons.mp hm2 with he2 | hm2'
    · simp only [Prod.mk.injEq] at he1 he2
      obtain ⟨rfl, rfl, rfl⟩ := he1
      obtain ⟨_, rfl, rfl⟩ := he2
      exact ⟨rfl, rfl⟩
    · simp only [Prod.mk.injEq] at he1
      obtain ⟨rfl, rfl, rfl⟩ := he1
      have := (mem_withAddrs_facts h5 hm2').1
      omega
    · simp only [Prod.mk.injEq] at he2
      obtain ⟨rfl, rfl, rfl⟩ := he2
      have := (mem_withAddrs_facts h5 hm1').1
      omega
    · exact ih h5 hm1' hm2'

/-- A cell strictly inside a block (between its header and its footer) is
not a layout cell of any sub-run of the full layout. -/
theorem not_segCells_of_interior {h : Heap} {p : Bool} {bl : List (Nat × Bool)}
    (hseg : blocksSeg h WORD_SIZE p bl) {X szX : Nat} {uX : Bool}
    (hX : (X, szX, uX) ∈ withAddrs WORD_SIZE bl)
    {x : Nat} (hx1 : X < x) (hx2 : x < X + szX - WORD_SIZE)
    {a' : Nat} {bl' : List (Nat × Bool)}
    (hsub : ∀ e ∈ withAddrs a' bl', e ∈ withAddrs WORD_SIZE bl) :
    ¬ segCells a' bl' x := by
  intro hsc
  obtain ⟨C, szC, uC, hmem', hc⟩ := segCells_mem hsc
  have hmemfull := hsub _ hmem'
  obtain ⟨_, _, hszC, _, _⟩ := mem_withAddrs_facts hseg hmemfull
  obtain ⟨_, _, hszX, _, _⟩ := mem_withAddrs_facts hseg hX
  have hszC' : 32 ≤ szC := hszC
  have hszX' : 32 ≤ szX := hszX
  by_cases hCX : C = X
  · subst hCX
    obtain ⟨hs, hu⟩ := withAddrs_addr_inj hseg hmemfull hX
    subst hs
    rcases hc with rfl | ⟨_, rfl⟩
    · omega
    · simp only [WORD_SIZE_eq] at *
      omega
  · rcases withAddrs_disjoint hseg hmemfull hX hCX with hle | hle <;>
      rcases hc with rfl | ⟨_, rfl⟩ <;> simp only [WORD_SIZE_eq] at * <;> omega

/-! ### Facts about the free list of a well-formed heap -/

theorem WF_fl_nodup {h : Heap} {bl : List (Nat × Bool)} {fl : List Nat}
    (hwf : WF h bl fl) : fl.Nodup :=
  (hwf.perm.nodup_iff).mpr (freeAddrs_nodup hwf.seg)

theorem WF_fl_block {h : Heap} {bl : List (Nat × Bool)} {fl : List Nat}
    (hwf : WF h bl fl) {c : Nat} (hc : c ∈ fl) :
    ∃ szc, (c, szc, false) ∈ withAddrs WORD_SIZE bl :=
  mem_freeAddrs_iff.mp (hwf.perm.subset hc)

theorem WF_fl_sep {h : Heap} {bl : List (Nat × Bool)} {fl : List Nat}
    (hwf : WF h bl fl) :
    ∀ b1 ∈ fl, ∀ b2 ∈ fl, b1 ≠ b2 → b1 + 32 ≤ b2 ∨ b2 + 32 ≤ b1 :=
  fun b1 h1 b2 h2 hne =>
    freeAddrs_sep hwf.seg (hwf.perm.subset h1) (hwf.perm.subset h2) hne

theorem WF_sep_blocks {h : Heap} {bl : List (Nat × Bool)} {fl : List Nat}
    (hwf : WF h bl fl) {A szA : Nat} {uA : Bool}
    (hA : (A, szA, uA) ∈ withAddrs WORD_SIZE bl) {c : Nat} (hc : c ∈ fl)
    (hne : c ≠ A) : A + 32 ≤ c ∨ c + 32 ≤ A := by
  obtain ⟨szc, hcm⟩ := WF_fl_block hwf hc
  have hd := withAddrs_disjoint hwf.seg hA hcm (fun he => hne he.symm)
  have h1 := (mem_withAddrs_facts hwf.seg hA).2.2.1
  have h2 := (mem_withAddrs_facts hwf.seg hcm).2.2.1
  have h1' : 32 ≤ szA := h1
  have h2' : 32 ≤ szc := h2
  omega

theorem WF_used_not_fl {h : Heap} {bl : List (Nat × Bool)} {fl : List Nat}
    (hwf : WF h bl fl) {A szA : Nat}
    (hA : (A, szA, true) ∈ withAddrs WORD_SIZE bl) : A ∉ fl := by
  intro hc
  obtain ⟨szc, hcm⟩ := WF_fl_block hwf hc
  exact absurd (withAddrs_addr_inj hwf.seg hA hcm).2 (by simp)

theorem rd_wr_ne {h : Heap} {a v x : Nat} (hx : x ≠ a) : rd (wr h a v) x = rd h x := by
  rw [rd_wr, if_neg hx]

theorem rd_wr_eq (h : Heap) (a v : Nat) : rd (wr h a v) a = v := by
  rw [rd_wr, if_pos rfl]

theorem noAdjFree_append {p : Bool} {l1 l2 : List (Nat × Bool)} :
    noAdjFree p (l1 ++ l2) ↔ noAdjFree p l1 ∧ noAdjFree (endP p l1) l2 := by
  induction l1 generalizing p with
  | nil => simp [noAdjFree, endP]
  | cons hd tl ih =>
    obtain ⟨sz, u⟩ := hd
    simp [noAdjFree, endP, ih, and_assoc]

theorem endP_false_decomp {l : List (Nat × Bool)} (hp : endP true l = false) :
    ∃ l' szP, l = l' ++ [(szP, false)] := by
  induction l with
  | nil => simp [endP] at hp
  | cons hd tl ih =>
    obtain ⟨sz, u⟩ := hd
    cases tl with
    | nil =>
      simp only [endP] at hp
      subst hp
      exact ⟨[], sz, rfl⟩
    | cons hd' tl' =>
      have hp' : endP true (hd' :: tl') = false := by
        simp only [endP] at hp ⊢
        cases u <;> [skip; skip] <;>
          · obtain ⟨h1, h2⟩ := hd'
            simpa [endP] using hp
      obtain ⟨l', szP, he⟩ := ih hp'
      exact ⟨(sz, u) :: l', szP, by rw [he]; rfl⟩

end MM

namespace MM

theorem or_two_hdr {sz : Nat} (hsz : sz % 8 = 0) :
    sz ||| TAG_PRECEDING_USED = hdrVal sz true false := by
  rw [TAG_PRECEDING_USED_eq, or_two_of (show sz / 2 % 2 = 0 by omega)]
  simp [hdrVal, TAG_PRECEDING_USED_eq]

theorem WF_not_segCells_ptr {h : Heap} {bl : List (Nat × Bool)} {fl : List Nat}
    (hwf : WF h bl fl) {c : Nat} (hc : c ∈ fl)
    {a' : Nat} {bl' : List (Nat × Bool)}
    (hsub : ∀ e ∈ withAddrs a' bl', e ∈ withAddrs WORD_SIZE bl) :
    ¬ segCells a' bl' (c + 2 * WORD_SIZE) ∧ ¬ segCells a' bl' (c + WORD_SIZE) := by
  obtain ⟨szc, hcm⟩ := WF_fl_block hwf hc
  have h32 := (mem_withAddrs_facts hwf.seg hcm).2.2.1
  have h32' : 32 ≤ szc := h32
  constructor
  · exact not_segCells_of_interior hwf.seg hcm
      (show c < c + 2 * WORD_SIZE by simp [WORD_SIZE_eq])
      (show c + 2 * WORD_SIZE < c + szc - WORD_SIZE by
        simp only [WORD_SIZE_eq]; omega) hsub
  · exact not_segCells_of_interior hwf.seg hcm
      (show c < c + WORD_SIZE by simp [WORD_SIZE_eq])
      (show c + WORD_SIZE < c + szc - WORD_SIZE by
        simp only [WORD_SIZE_eq]; omega) hsub

theorem free_WF {h : Heap} {bl : List (Nat × Bool)} {fl : List Nat}
    (hwf : WF h bl fl) {pre post : List (Nat × Bool)} {szA : Nat}
    (hbl : bl = pre ++ (szA, true) :: post) :
    Inv (mm_free h (endA WORD_SIZE pre + WORD_SIZE)) := by
  subst hbl
  obtain ⟨hsegpre, hsegmid⟩ := blocksSeg_append.mp hwf.seg
  set A := endA WORD_SIZE pre with hAdef
  set pA := endP true pre with hpAdef
  obtain ⟨hminA, hszA8, hhdrA, _, hsegpost⟩ := hsegmid
  have hminA' : 32 ≤ szA := hminA
  have hA8 : WORD_SIZE ≤ A := le_endA WORD_SIZE pre
  have hA8' : 8 ≤ A := hA8
  have hwaddr : withAddrs WORD_SIZE (pre ++ (szA, true) :: post) =
      withAddrs WORD_SIZE pre ++ (A, szA, true) :: withAddrs (A + szA) post := by
    rw [withAddrs_append]; rfl
  have hAmem : (A, szA, true) ∈ withAddrs WORD_SIZE (pre ++ (szA, true) :: post) := by
    rw [hwaddr]; exact List.mem_append_right _ (List.mem_cons_self _ _)
  have hfreeAeq : freeAddrs WORD_SIZE (pre ++ (szA, true) :: post) =
      freeAddrs WORD_SIZE pre ++ freeAddrs (A + szA) post := by
    rw [freeAddrs_append, freeAddrs_cons_used]
  have hAnotfl : A ∉ fl := WF_used_not_fl hwf hAmem
  have hsepdisj : ∀ c ∈ fl, A + szA ≤ c ∨ c + 32 ≤ A := by
    intro c hc
    obtain ⟨szc, hcm⟩ := WF_fl_block hwf hc
    have hne : c ≠ A := fun he => hAnotfl (he ▸ hc)
    have hd := withAddrs_disjoint hwf.seg hcm hAmem hne
    have h32 := (mem_withAddrs_facts hwf.seg hcm).2.2.1
    have h32' : 32 ≤ szc := h32
    omega
  have hsepfl := WF_fl_sep hwf
  have hnd := WF_fl_nodup hwf
  obtain ⟨pl, hch⟩ := hwf.chain
  have hsentA := hwf.sentinelAddr
  have hsentV := hwf.sentinelVal
  have hendbl : endA WORD_SIZE (pre ++ (szA, true) :: post) = endA (A + szA) post := by
    rw [endA_append]; rfl
  have hendPbl : endP true (pre ++ (szA, true) :: post) = endP true post := by
    rw [endP_append]; rfl
  have hptr : A + WORD_SIZE - WORD_SIZE = A := by omega
  have hFA : A + szA ≠ A := by omega
  have hunfold : mm_free h (A + WORD_SIZE) =
      coalesce_free_block
        (insert_free_block
          (wr (wr (wr h A (hdrVal szA pA false))
              (A + szA) (andNot (rd h (A + szA)) 2))
            (A + (szA - WORD_SIZE)) (hdrVal szA pA false)) A) A := by
    simp only [mm_free]
    rw [hptr, hhdrA, TAG_USED_eq, TAG_PRECEDING_USED_eq, hdrVal_andNot_one hszA8,
      SIZE_hdrVal hszA8, rd_wr_ne hFA,
      rd_wr_ne (show A ≠ A + szA from fun he => hFA he.symm), rd_wr_eq]
  rw [hunfold]
  -- the heap after the three writes of `mm_free`, before insertion
  set h3 := wr (wr (wr h A (hdrVal szA pA false))
      (A + szA) (andNot (rd h (A + szA)) 2))
    (A + (szA - WORD_SIZE)) (hdrVal szA pA false) with hh3def
  have hflh3 : freeListHead h3 = freeListHead h := by
    simp only [hh3def, freeListHead]
    rw [rd_wr_ne (show (0:Nat) ≠ A + (szA - WORD_SIZE) by simp only [WORD_SIZE_eq]; omega),
      rd_wr_ne (show (0:Nat) ≠ A + szA by omega),
      rd_wr_ne (show (0:Nat) ≠ A by omega)]
  have hch3 : chainSeg h3 0 (freeListHead h) fl pl 0 := by
    refine chainSeg_wr_frame (chainSeg_wr_frame (chainSeg_wr_frame hch ?_) ?_) ?_ <;>
      intro c hc <;> have hd := hsepdisj c hc <;> refine ⟨?_, ?_⟩ <;>
      simp only [WORD_SIZE_eq] <;> omega
  obtain ⟨⟨pl4, hch4⟩, hsize4, hag4⟩ :=
    insert_spec (hflh3.symm ▸ hch3) hnd (show A ≠ 0 by omega)
      (fun c hc => by have := hsepdisj c hc; omega) hsepfl
  have hagAll : ∀ x, x ≠ 0 → x ≠ A → x ≠ A + szA → x ≠ A + (szA - WORD_SIZE) →
      x ≠ A + WORD_SIZE → x ≠ A + 2 * WORD_SIZE → (∀ c ∈ fl, x ≠ c + 2 * WORD_SIZE) →
      rd (insert_free_block h3 A) x = rd h x := by
    intro x h0 hxA hxF hxft hx8 hx16 hcells
    rw [hag4 x h0 hx8 hx16 hcells, hh3def,
      rd_wr_ne hxft, rd_wr_ne hxF, rd_wr_ne hxA]
  have hcellA : ∀ c ∈ fl, A ≠ c + 2 * WORD_SIZE := by
    intro c hc
    have hd := hsepdisj c hc
    simp only [WORD_SIZE_eq]; omega
  have hrdA4 : rd (insert_free_block h3 A) A = hdrVal szA pA false := by
    rw [hag4 A (by omega) (by simp only [WORD_SIZE_eq]; omega)
        (by simp only [WORD_SIZE_eq]; omega) hcellA, hh3def,
      rd_wr_ne (show A ≠ A + (szA - WORD_SIZE) by simp only [WORD_SIZE_eq]; omega),
      rd_wr_ne (show A ≠ A + szA by omega), rd_wr_eq]
  have hrdF4 : rd (insert_free_block h3 A) (A + szA) = andNot (rd h (A + szA)) 2 := by
    rw [hag4 (A + szA) (by omega) (by simp only [WORD_SIZE_eq]; omega)
        (by simp only [WORD_SIZE_eq]; omega)
        (fun c hc => by have := hsepdisj c hc; simp only [WORD_SIZE_eq]; omega),
      hh3def,
      rd_wr_ne (show A + szA ≠ A + (szA - WORD_SIZE) by simp only [WORD_SIZE_eq]; omega),
      rd_wr_eq]
  have hrdft4 : rd (insert_free_block h3 A) (A + (szA - WORD_SIZE))
      = hdrVal szA pA false := by
    rw [hag4 (A + (szA - WORD_SIZE)) (by simp only [WORD_SIZE_eq]; omega)
        (by simp only [WORD_SIZE_eq]; omega) (by simp only [WORD_SIZE_eq]; omega)
        (fun c hc => by have := hsepdisj c hc; simp only [WORD_SIZE_eq]; omega),
      hh3def, rd_wr_eq]
  have hsubpre : ∀ e ∈ withAddrs WORD_SIZE pre,
      e ∈ withAddrs WORD_SIZE (pre ++ (szA, true) :: post) := by
    intro e hel
    rw [hwaddr]; exact List.mem_append_left _ hel
  have hagpre : ∀ x, segCells WORD_SIZE pre x →
      rd (insert_free_block h3 A) x = rd h x := by
    intro x hx
    obtain ⟨hxlb, hxub⟩ := segCells_bounds hsegpre hx
    refine hagAll x (by simp only [WORD_SIZE_eq] at hxlb; omega) (by omega) (by omega)
      (by simp only [WORD_SIZE_eq]; omega) (by simp only [WORD_SIZE_eq]; omega)
      (by simp only [WORD_SIZE_eq]; omega) ?_
    intro c hc he
    exact (WF_not_segCells_ptr hwf hc hsubpre).1 (he ▸ hx)
  have hsegpre4 : blocksSeg (insert_free_block h3 A) WORD_SIZE true pre :=
    blocksSeg_frame2 hsegpre hagpre
  have hftaddr : A + szA - WORD_SIZE = A + (szA - WORD_SIZE) := by
    simp only [WORD_SIZE_eq]; omega
  have hadjpre : noAdjFree true pre := (noAdjFree_append.mp hwf.adj).1
  have hadjpost := (noAdjFree_append.mp hwf.adj).2
  have hs3size : h3.size = h.size := by rw [hh3def]; rfl
  have hhs : 16 ≤ h.size := by
    have := le_endA WORD_SIZE (pre ++ (szA, true) :: post)
    simp only [WORD_SIZE_eq] at this hsentA
    omega
  have hndAfl : (A :: fl).Nodup := by
    rw [List.nodup_cons]; exact ⟨hAnotfl, hnd⟩
  have hsepAfl : ∀ b1 ∈ A :: fl, ∀ b2 ∈ A :: fl, b1 ≠ b2 →
      b1 + 32 ≤ b2 ∨ b2 + 32 ≤ b1 := by
    intro b1 h1 b2 h2 hne
    rcases List.mem_cons.mp h1 with rfl | h1' <;>
      rcases List.mem_cons.mp h2 with rfl | h2'
    · omega
    · have := hsepdisj b2 h2'; omega
    · have := hsepdisj b1 h1'; omega
    · exact hsepfl b1 h1' b2 h2' hne
  rcases Bool.dichotomy pA with hpA | hpA
  · -- the preceding block is free: coalesce absorbs it backward
    obtain ⟨pre', szP, hpre⟩ := endP_false_decomp (hpAdef ▸ hpA)
    subst hpre
    obtain ⟨hsegpre', hsegPmid⟩ := blocksSeg_append.mp hsegpre
    obtain ⟨hminP, hszP8, hhdrP, hftPimpl, _⟩ := hsegPmid
    have hftP := hftPimpl rfl
    have hminP' : 32 ≤ szP := hminP
    set P := endA WORD_SIZE pre' with hPdef
    set pP := endP true pre' with hpPdef
    have hAP : A = P + szP := by
      rw [hAdef, endA_append]
      simp only [endA]
    have hP8 : WORD_SIZE ≤ P := le_endA WORD_SIZE pre'
    have hP8' : 8 ≤ P := hP8
    have hpP : pP = true := by
      have hj := (noAdjFree_append.mp hadjpre).2
      rcases hj.1 with hc | hc
      · exact hc
      · exact absurd hc (by simp)
    have hfpre : freeAddrs WORD_SIZE (pre' ++ [(szP, false)]) =
        freeAddrs WORD_SIZE pre' ++ [P] := by
      rw [freeAddrs_append]
      rfl
    have hPfl : P ∈ fl := by
      refine hwf.perm.mem_iff.mpr ?_
      rw [hfreeAeq, hfpre]
      exact List.mem_append_left _ (List.mem_append_right _ (List.mem_cons_self _ _))
    have hPmem : (P, szP, false) ∈
        withAddrs WORD_SIZE ((pre' ++ [(szP, false)]) ++ (szA, true) :: post) := by
      rw [hwaddr, withAddrs_append]
      exact List.mem_append_left _ (List.mem_append_right _ (List.mem_cons_self _ _))
    have hPdisj : ∀ c ∈ fl, c ≠ P → c + 32 ≤ P ∨ P + szP ≤ c := by
      intro c hc hne
      obtain ⟨szc, hcm⟩ := WF_fl_block hwf hc
      have h32 := (mem_withAddrs_facts hwf.seg hcm).2.2.1
      have h32' : 32 ≤ szc := h32
      have hd := withAddrs_disjoint hwf.seg hcm hPmem hne
      omega
    have hcellsPft : ∀ c ∈ A :: fl, P + szP - WORD_SIZE ≠ c + WORD_SIZE ∧
        P + szP - WORD_SIZE ≠ c + 2 * WORD_SIZE := by
      intro c hc
      rcases List.mem_cons.mp hc with rfl | hc'
      · refine ⟨?_, ?_⟩ <;> simp only [WORD_SIZE_eq] <;> omega
      · by_cases hne : c = P
        · subst hne
          refine ⟨?_, ?_⟩ <;> simp only [WORD_SIZE_eq] <;> omega
        · have := hPdisj c hc' hne
          refine ⟨?_, ?_⟩ <;> simp only [WORD_SIZE_eq] <;> omega
    have hcellsP : ∀ c ∈ A :: fl, P ≠ c + WORD_SIZE ∧ P ≠ c + 2 * WORD_SIZE := by
      intro c hc
      rcases List.mem_cons.mp hc with rfl | hc'
      · refine ⟨?_, ?_⟩ <;> simp only [WORD_SIZE_eq] <;> omega
      · by_cases hne : c = P
        · subst hne
          refine ⟨?_, ?_⟩ <;> simp only [WORD_SIZE_eq] <;> omega
        · have := hPdisj c hc' hne
          refine ⟨?_, ?_⟩ <;> simp only [WORD_SIZE_eq] <;> omega
    have hrdPft4 : rd (insert_free_block h3 A) (A - WORD_SIZE) = hdrVal szP pP false := by
      rw [show A - WORD_SIZE = P + szP - WORD_SIZE by omega]
      rw [hagAll (P + szP - WORD_SIZE) (by simp only [WORD_SIZE_eq]; omega)
        (by simp only [WORD_SIZE_eq]; omega) (by simp only [WORD_SIZE_eq]; omega)
        (by simp only [WORD_SIZE_eq]; omega)
        (by simp only [WORD_SIZE_eq]; omega) (by simp only [WORD_SIZE_eq]; omega)
        (fun c hc => (hcellsPft c (List.mem_cons_of_mem A hc)).2)]
      exact hftP
    have hrdP4 : rd (insert_free_block h3 A) P = hdrVal szP pP false := by
      rw [hagAll P (by omega) (by omega) (by omega)
        (by simp only [WORD_SIZE_eq]; omega) (by simp only [WORD_SIZE_eq]; omega)
        (by simp only [WORD_SIZE_eq]; omega)
        (fun c hc => (hcellsP c (List.mem_cons_of_mem A hc)).2)]
      exact hhdrP
    obtain ⟨⟨pl5, hch5⟩, hsize5, hag5⟩ :=
      remove_spec hch4 hndAfl hsepAfl (List.mem_cons_of_mem A hPfl)
    have herase1 : (A :: fl).erase P = A :: fl.erase P := by
      rw [List.erase_cons_tail]
      simp only [beq_iff_eq]
      omega
    rw [herase1] at hch5
    have hrdP5 : rd (remove_free_block (insert_free_block h3 A) P) P
        = hdrVal szP pP false := by
      rw [hag5 P (by omega) hcellsP]
      exact hrdP4
    have hb0 : rd (insert_free_block h3 A) A &&& TAG_PRECEDING_USED = 0 := by
      rw [hrdA4, hpA]
      exact hdrVal_test_prec_false hszA8 false
    have hftsize : SIZE (rd (insert_free_block h3 A) (A - WORD_SIZE)) = szP := by
      rw [hrdPft4, SIZE_hdrVal hszP8]
    have hAmszP : A - szP = P := by omega
    have hbackstop : rd (remove_free_block (insert_free_block h3 A) (A - szP))
        (A - szP) &&& TAG_PRECEDING_USED ≠ 0 := by
      rw [hAmszP, hrdP5, hpP]
      exact hdrVal_test_prec_true hszP8 false
    have hback : coalesceBack (insert_free_block h3 A).size (insert_free_block h3 A) A szA
        = (remove_free_block (insert_free_block h3 A) P, P, szA + szP) := by
      rw [coalesceBack_one hb0 hftsize hbackstop
        (by rw [hsize4, hs3size]; omega), hAmszP]
    cases post with
    | nil =>
      -- the freed block was the last block
      have hsentV' : rd h (A + szA) = hdrVal 0 true true := by
        have hv := hsentV
        rw [hendbl] at hv
        simp only [endA] at hv
        rw [hendPbl] at hv
        simpa only [endP] using hv
      have hvF : andNot (rd h (A + szA)) 2 = hdrVal 0 false true := by
        rw [hsentV', hdrVal_andNot_two (by norm_num)]
      have hcellsS : ∀ c ∈ A :: fl, A + szA ≠ c + WORD_SIZE ∧
          A + szA ≠ c + 2 * WORD_SIZE := by
        intro c hc
        rcases List.mem_cons.mp hc with rfl | hc'
        · refine ⟨?_, ?_⟩ <;> simp only [WORD_SIZE_eq] <;> omega
        · have := hsepdisj c hc'
          refine ⟨?_, ?_⟩ <;> simp only [WORD_SIZE_eq] <;> omega
      have hfwdstop : rd (remove_free_block (insert_free_block h3 A) P)
          (A + szA) &&& TAG_USED ≠ 0 := by
        rw [hag5 (A + szA) (by omega) hcellsS, hrdF4, hvF]
        exact hdrVal_test_used_true (by norm_num) false
      have hcoal : coalesce_free_block (insert_free_block h3 A) A =
          insert_free_block
            (wr (wr (remove_free_block
                (remove_free_block (insert_free_block h3 A) P) A)
              P ((szA + szP) ||| TAG_PRECEDING_USED))
              (A + szA - WORD_SIZE) ((szA + szP) ||| TAG_PRECEDING_USED)) P := by
        simp only [coalesce_free_block]
        rw [hrdA4, SIZE_hdrVal hszA8, hback]
        dsimp only
        rw [coalesceFwd_stop hfwdstop]
        dsimp only
        rw [if_pos (show szA + szP ≠ szA by omega)]
      rw [hcoal]
      have hnd5 : (A :: fl.erase P).Nodup := by
        rw [List.nodup_cons]
        exact ⟨fun hm => hAnotfl (List.mem_of_mem_erase hm), hnd.erase _⟩
      have hsep5 : ∀ b1 ∈ A :: fl.erase P, ∀ b2 ∈ A :: fl.erase P,
          b1 ≠ b2 → b1 + 32 ≤ b2 ∨ b2 + 32 ≤ b1 := by
        intro b1 h1 b2 h2 hne
        refine hsepAfl b1 ?_ b2 ?_ hne <;>
          [rcases List.mem_cons.mp h1 with rfl | h1'; rcases List.mem_cons.mp h2 with rfl | h2']
        · exact List.mem_cons_self _ _
        · exact List.mem_cons_of_mem _ (List.mem_of_mem_erase h1')
        · exact List.mem_cons_self _ _
        · exact List.mem_cons_of_mem _ (List.mem_of_mem_erase h2')
      obtain ⟨⟨pl6, hch6⟩, hsize6, hag6⟩ :=
        remove_spec hch5 hnd5 hsep5 (List.mem_cons_self _ _)
      rw [List.erase_cons_head] at hch6
      have hmemerase : ∀ c ∈ fl.erase P, c ∈ fl ∧ c ≠ P := by
        intro c hc
        exact ⟨List.mem_of_mem_erase hc, ((hnd.mem_erase_iff).mp hc).1⟩
      have hchw : ∀ c ∈ fl.erase P,
          (P ≠ c + WORD_SIZE ∧ P ≠ c + 2 * WORD_SIZE) ∧
          (A + szA - WORD_SIZE ≠ c + WORD_SIZE ∧
           A + szA - WORD_SIZE ≠ c + 2 * WORD_SIZE) := by
        intro c hc
        obtain ⟨hcfl, hcne⟩ := hmemerase c hc
        have hd1 := hPdisj c hcfl hcne
        have hd2 := hsepdisj c hcfl
        refine ⟨⟨?_, ?_⟩, ?_, ?_⟩ <;> simp only [WORD_SIZE_eq] <;> omega
      have hch8pre : chainSeg
          (wr (wr (remove_free_block
              (remove_free_block (insert_free_block h3 A) P) A)
            P ((szA + szP) ||| TAG_PRECEDING_USED))
            (A + szA - WORD_SIZE) ((szA + szP) ||| TAG_PRECEDING_USED))
          0 (freeListHead (remove_free_block
              (remove_free_block (insert_free_block h3 A) P) A))
          (fl.erase P) pl6 0 := by
        refine chainSeg_wr_frame (chainSeg_wr_frame hch6 ?_) ?_
        · exact fun c hc => (hchw c hc).1
        · exact fun c hc => (hchw c hc).2
      have hflh8 : freeListHead
          (wr (wr (remove_free_block
              (remove_free_block (insert_free_block h3 A) P) A)
            P ((szA + szP) ||| TAG_PRECEDING_USED))
            (A + szA - WORD_SIZE) ((szA + szP) ||| TAG_PRECEDING_USED))
          = freeListHead (remove_free_block
              (remove_free_block (insert_free_block h3 A) P) A) := by
        simp only [freeListHead]
        rw [rd_wr_ne (show (0:Nat) ≠ A + szA - WORD_SIZE by
            simp only [WORD_SIZE_eq]; omega),
          rd_wr_ne (show (0:Nat) ≠ P by omega)]
      obtain ⟨⟨pl9, hch9⟩, hsize9, hag9⟩ :=
        insert_spec (hflh8.symm ▸ hch8pre) (hnd.erase _) (show P ≠ 0 by omega)
          (fun c hc => by
            obtain ⟨hcfl, hcne⟩ := hmemerase c hc
            have := hsepfl P hPfl c hcfl (fun he => hcne he.symm)
            omega)
          (fun b1 h1 b2 h2 hne =>
            hsepfl b1 (List.mem_of_mem_erase h1) b2 (List.mem_of_mem_erase h2) hne)
      have hagfinalB : ∀ x, x ≠ 0 → x ≠ A → x ≠ A + szA → x ≠ A + (szA - WORD_SIZE) →
          x ≠ P → x ≠ A + WORD_SIZE → x ≠ A + 2 * WORD_SIZE →
          (∀ c ∈ fl, x ≠ c + WORD_SIZE ∧ x ≠ c + 2 * WORD_SIZE) →
          rd (insert_free_block
            (wr (wr (remove_free_block
                (remove_free_block (insert_free_block h3 A) P) A)
              P ((szA + szP) ||| TAG_PRECEDING_USED))
              (A + szA - WORD_SIZE) ((szA + szP) ||| TAG_PRECEDING_USED)) P) x
            = rd h x := by
        intro x h0 hxA hxF hxft hxP hx8 hx16 hcells
        rw [hag9 x h0 (hcells P hPfl).1 (hcells P hPfl).2
          (fun c hc => (hcells c (List.mem_of_mem_erase hc)).2),
          rd_wr_ne (show x ≠ A + szA - WORD_SIZE by
            simp only [WORD_SIZE_eq] at hxft ⊢; omega),
          rd_wr_ne hxP,
          hag6 x h0 (fun c hc => by
            rcases List.mem_cons.mp hc with rfl | hc'
            · exact ⟨hx8, hx16⟩
            · exact hcells c (List.mem_of_mem_erase hc')),
          hag5 x h0 (fun c hc => by
            rcases List.mem_cons.mp hc with rfl | hc'
            · exact ⟨hx8, hx16⟩
            · exact hcells c hc')]
        exact hagAll x h0 hxA hxF hxft hx8 hx16 (fun c hc => (hcells c hc).2)
      have hcellsP' : ∀ c ∈ fl.erase P, P ≠ c + 2 * WORD_SIZE :=
        fun c hc => (hcellsP c (List.mem_cons_of_mem A (List.mem_of_mem_erase hc))).2
      have hrdhdr : rd (insert_free_block
          (wr (wr (remove_free_block
              (remove_free_block (insert_free_block h3 A) P) A)
            P ((szA + szP) ||| TAG_PRECEDING_USED))
            (A + szA - WORD_SIZE) ((szA + szP) ||| TAG_PRECEDING_USED)) P) P
          = hdrVal (szA + szP) true false := by
        rw [hag9 P (by omega) (by simp only [WORD_SIZE_eq]; omega)
            (by simp only [WORD_SIZE_eq]; omega) hcellsP',
          rd_wr_ne (show P ≠ A + szA - WORD_SIZE by
            simp only [WORD_SIZE_eq]; omega),
          rd_wr_eq, or_two_hdr (by omega)]
      have hrdftr : rd (insert_free_block
          (wr (wr (remove_free_block
              (remove_free_block (insert_free_block h3 A) P) A)
            P ((szA + szP) ||| TAG_PRECEDING_USED))
            (A + szA - WORD_SIZE) ((szA + szP) ||| TAG_PRECEDING_USED)) P)
          (A + szA - WORD_SIZE)
          = hdrVal (szA + szP) true false := by
        rw [hag9 (A + szA - WORD_SIZE) (by simp only [WORD_SIZE_eq]; omega)
            (by simp only [WORD_SIZE_eq]; omega)
            (by simp only [WORD_SIZE_eq]; omega)
            (fun c hc => (hchw c hc).2.2),
          rd_wr_eq, or_two_hdr (by omega)]
      have hrdsent : rd (insert_free_block
          (wr (wr (remove_free_block
              (remove_free_block (insert_free_block h3 A) P) A)
            P ((szA + szP) ||| TAG_PRECEDING_USED))
            (A + szA - WORD_SIZE) ((szA + szP) ||| TAG_PRECEDING_USED)) P)
          (A + szA) = hdrVal 0 false true := by
        rw [hag9 (A + szA) (by omega) (by simp only [WORD_SIZE_eq]; omega)
            (by simp only [WORD_SIZE_eq]; omega)
            (fun c hc => (hcellsS c (List.mem_cons_of_mem A
              (List.mem_of_mem_erase hc))).2),
          rd_wr_ne (show A + szA ≠ A + szA - WORD_SIZE by
            simp only [WORD_SIZE_eq]; omega),
          rd_wr_ne (show A + szA ≠ P by omega),
          hag6 (A + szA) (by omega) (fun c hc => by
            rcases List.mem_cons.mp hc with rfl | hc'
            · exact hcellsS A (List.mem_cons_self _ _)
            · exact hcellsS c (List.mem_cons_of_mem A (List.mem_of_mem_erase hc'))),
          hag5 (A + szA) (by omega) hcellsS, hrdF4, hvF]
      have hsubpre' : ∀ e ∈ withAddrs WORD_SIZE pre',
          e ∈ withAddrs WORD_SIZE ((pre' ++ [(szP, false)]) ++ (szA, true) :: []) := by
        intro e hel
        rw [hwaddr, withAddrs_append]
        exact List.mem_append_left _ (List.mem_append_left _ hel)
      refine ⟨pre' ++ [(szA + szP, false)], P :: fl.erase P,
        ?_, ?_, ?_, ⟨pl9, hch9⟩, ?_, ?_⟩
      · refine blocksSeg_append.mpr ⟨?_, ?_⟩
        · refine blocksSeg_frame2 hsegpre' ?_
          intro x hx
          obtain ⟨hxlb, hxub⟩ := segCells_bounds hsegpre' hx
          rw [← hPdef] at hxub
          refine hagfinalB x (by simp only [WORD_SIZE_eq] at hxlb; omega) (by omega)
            (by omega) (by simp only [WORD_SIZE_eq]; omega) (by omega)
            (by simp only [WORD_SIZE_eq]; omega) (by simp only [WORD_SIZE_eq]; omega) ?_
          intro c hc
          exact ⟨fun he => (WF_not_segCells_ptr hwf hc hsubpre').2 (he ▸ hx),
            fun he => (WF_not_segCells_ptr hwf hc hsubpre').1 (he ▸ hx)⟩
        · refine ⟨by simp only [MIN_BLOCK_SIZE_eq]; omega, by omega, ?_, ?_, trivial⟩
          · rw [← hPdef, ← hpPdef, hpP]
            exact hrdhdr
          · intro _
            rw [← hPdef, ← hpPdef, hpP,
              show P + (szA + szP) - WORD_SIZE = A + szA - WORD_SIZE by
                simp only [WORD_SIZE_eq]; omega]
            exact hrdftr
      · rw [endA_append]
        simp only [endA]
        rw [← hPdef, hsize9]
        simp only [size_wr]
        rw [hsize6, hsize5, hsize4, hs3size]
        have hsA := hsentA
        rw [hendbl] at hsA
        simp only [endA] at hsA
        omega
      · rw [endA_append]
        simp only [endA]
        have hend' : endP true (pre' ++ [(szA + szP, false)]) = false := by
          rw [endP_append]; rfl
        rw [hend', ← hPdef, show P + (szA + szP) = A + szA by omega]
        exact hrdsent
      · have hfp : freeAddrs WORD_SIZE (pre' ++ [(szA + szP, false)]) =
            freeAddrs WORD_SIZE pre' ++ [P] := by
          rw [freeAddrs_append]
          rfl
        rw [hfp]
        have hnotin : P ∉ freeAddrs WORD_SIZE pre' := by
          intro hmem
          obtain ⟨sze, hm⟩ := mem_freeAddrs_iff.mp hmem
          have hb := (mem_withAddrs_facts hsegpre' hm).2.1
          have h32 := (mem_withAddrs_facts hsegpre' hm).2.2.1
          have h32' : 32 ≤ sze := h32
          rw [← hPdef] at hb
          omega
        have hq := hwf.perm
        rw [hfreeAeq, hfpre] at hq
        simp only [freeAddrs, List.append_nil] at hq
        have hek : (fl.erase P).Perm (freeAddrs WORD_SIZE pre') := by
          have he2 := hq.erase P
          rwa [List.erase_append_right _ hnotin, List.erase_cons_head,
            List.append_nil] at he2
        refine (hek.cons P).trans ?_
        simpa using (@List.perm_middle _ P (freeAddrs WORD_SIZE pre') []).symm
      · exact noAdjFree_append.mpr
          ⟨(noAdjFree_append.mp hadjpre).1, Or.inl hpP, trivial⟩
    | cons hdF postT =>
      obtain ⟨szF, uF⟩ := hdF
      rcases Bool.dichotomy uF with huF | huF
      · -- both neighbors free: the block absorbs both of them
        subst huF
        obtain ⟨hminF, hszF8, hhdrF, hftF, hsegpostT⟩ := hsegpost
        have hminF' : 32 ≤ szF := hminF
        have hFfl : A + szA ∈ fl := by
          refine hwf.perm.mem_iff.mpr ?_
          rw [hfreeAeq]
          refine List.mem_append_right _ ?_
          rw [freeAddrs_cons_free]
          exact List.mem_cons_self _ _
        have hFmem : (A + szA, szF, false) ∈
            withAddrs WORD_SIZE
              ((pre' ++ [(szP, false)]) ++ (szA, true) :: (szF, false) :: postT) := by
          rw [hwaddr]
          exact List.mem_append_right _ (List.mem_cons_of_mem _ (List.mem_cons_self _ _))
        have hcdisjF : ∀ c ∈ fl, c ≠ A + szA → c + 32 ≤ A ∨ A + szA + szF ≤ c := by
          intro c hc hne
          obtain ⟨szc, hcm⟩ := WF_fl_block hwf hc
          have h32 := (mem_withAddrs_facts hwf.seg hcm).2.2.1
          have h32' : 32 ≤ szc := h32
          have hd1 := withAddrs_disjoint hwf.seg hcm hFmem hne
          have hd2 := hsepdisj c hc
          omega
        have hcellsS : ∀ c ∈ A :: fl, A + szA ≠ c + WORD_SIZE ∧
            A + szA ≠ c + 2 * WORD_SIZE := by
          intro c hc
          rcases List.mem_cons.mp hc with rfl | hc'
          · refine ⟨?_, ?_⟩ <;> simp only [WORD_SIZE_eq] <;> omega
          · have := hsepdisj c hc'
            refine ⟨?_, ?_⟩ <;> simp only [WORD_SIZE_eq] <;> omega
        have hcellsS2 : ∀ c ∈ A :: fl, A + szA + szF ≠ c + WORD_SIZE ∧
            A + szA + szF ≠ c + 2 * WORD_SIZE := by
          intro c hc
          rcases List.mem_cons.mp hc with rfl | hc'
          · refine ⟨?_, ?_⟩ <;> simp only [WORD_SIZE_eq] <;> omega
          · by_cases hne : c = A + szA
            · subst hne
              refine ⟨?_, ?_⟩ <;> simp only [WORD_SIZE_eq] <;> omega
            · have := hcdisjF c hc' hne
              refine ⟨?_, ?_⟩ <;> simp only [WORD_SIZE_eq] <;> omega
        have hstopval : ∃ szS qS, szS % 8 = 0 ∧
            rd h (A + szA + szF) = hdrVal szS qS true := by
          cases postT with
          | nil =>
            refine ⟨0, endP true
              ((pre' ++ [(szP, false)]) ++ (szA, true) :: (szF, false) :: []),
              by norm_num, ?_⟩
            have hv := hsentV
            rw [hendbl] at hv
            simpa only [endA] using hv
          | cons hdG postG =>
            obtain ⟨szG, uG⟩ := hdG
            obtain ⟨_, hszG8, hhdrG, _, _⟩ := hsegpostT
            have huG : uG = true := by
              rcases hadjpost.2.2.1 with hc | hc
              · exact absurd hc (by simp)
              · exact hc
            refine ⟨szG, false, hszG8, ?_⟩
            rw [hhdrG, huG]
        obtain ⟨szS, qS, hszS8, hrdS⟩ := hstopval
        have hrdS4 : rd (insert_free_block h3 A) (A + szA + szF)
            = hdrVal szS qS true := by
          rw [hagAll (A + szA + szF) (by omega) (by omega) (by omega)
            (by simp only [WORD_SIZE_eq]; omega) (by simp only [WORD_SIZE_eq]; omega)
            (by simp only [WORD_SIZE_eq]; omega)
            (fun c hc => (hcellsS2 c (List.mem_cons_of_mem A hc)).2), hrdS]
        have hrdS5 : rd (remove_free_block (insert_free_block h3 A) P)
            (A + szA + szF) = hdrVal szS qS true := by
          rw [hag5 (A + szA + szF) (by omega) hcellsS2, hrdS4]
        have hrdF5 : rd (remove_free_block (insert_free_block h3 A) P)
            (A + szA) = hdrVal szF false false := by
          rw [hag5 (A + szA) (by omega) hcellsS, hrdF4, hhdrF, hdrVal_andNot_two hszF8]
        -- remove the following free block
        have hnd5 : (A :: fl.erase P).Nodup := by
          rw [List.nodup_cons]
          exact ⟨fun hm => hAnotfl (List.mem_of_mem_erase hm), hnd.erase _⟩
        have hsep5 : ∀ b1 ∈ A :: fl.erase P, ∀ b2 ∈ A :: fl.erase P,
            b1 ≠ b2 → b1 + 32 ≤ b2 ∨ b2 + 32 ≤ b1 := by
          intro b1 h1 b2 h2 hne
          refine hsepAfl b1 ?_ b2 ?_ hne <;>
            [rcases List.mem_cons.mp h1 with rfl | h1'; rcases List.mem_cons.mp h2 with rfl | h2']
          · exact List.mem_cons_self _ _
          · exact List.mem_cons_of_mem _ (List.mem_of_mem_erase h1')
          · exact List.mem_cons_self _ _
          · exact List.mem_cons_of_mem _ (List.mem_of_mem_erase h2')
        have hFflP : A + szA ∈ fl.erase P :=
          (hnd.mem_erase_iff).mpr ⟨by omega, hFfl⟩
        obtain ⟨⟨pl6, hch6⟩, hsize6, hag6⟩ :=
          remove_spec hch5 hnd5 hsep5 (List.mem_cons_of_mem A hFflP)
        have herase2 : (A :: fl.erase P).erase (A + szA)
            = A :: (fl.erase P).erase (A + szA) := by
          rw [List.erase_cons_tail]
          simp only [beq_iff_eq]
          omega
        rw [herase2] at hch6
        have hrdS6 : rd (remove_free_block
            (remove_free_block (insert_free_block h3 A) P) (A + szA))
            (A + szA + szF) = hdrVal szS qS true := by
          rw [hag6 (A + szA + szF) (by omega) (fun c hc => by
            rcases List.mem_cons.mp hc with rfl | hc'
            · exact hcellsS2 A (List.mem_cons_self _ _)
            · exact hcellsS2 c (List.mem_cons_of_mem A (List.mem_of_mem_erase hc'))),
            hrdS5]
        -- the full coalesce computation: absorb P backward and A + szA forward
        have hcoal : coalesce_free_block (insert_free_block h3 A) A =
            insert_free_block
              (wr (wr (remove_free_block (remove_free_block (remove_free_block
                  (insert_free_block h3 A) P) (A + szA)) A)
                P ((szA + szP + szF) ||| TAG_PRECEDING_USED))
                (A + szA + szF - WORD_SIZE)
                ((szA + szP + szF) ||| TAG_PRECEDING_USED)) P := by
          simp only [coalesce_free_block]
          rw [hrdA4, SIZE_hdrVal hszA8, hback]
          dsimp only
          rw [coalesceFwd_one
            (by rw [hrdF5]; exact hdrVal_test_used_false hszF8 false)
            (by rw [hrdF5, SIZE_hdrVal hszF8])
            (by rw [hrdS6]; exact hdrVal_test_used_true hszS8 qS)
            (by rw [hsize5, hsize4, hs3size]; omega)]
          dsimp only
          rw [if_pos (show szA + szP + szF ≠ szA by omega)]
        rw [hcoal]
        -- remove the freed block itself
        have hnd6 : (A :: (fl.erase P).erase (A + szA)).Nodup := by
          rw [List.nodup_cons]
          refine ⟨fun hm => hAnotfl
            (List.mem_of_mem_erase (List.mem_of_mem_erase hm)), ?_⟩
          exact (hnd.erase _).erase _
        have hsep6 : ∀ b1 ∈ A :: (fl.erase P).erase (A + szA),
            ∀ b2 ∈ A :: (fl.erase P).erase (A + szA),
            b1 ≠ b2 → b1 + 32 ≤ b2 ∨ b2 + 32 ≤ b1 := by
          intro b1 h1 b2 h2 hne
          refine hsepAfl b1 ?_ b2 ?_ hne <;>
            [rcases List.mem_cons.mp h1 with rfl | h1'; rcases List.mem_cons.mp h2 with rfl | h2']
          · exact List.mem_cons_self _ _
          · exact List.mem_cons_of_mem _
              (List.mem_of_mem_erase (List.mem_of_mem_erase h1'))
          · exact List.mem_cons_self _ _
          · exact List.mem_cons_of_mem _
              (List.mem_of_mem_erase (List.mem_of_mem_erase h2'))
        obtain ⟨⟨pl7, hch7⟩, hsize7, hag7⟩ :=
          remove_spec hch6 hnd6 hsep6 (List.mem_cons_self _ _)
        rw [List.erase_cons_head] at hch7
        have hmemerase2 : ∀ c ∈ (fl.erase P).erase (A + szA),
            c ∈ fl ∧ c ≠ P ∧ c ≠ A + szA := by
          intro c hc
          have h1 := ((hnd.erase P).mem_erase_iff).mp hc
          have h2 := (hnd.mem_erase_iff).mp h1.2
          exact ⟨h2.2, h2.1, h1.1⟩
        have hchw2 : ∀ c ∈ (fl.erase P).erase (A + szA),
            (P ≠ c + WORD_SIZE ∧ P ≠ c + 2 * WORD_SIZE) ∧
            (A + szA + szF - WORD_SIZE ≠ c + WORD_SIZE ∧
             A + szA + szF - WORD_SIZE ≠ c + 2 * WORD_SIZE) := by
          intro c hc
          obtain ⟨hcfl, hcneP, hcneF⟩ := hmemerase2 c hc
          have hd1 := hPdisj c hcfl hcneP
          have hd2 := hcdisjF c hcfl hcneF
          refine ⟨⟨?_, ?_⟩, ?_, ?_⟩ <;> simp only [WORD_SIZE_eq] <;> omega
        have hch8pre : chainSeg
            (wr (wr (remove_free_block (remove_free_block (remove_free_block
                (insert_free_block h3 A) P) (A + szA)) A)
              P ((szA + szP + szF) ||| TAG_PRECEDING_USED))
              (A + szA + szF - WORD_SIZE) ((szA + szP + szF) ||| TAG_PRECEDING_USED))
            0 (freeListHead (remove_free_block (remove_free_block (remove_free_block
                (insert_free_block h3 A) P) (A + szA)) A))
            ((fl.erase P).erase (A + szA)) pl7 0 := by
          refine chainSeg_wr_frame (chainSeg_wr_frame hch7 ?_) ?_
          · exact fun c hc => (hchw2 c hc).1
          · exact fun c hc => (hchw2 c hc).2
        have hflh8 : freeListHead
            (wr (wr (remove_free_block (remove_free_block (remove_free_block
                (insert_free_block h3 A) P) (A + szA)) A)
              P ((szA + szP + szF) ||| TAG_PRECEDING_USED))
              (A + szA + szF - WORD_SIZE) ((szA + szP + szF) ||| TAG_PRECEDING_USED))
            = freeListHead (remove_free_block (remove_free_block (remove_free_block
                (insert_free_block h3 A) P) (A + szA)) A) := by
          simp only [freeListHead]
          rw [rd_wr_ne (show (0:Nat) ≠ A + szA + szF - WORD_SIZE by
              simp only [WORD_SIZE_eq]; omega),
            rd_wr_ne (show (0:Nat) ≠ P by omega)]
        obtain ⟨⟨pl9, hch9⟩, hsize9, hag9⟩ :=
          insert_spec (hflh8.symm ▸ hch8pre) ((hnd.erase _).erase _)
            (show P ≠ 0 by omega)
            (fun c hc => by
              obtain ⟨hcfl, hcneP, _⟩ := hmemerase2 c hc
              have := hsepfl P hPfl c hcfl (fun he => hcneP he.symm)
              omega)
            (fun b1 h1 b2 h2 hne =>
              hsepfl b1 (List.mem_of_mem_erase (List.mem_of_mem_erase h1))
                b2 (List.mem_of_mem_erase (List.mem_of_mem_erase h2)) hne)
        have hagfinal2 : ∀ x, x ≠ 0 → x ≠ A → x ≠ A + szA → x ≠ A + (szA - WORD_SIZE) →
            x ≠ P → x ≠ A + WORD_SIZE → x ≠ A + 2 * WORD_SIZE →
            x ≠ A + szA + szF - WORD_SIZE →
            (∀ c ∈ fl, x ≠ c + WORD_SIZE ∧ x ≠ c + 2 * WORD_SIZE) →
            rd (insert_free_block
              (wr (wr (remove_free_block (remove_free_block (remove_free_block
                  (insert_free_block h3 A) P) (A + szA)) A)
                P ((szA + szP + szF) ||| TAG_PRECEDING_USED))
                (A + szA + szF - WORD_SIZE)
                ((szA + szP + szF) ||| TAG_PRECEDING_USED)) P) x
              = rd h x := by
          intro x h0 hxA hxF hxft hxP hx8 hx16 hxft2 hcells
          rw [hag9 x h0 (hcells P hPfl).1 (hcells P hPfl).2
            (fun c hc => (hcells c
              (List.mem_of_mem_erase (List.mem_of_mem_erase hc))).2),
            rd_wr_ne hxft2, rd_wr_ne hxP,
            hag7 x h0 (fun c hc => by
              rcases List.mem_cons.mp hc with rfl | hc'
              · exact ⟨hx8, hx16⟩
              · exact hcells c
                  (List.mem_of_mem_erase (List.mem_of_mem_erase hc'))),
            hag6 x h0 (fun c hc => by
              rcases List.mem_cons.mp hc with rfl | hc'
              · exact ⟨hx8, hx16⟩
              · exact hcells c (List.mem_of_mem_erase hc')),
            hag5 x h0 (fun c hc => by
              rcases List.mem_cons.mp hc with rfl | hc'
              · exact ⟨hx8, hx16⟩
              · exact hcells c hc')]
          exact hagAll x h0 hxA hxF hxft hx8 hx16 (fun c hc => (hcells c hc).2)
        have hcellsP2 : ∀ c ∈ (fl.erase P).erase (A + szA), P ≠ c + 2 * WORD_SIZE :=
          fun c hc => (hcellsP c (List.mem_cons_of_mem A
            (List.mem_of_mem_erase (List.mem_of_mem_erase hc)))).2
        have hrdhdr : rd (insert_free_block
            (wr (wr (remove_free_block (remove_free_block (remove_free_block
                (insert_free_block h3 A) P) (A + szA)) A)
              P ((szA + szP + szF) ||| TAG_PRECEDING_USED))
              (A + szA + szF - WORD_SIZE)
              ((szA + szP + szF) ||| TAG_PRECEDING_USED)) P) P
            = hdrVal (szA + szP + szF) true false := by
          rw [hag9 P (by omega) (by simp only [WORD_SIZE_eq]; omega)
              (by simp only [WORD_SIZE_eq]; omega) hcellsP2,
            rd_wr_ne (show P ≠ A + szA + szF - WORD_SIZE by
              simp only [WORD_SIZE_eq]; omega),
            rd_wr_eq, or_two_hdr (by omega)]
        have hrdftr : rd (insert_free_block
            (wr (wr (remove_free_block (remove_free_block (remove_free_block
                (insert_free_block h3 A) P) (A + szA)) A)
              P ((szA + szP + szF) ||| TAG_PRECEDING_USED))
              (A + szA + szF - WORD_SIZE)
              ((szA + szP + szF) ||| TAG_PRECEDING_USED)) P)
            (A + szA + szF - WORD_SIZE)
            = hdrVal (szA + szP + szF) true false := by
          rw [hag9 (A + szA + szF - WORD_SIZE)
              (by simp only [WORD_SIZE_eq]; omega)
              (by simp only [WORD_SIZE_eq]; omega)
              (by simp only [WORD_SIZE_eq]; omega)
              (fun c hc => (hchw2 c hc).2.2),
            rd_wr_eq, or_two_hdr (by omega)]
        have hsubpre' : ∀ e ∈ withAddrs WORD_SIZE pre',
            e ∈ withAddrs WORD_SIZE
              ((pre' ++ [(szP, false)]) ++ (szA, true) :: (szF, false) :: postT) := by
          intro e hel
          rw [hwaddr, withAddrs_append]
          exact List.mem_append_left _ (List.mem_append_left _ hel)
        have hsubpostT : ∀ e ∈ withAddrs (A + szA + szF) postT,
            e ∈ withAddrs WORD_SIZE
              ((pre' ++ [(szP, false)]) ++ (szA, true) :: (szF, false) :: postT) := by
          intro e hel
          rw [hwaddr]
          exact List.mem_append_right _ (List.mem_cons_of_mem _
            (List.mem_cons_of_mem _ hel))
        have hagpostTfin : ∀ x, segCells (A + szA + szF) postT x →
            rd (insert_free_block
              (wr (wr (remove_free_block (remove_free_block (remove_free_block
                  (insert_free_block h3 A) P) (A + szA)) A)
                P ((szA + szP + szF) ||| TAG_PRECEDING_USED))
                (A + szA + szF - WORD_SIZE)
                ((szA + szP + szF) ||| TAG_PRECEDING_USED)) P) x
              = rd h x := by
          intro x hx
          obtain ⟨hxlb, hxub⟩ := segCells_bounds hsegpostT hx
          refine hagfinal2 x (by omega) (by omega) (by omega)
            (by simp only [WORD_SIZE_eq]; omega) (by omega)
            (by simp only [WORD_SIZE_eq]; omega) (by simp only [WORD_SIZE_eq]; omega)
            (by simp only [WORD_SIZE_eq]; omega) ?_
          intro c hc
          exact ⟨fun he => (WF_not_segCells_ptr hwf hc hsubpostT).2 (he ▸ hx),
            fun he => (WF_not_segCells_ptr hwf hc hsubpostT).1 (he ▸ hx)⟩
        have hsegpostTfin := blocksSeg_frame2 hsegpostT hagpostTfin
        refine ⟨pre' ++ (szA + szP + szF, false) :: postT,
          P :: (fl.erase P).erase (A + szA), ?_, ?_, ?_, ⟨pl9, hch9⟩, ?_, ?_⟩
        · refine blocksSeg_append.mpr ⟨?_, ?_⟩
          · refine blocksSeg_frame2 hsegpre' ?_
            intro x hx
            obtain ⟨hxlb, hxub⟩ := segCells_bounds hsegpre' hx
            rw [← hPdef] at hxub
            refine hagfinal2 x (by simp only [WORD_SIZE_eq] at hxlb; omega) (by omega)
              (by omega) (by simp only [WORD_SIZE_eq]; omega) (by omega)
              (by simp only [WORD_SIZE_eq]; omega) (by simp only [WORD_SIZE_eq]; omega)
              (by simp only [WORD_SIZE_eq]; omega) ?_
            intro c hc
            exact ⟨fun he => (WF_not_segCells_ptr hwf hc hsubpre').2 (he ▸ hx),
              fun he => (WF_not_segCells_ptr hwf hc hsubpre').1 (he ▸ hx)⟩
          · refine ⟨by simp only [MIN_BLOCK_SIZE_eq]; omega, by omega, ?_, ?_, ?_⟩
            · rw [← hPdef, ← hpPdef, hpP]
              exact hrdhdr
            · intro _
              rw [← hPdef, ← hpPdef, hpP,
                show P + (szA + szP + szF) - WORD_SIZE = A + szA + szF - WORD_SIZE by
                  simp only [WORD_SIZE_eq]; omega]
              exact hrdftr
            · rw [← hPdef, show P + (szA + szP + szF) = A + szA + szF by omega]
              exact hsegpostTfin
        · rw [endA_append]
          simp only [endA]
          rw [← hPdef, hsize9]
          simp only [size_wr]
          rw [hsize7, hsize6, hsize5, hsize4, hs3size,
            show P + (szA + szP + szF) = A + szA + szF by omega]
          have hsA := hsentA
          rw [hendbl] at hsA
          simpa only [endA] using hsA
        · have hend' : endP true (pre' ++ (szA + szP + szF, false) :: postT)
              = endP false postT := by
            rw [endP_append]; rfl
          have hPbl2 : endP true
              ((pre' ++ [(szP, false)]) ++ (szA, true) :: (szF, false) :: postT)
              = endP false postT := by
            rw [endP_append]; rfl
          rw [endA_append, hend']
          simp only [endA]
          rw [← hPdef, show P + (szA + szP + szF) = A + szA + szF by omega]
          have hS : A + szA + szF ≤ endA (A + szA + szF) postT := le_endA _ _
          have hreadS : rd (insert_free_block
              (wr (wr (remove_free_block (remove_free_block (remove_free_block
                  (insert_free_block h3 A) P) (A + szA)) A)
                P ((szA + szP + szF) ||| TAG_PRECEDING_USED))
                (A + szA + szF - WORD_SIZE)
                ((szA + szP + szF) ||| TAG_PRECEDING_USED)) P)
              (endA (A + szA + szF) postT)
              = rd h (endA (A + szA + szF) postT) := by
            refine hagfinal2 _ (by omega) (by omega) (by omega)
              (by simp only [WORD_SIZE_eq]; omega) (by omega)
              (by simp only [WORD_SIZE_eq]; omega) (by simp only [WORD_SIZE_eq]; omega)
              (by simp only [WORD_SIZE_eq]; omega) ?_
            intro c hc
            obtain ⟨szc, hcm⟩ := WF_fl_block hwf hc
            obtain ⟨hclb, hcub, hc32, _, _⟩ := mem_withAddrs_facts hwf.seg hcm
            have hc32' : 32 ≤ szc := hc32
            have hcub' : c + szc ≤ endA (A + szA + szF) postT := by
              have hq2 := hcub
              rw [hendbl] at hq2
              simpa only [endA] using hq2
            refine ⟨?_, ?_⟩ <;> simp only [WORD_SIZE_eq] <;> omega
          rw [hreadS]
          have hv := hsentV
          rw [hendbl, hPbl2] at hv
          simpa only [endA] using hv
        · have hfp : freeAddrs WORD_SIZE (pre' ++ (szA + szP + szF, false) :: postT) =
              freeAddrs WORD_SIZE pre' ++ P :: freeAddrs (A + szA + szF) postT := by
            rw [freeAddrs_append, freeAddrs_cons_free, ← hPdef,
              show P + (szA + szP + szF) = A + szA + szF by omega]
          rw [hfp]
          have hnotin : P ∉ freeAddrs WORD_SIZE pre' := by
            intro hmem
            obtain ⟨sze, hm⟩ := mem_freeAddrs_iff.mp hmem
            have hb := (mem_withAddrs_facts hsegpre' hm).2.1
            have h32 := (mem_withAddrs_facts hsegpre' hm).2.2.1
            have h32' : 32 ≤ sze := h32
            rw [← hPdef] at hb
            omega
          have hnotinF : A + szA ∉ freeAddrs WORD_SIZE pre' := by
            intro hmem
            obtain ⟨sze, hm⟩ := mem_freeAddrs_iff.mp hmem
            have hb := (mem_withAddrs_facts hsegpre' hm).2.1
            have h32 := (mem_withAddrs_facts hsegpre' hm).2.2.1
            have h32' : 32 ≤ sze := h32
            rw [← hPdef] at hb
            omega
          have hq := hwf.perm
          rw [hfreeAeq, hfpre, freeAddrs_cons_free] at hq
          have hek1 : (fl.erase P).Perm
              (freeAddrs WORD_SIZE pre' ++
                (A + szA) :: freeAddrs (A + szA + szF) postT) := by
            have he2 := hq.erase P
            rwa [List.erase_append_left _
                (List.mem_append_right _ (List.mem_cons_self _ _)),
              List.erase_append_right _ hnotin, List.erase_cons_head,
              List.append_nil] at he2
          have hek : ((fl.erase P).erase (A + szA)).Perm
              (freeAddrs WORD_SIZE pre' ++ freeAddrs (A + szA + szF) postT) := by
            have he3 := hek1.erase (A + szA)
            rwa [List.erase_append_right _ hnotinF, List.erase_cons_head] at he3
          exact (hek.cons P).trans List.perm_middle.symm
        · refine noAdjFree_append.mpr
            ⟨(noAdjFree_append.mp hadjpre).1, Or.inl hpP, ?_⟩
          exact hadjpost.2.2
      · -- following block used: only the backward merge happens
        subst huF
        obtain ⟨hminF, hszF8, hhdrF, _, hsegpostT⟩ := hsegpost
        have hminF' : 32 ≤ szF := hminF
        have hvF' : andNot (rd h (A + szA)) 2 = hdrVal szF false true := by
          rw [hhdrF, hdrVal_andNot_two hszF8]
        have hcellsS : ∀ c ∈ A :: fl, A + szA ≠ c + WORD_SIZE ∧
            A + szA ≠ c + 2 * WORD_SIZE := by
          intro c hc
          rcases List.mem_cons.mp hc with rfl | hc'
          · refine ⟨?_, ?_⟩ <;> simp only [WORD_SIZE_eq] <;> omega
          · have := hsepdisj c hc'
            refine ⟨?_, ?_⟩ <;> simp only [WORD_SIZE_eq] <;> omega
        have hfwdstop : rd (remove_free_block (insert_free_block h3 A) P)
            (A + szA) &&& TAG_USED ≠ 0 := by
          rw [hag5 (A + szA) (by omega) hcellsS, hrdF4, hvF']
          exact hdrVal_test_used_true hszF8 false
        have hcoal : coalesce_free_block (insert_free_block h3 A) A =
            insert_free_block
              (wr (wr (remove_free_block
                  (remove_free_block (insert_free_block h3 A) P) A)
                P ((szA + szP) ||| TAG_PRECEDING_USED))
                (A + szA - WORD_SIZE) ((szA + szP) ||| TAG_PRECEDING_USED)) P := by
          simp only [coalesce_free_block]
          rw [hrdA4, SIZE_hdrVal hszA8, hback]
          dsimp only
          rw [coalesceFwd_stop hfwdstop]
          dsimp only
          rw [if_pos (show szA + szP ≠ szA by omega)]
        rw [hcoal]
        have hnd5 : (A :: fl.erase P).Nodup := by
          rw [List.nodup_cons]
          exact ⟨fun hm => hAnotfl (List.mem_of_mem_erase hm), hnd.erase _⟩
        have hsep5 : ∀ b1 ∈ A :: fl.erase P, ∀ b2 ∈ A :: fl.erase P,
            b1 ≠ b2 → b1 + 32 ≤ b2 ∨ b2 + 32 ≤ b1 := by
          intro b1 h1 b2 h2 hne
          refine hsepAfl b1 ?_ b2 ?_ hne <;>
            [rcases List.mem_cons.mp h1 with rfl | h1'; rcases List.mem_cons.mp h2 with rfl | h2']
          · exact List.mem_cons_self _ _
          · exact List.mem_cons_of_mem _ (List.mem_of_mem_erase h1')
          · exact List.mem_cons_self _ _
          · exact List.mem_cons_of_mem _ (List.mem_of_mem_erase h2')
        obtain ⟨⟨pl6, hch6⟩, hsize6, hag6⟩ :=
          remove_spec hch5 hnd5 hsep5 (List.mem_cons_self _ _)
        rw [List.erase_cons_head] at hch6
        have hmemerase : ∀ c ∈ fl.erase P, c ∈ fl ∧ c ≠ P := by
          intro c hc
          exact ⟨List.mem_of_mem_erase hc, ((hnd.mem_erase_iff).mp hc).1⟩
        have hchw : ∀ c ∈ fl.erase P,
            (P ≠ c + WORD_SIZE ∧ P ≠ c + 2 * WORD_SIZE) ∧
            (A + szA - WORD_SIZE ≠ c + WORD_SIZE ∧
             A + szA - WORD_SIZE ≠ c + 2 * WORD_SIZE) := by
          intro c hc
          obtain ⟨hcfl, hcne⟩ := hmemerase c hc
          have hd1 := hPdisj c hcfl hcne
          have hd2 := hsepdisj c hcfl
          refine ⟨⟨?_, ?_⟩, ?_, ?_⟩ <;> simp only [WORD_SIZE_eq] <;> omega
        have hch8pre : chainSeg
            (wr (wr (remove_free_block
                (remove_free_block (insert_free_block h3 A) P) A)
              P ((szA + szP) ||| TAG_PRECEDING_USED))
              (A + szA - WORD_SIZE) ((szA + szP) ||| TAG_PRECEDING_USED))
            0 (freeListHead (remove_free_block
                (remove_free_block (insert_free_block h3 A) P) A))
            (fl.erase P) pl6 0 := by
          refine chainSeg_wr_frame (chainSeg_wr_frame hch6 ?_) ?_
          · exact fun c hc => (hchw c hc).1
          · exact fun c hc => (hchw c hc).2
        have hflh8 : freeListHead
            (wr (wr (remove_free_block
                (remove_free_block (insert_free_block h3 A) P) A)
              P ((szA + szP) ||| TAG_PRECEDING_USED))
              (A + szA - WORD_SIZE) ((szA + szP) ||| TAG_PRECEDING_USED))
            = freeListHead (remove_free_block
                (remove_free_block (insert_free_block h3 A) P) A) := by
          simp only [freeListHead]
          rw [rd_wr_ne (show (0:Nat) ≠ A + szA - WORD_SIZE by
              simp only [WORD_SIZE_eq]; omega),
            rd_wr_ne (show (0:Nat) ≠ P by omega)]
        obtain ⟨⟨pl9, hch9⟩, hsize9, hag9⟩ :=
          insert_spec (hflh8.symm ▸ hch8pre) (hnd.erase _) (show P ≠ 0 by omega)
            (fun c hc => by
              obtain ⟨hcfl, hcne⟩ := hmemerase c hc
              have := hsepfl P hPfl c hcfl (fun he => hcne he.symm)
              omega)
            (fun b1 h1 b2 h2 hne =>
              hsepfl b1 (List.mem_of_mem_erase h1) b2 (List.mem_of_mem_erase h2) hne)
        have hagfinalB : ∀ x, x ≠ 0 → x ≠ A → x ≠ A + szA → x ≠ A + (szA - WORD_SIZE) →
            x ≠ P → x ≠ A + WORD_SIZE → x ≠ A + 2 * WORD_SIZE →
            (∀ c ∈ fl, x ≠ c + WORD_SIZE ∧ x ≠ c + 2 * WORD_SIZE) →
            rd (insert_free_block
              (wr (wr (remove_free_block
                  (remove_free_block (insert_free_block h3 A) P) A)
                P ((szA + szP) ||| TAG_PRECEDING_USED))
                (A + szA - WORD_SIZE) ((szA + szP) ||| TAG_PRECEDING_USED)) P) x
              = rd h x := by
          intro x h0 hxA hxF hxft hxP hx8 hx16 hcells
          rw [hag9 x h0 (hcells P hPfl).1 (hcells P hPfl).2
            (fun c hc => (hcells c (List.mem_of_mem_erase hc)).2),
            rd_wr_ne (show x ≠ A + szA - WORD_SIZE by
              simp only [WORD_SIZE_eq] at hxft ⊢; omega),
            rd_wr_ne hxP,
            hag6 x h0 (fun c hc => by
              rcases List.mem_cons.mp hc with rfl | hc'
              · exact ⟨hx8, hx16⟩
              · exact hcells c (List.mem_of_mem_erase hc')),
            hag5 x h0 (fun c hc => by
              rcases List.mem_cons.mp hc with rfl | hc'
              · exact ⟨hx8, hx16⟩
              · exact hcells c hc')]
          exact hagAll x h0 hxA hxF hxft hx8 hx16 (fun c hc => (hcells c hc).2)
        have hcellsP' : ∀ c ∈ fl.erase P, P ≠ c + 2 * WORD_SIZE :=
          fun c hc => (hcellsP c (List.mem_cons_of_mem A (List.mem_of_mem_erase hc))).2
        have hrdhdr : rd (insert_free_block
            (wr (wr (remove_free_block
                (remove_free_block (insert_free_block h3 A) P) A)
              P ((szA + szP) ||| TAG_PRECEDING_USED))
              (A + szA - WORD_SIZE) ((szA + szP) ||| TAG_PRECEDING_USED)) P) P
            = hdrVal (szA + szP) true false := by
          rw [hag9 P (by omega) (by simp only [WORD_SIZE_eq]; omega)
              (by simp only [WORD_SIZE_eq]; omega) hcellsP',
            rd_wr_ne (show P ≠ A + szA - WORD_SIZE by
              simp only [WORD_SIZE_eq]; omega),
            rd_wr_eq, or_two_hdr (by omega)]
        have hrdftr : rd (insert_free_block
            (wr (wr (remove_free_block
                (remove_free_block (insert_free_block h3 A) P) A)
              P ((szA + szP) ||| TAG_PRECEDING_USED))
              (A + szA - WORD_SIZE) ((szA + szP) ||| TAG_PRECEDING_USED)) P)
            (A + szA - WORD_SIZE)
            = hdrVal (szA + szP) true false := by
          rw [hag9 (A + szA - WORD_SIZE) (by simp only [WORD_SIZE_eq]; omega)
              (by simp only [WORD_SIZE_eq]; omega)
              (by simp only [WORD_SIZE_eq]; omega)
              (fun c hc => (hchw c hc).2.2),
            rd_wr_eq, or_two_hdr (by omega)]
        have hrdFh : rd (insert_free_block
            (wr (wr (remove_free_block
                (remove_free_block (insert_free_block h3 A) P) A)
              P ((szA + szP) ||| TAG_PRECEDING_USED))
              (A + szA - WORD_SIZE) ((szA + szP) ||| TAG_PRECEDING_USED)) P)
            (A + szA) = hdrVal szF false true := by
          rw [hag9 (A + szA) (by omega) (by simp only [WORD_SIZE_eq]; omega)
              (by simp only [WORD_SIZE_eq]; omega)
              (fun c hc => (hcellsS c (List.mem_cons_of_mem A
                (List.mem_of_mem_erase hc))).2),
            rd_wr_ne (show A + szA ≠ A + szA - WORD_SIZE by
              simp only [WORD_SIZE_eq]; omega),
            rd_wr_ne (show A + szA ≠ P by omega),
            hag6 (A + szA) (by omega) (fun c hc => by
              rcases List.mem_cons.mp hc with rfl | hc'
              · exact hcellsS A (List.mem_cons_self _ _)
              · exact hcellsS c (List.mem_cons_of_mem A (List.mem_of_mem_erase hc'))),
            hag5 (A + szA) (by omega) hcellsS, hrdF4, hvF']
        have hsubpre' : ∀ e ∈ withAddrs WORD_SIZE pre',
            e ∈ withAddrs WORD_SIZE
              ((pre' ++ [(szP, false)]) ++ (szA, true) :: (szF, true) :: postT) := by
          intro e hel
          rw [hwaddr, withAddrs_append]
          exact List.mem_append_left _ (List.mem_append_left _ hel)
        have hsubpostT : ∀ e ∈ withAddrs (A + szA + szF) postT,
            e ∈ withAddrs WORD_SIZE
              ((pre' ++ [(szP, false)]) ++ (szA, true) :: (szF, true) :: postT) := by
          intro e hel
          rw [hwaddr]
          exact List.mem_append_right _ (List.mem_cons_of_mem _
            (List.mem_cons_of_mem _ hel))
        have hagpostTfin : ∀ x, segCells (A + szA + szF) postT x →
            rd (insert_free_block
              (wr (wr (remove_free_block
                  (remove_free_block (insert_free_block h3 A) P) A)
                P ((szA + szP) ||| TAG_PRECEDING_USED))
                (A + szA - WORD_SIZE) ((szA + szP) ||| TAG_PRECEDING_USED)) P) x
              = rd h x := by
          intro x hx
          obtain ⟨hxlb, hxub⟩ := segCells_bounds hsegpostT hx
          refine hagfinalB x (by omega) (by omega) (by omega)
            (by simp only [WORD_SIZE_eq]; omega) (by omega)
            (by simp only [WORD_SIZE_eq]; omega) (by simp only [WORD_SIZE_eq]; omega) ?_
          intro c hc
          exact ⟨fun he => (WF_not_segCells_ptr hwf hc hsubpostT).2 (he ▸ hx),
            fun he => (WF_not_segCells_ptr hwf hc hsubpostT).1 (he ▸ hx)⟩
        have hsegpostTfin := blocksSeg_frame2 hsegpostT hagpostTfin
        refine ⟨pre' ++ (szA + szP, false) :: (szF, true) :: postT, P :: fl.erase P,
          ?_, ?_, ?_, ⟨pl9, hch9⟩, ?_, ?_⟩
        · refine blocksSeg_append.mpr ⟨?_, ?_⟩
          · refine blocksSeg_frame2 hsegpre' ?_
            intro x hx
            obtain ⟨hxlb, hxub⟩ := segCells_bounds hsegpre' hx
            rw [← hPdef] at hxub
            refine hagfinalB x (by simp only [WORD_SIZE_eq] at hxlb; omega) (by omega)
              (by omega) (by simp only [WORD_SIZE_eq]; omega) (by omega)
              (by simp only [WORD_SIZE_eq]; omega) (by simp only [WORD_SIZE_eq]; omega) ?_
            intro c hc
            exact ⟨fun he => (WF_not_segCells_ptr hwf hc hsubpre').2 (he ▸ hx),
              fun he => (WF_not_segCells_ptr hwf hc hsubpre').1 (he ▸ hx)⟩
          · refine ⟨by simp only [MIN_BLOCK_SIZE_eq]; omega, by omega, ?_, ?_, ?_⟩
            · rw [← hPdef, ← hpPdef, hpP]
              exact hrdhdr
            · intro _
              rw [← hPdef, ← hpPdef, hpP,
                show P + (szA + szP) - WORD_SIZE = A + szA - WORD_SIZE by
                  simp only [WORD_SIZE_eq]; omega]
              exact hrdftr
            · rw [← hPdef, show P + (szA + szP) = A + szA by omega]
              refine ⟨hminF, hszF8, hrdFh, ?_, hsegpostTfin⟩
              intro hcontra
              simp at hcontra
        · rw [endA_append]
          simp only [endA]
          rw [← hPdef, hsize9]
          simp only [size_wr]
          rw [hsize6, hsize5, hsize4, hs3size,
            show P + (szA + szP) + szF = A + szA + szF by omega]
          have hsA := hsentA
          rw [hendbl] at hsA
          simpa only [endA] using hsA
        · have hend' : endP true (pre' ++ (szA + szP, false) :: (szF, true) :: postT)
              = endP true postT := by
            rw [endP_append]; rfl
          have hPbl2 : endP true
              ((pre' ++ [(szP, false)]) ++ (szA, true) :: (szF, true) :: postT)
              = endP true postT := by
            rw [endP_append]; rfl
          rw [endA_append, hend']
          simp only [endA]
          rw [← hPdef, show P + (szA + szP) + szF = A + szA + szF by omega]
          have hS : A + szA + szF ≤ endA (A + szA + szF) postT := le_endA _ _
          have hreadS : rd (insert_free_block
              (wr (wr (remove_free_block
                  (remove_free_block (insert_free_block h3 A) P) A)
                P ((szA + szP) ||| TAG_PRECEDING_USED))
                (A + szA - WORD_SIZE) ((szA + szP) ||| TAG_PRECEDING_USED)) P)
              (endA (A + szA + szF) postT)
              = rd h (endA (A + szA + szF) postT) := by
            refine hagfinalB _ (by omega) (by omega) (by omega)
              (by simp only [WORD_SIZE_eq]; omega) (by omega)
              (by simp only [WORD_SIZE_eq]; omega) (by simp only [WORD_SIZE_eq]; omega) ?_
            intro c hc
            obtain ⟨szc, hcm⟩ := WF_fl_block hwf hc
            obtain ⟨hclb, hcub, hc32, _, _⟩ := mem_withAddrs_facts hwf.seg hcm
            have hc32' : 32 ≤ szc := hc32
            have hcub' : c + szc ≤ endA (A + szA + szF) postT := by
              have hq2 := hcub
              rw [hendbl] at hq2
              simpa only [endA] using hq2
            refine ⟨?_, ?_⟩ <;> simp only [WORD_SIZE_eq] <;> omega
          rw [hreadS]
          have hv := hsentV
          rw [hendbl, hPbl2] at hv
          simpa only [endA] using hv
        · have hfp : freeAddrs WORD_SIZE (pre' ++ (szA + szP, false) :: (szF, true) :: postT) =
              freeAddrs WORD_SIZE pre' ++ P :: freeAddrs (A + szA + szF) postT := by
            rw [freeAddrs_append, freeAddrs_cons_free, freeAddrs_cons_used, ← hPdef,
              show P + (szA + szP) + szF = A + szA + szF by omega]
          rw [hfp]
          have hnotin : P ∉ freeAddrs WORD_SIZE pre' := by
            intro hmem
            obtain ⟨sze, hm⟩ := mem_freeAddrs_iff.mp hmem
            have hb := (mem_withAddrs_facts hsegpre' hm).2.1
            have h32 := (mem_withAddrs_facts hsegpre' hm).2.2.1
            have h32' : 32 ≤ sze := h32
            rw [← hPdef] at hb
            omega
          have hq := hwf.perm
          rw [hfreeAeq, hfpre, freeAddrs_cons_used] at hq
          have hek : (fl.erase P).Perm
              (freeAddrs WORD_SIZE pre' ++ freeAddrs (A + szA + szF) postT) := by
            have he2 := hq.erase P
            rwa [List.erase_append_left _
                (List.mem_append_right _ (List.mem_cons_self _ _)),
              List.erase_append_right _ hnotin, List.erase_cons_head,
              List.append_nil] at he2
          exact (hek.cons P).trans List.perm_middle.symm
        · refine noAdjFree_append.mpr
            ⟨(noAdjFree_append.mp hadjpre).1, Or.inl hpP, Or.inr rfl, ?_⟩
          exact hadjpost.2.2
  · -- preceding block used
    cases post with
    | nil =>
      -- freed block is the last real block; the following word is the sentinel
      have hsentV' : rd h (A + szA) = hdrVal 0 true true := by
        have hv := hsentV
        rw [hendbl] at hv
        simp only [endA] at hv
        rw [hendPbl] at hv
        simpa only [endP] using hv
      have hvF : andNot (rd h (A + szA)) 2 = hdrVal 0 false true := by
        rw [hsentV', hdrVal_andNot_two (by norm_num)]
      have hres : coalesce_free_block (insert_free_block h3 A) A
          = insert_free_block h3 A := by
        apply coalesce_noop
        · rw [hrdA4, hpA]
          exact hdrVal_test_prec_true hszA8 false
        · rw [hrdA4, SIZE_hdrVal hszA8, hrdF4, hvF]
          exact hdrVal_test_used_true (by norm_num) false
      rw [hres]
      refine ⟨pre ++ [(szA, false)], A :: fl, ?_, ?_, ?_, ⟨pl4, hch4⟩, ?_, ?_⟩
      · refine blocksSeg_append.mpr ⟨hsegpre4, ?_⟩
        refine ⟨hminA, hszA8, hrdA4, ?_, trivial⟩
        intro _
        rw [hftaddr]
        exact hrdft4
      · rw [endA_append]
        simp only [endA]
        rw [← hAdef, hsize4, hs3size]
        have hsA := hsentA
        rw [hendbl] at hsA
        simpa only [endA] using hsA
      · rw [endA_append]
        simp only [endA]
        have hend' : endP true (pre ++ [(szA, false)]) = false := by
          rw [endP_append]; rfl
        rw [hend', ← hAdef, hrdF4, hvF]
      · have hfp : freeAddrs WORD_SIZE (pre ++ [(szA, false)]) =
            freeAddrs WORD_SIZE pre ++ [A] := by
          rw [freeAddrs_append]
          rfl
        rw [hfp]
        have hperm0 : fl.Perm (freeAddrs WORD_SIZE pre) := by
          have hq := hwf.perm
          rw [hfreeAeq] at hq
          simpa [freeAddrs] using hq
        have hmid : (A :: freeAddrs WORD_SIZE pre).Perm
            (freeAddrs WORD_SIZE pre ++ [A]) := by
          simpa using (@List.perm_middle _ A (freeAddrs WORD_SIZE pre) []).symm
        exact (hperm0.cons A).trans hmid
      · refine noAdjFree_append.mpr ⟨hadjpre, ?_, trivial⟩
        exact Or.inl hpA
    | cons hdF postT =>
      obtain ⟨szF, uF⟩ := hdF
      rcases Bool.dichotomy uF with huF | huF
      · -- following block is free: forward coalescing
        subst huF
        obtain ⟨hminF, hszF8, hhdrF, hftF, hsegpostT⟩ := hsegpost
        have hminF' : 32 ≤ szF := hminF
        have hFfl : A + szA ∈ fl := by
          refine hwf.perm.mem_iff.mpr ?_
          rw [hfreeAeq]
          refine List.mem_append_right _ ?_
          rw [freeAddrs_cons_free]
          exact List.mem_cons_self _ _
        have hFmem : (A + szA, szF, false) ∈
            withAddrs WORD_SIZE (pre ++ (szA, true) :: (szF, false) :: postT) := by
          rw [hwaddr]
          exact List.mem_append_right _ (List.mem_cons_of_mem _ (List.mem_cons_self _ _))
        -- every other free block is disjoint from the following free block
        have hcdisj : ∀ c ∈ fl, c ≠ A + szA →
            c + 32 ≤ A + szA ∧ c + 32 ≤ A ∨ A + szA + szF ≤ c := by
          intro c hc hne
          obtain ⟨szc, hcm⟩ := WF_fl_block hwf hc
          have h32 := (mem_withAddrs_facts hwf.seg hcm).2.2.1
          have h32' : 32 ≤ szc := h32
          have hd1 := withAddrs_disjoint hwf.seg hcm hFmem hne
          have hd2 := hsepdisj c hc
          omega
        obtain ⟨⟨pl5, hch5⟩, hsize5, hag5⟩ :=
          remove_spec hch4 hndAfl hsepAfl (List.mem_cons_of_mem A hFfl)
        have herase1 : (A :: fl).erase (A + szA) = A :: fl.erase (A + szA) := by
          rw [List.erase_cons_tail]
          simp only [beq_iff_eq]
          omega
        rw [herase1] at hch5
        -- value at the stop cell of the forward scan
        have hstopval : ∃ szS qS, szS % 8 = 0 ∧
            rd h (A + szA + szF) = hdrVal szS qS true := by
          cases postT with
          | nil =>
            refine ⟨0, endP true (pre ++ (szA, true) :: (szF, false) :: []), by norm_num, ?_⟩
            have hv := hsentV
            rw [hendbl] at hv
            simpa only [endA] using hv
          | cons hdG postG =>
            obtain ⟨szG, uG⟩ := hdG
            obtain ⟨_, hszG8, hhdrG, _, _⟩ := hsegpostT
            have huG : uG = true := by
              rcases hadjpost.2.2.1 with hc | hc
              · exact absurd hc (by simp)
              · exact hc
            refine ⟨szG, false, hszG8, ?_⟩
            rw [hhdrG, huG]
        obtain ⟨szS, qS, hszS8, hrdS⟩ := hstopval
        -- reads at h4 and h5 around the freed region
        have hcellsF : ∀ c ∈ A :: fl, A + szA + szF ≠ c + WORD_SIZE ∧
            A + szA + szF ≠ c + 2 * WORD_SIZE := by
          intro c hc
          rcases List.mem_cons.mp hc with rfl | hc'
          · refine ⟨?_, ?_⟩ <;> simp only [WORD_SIZE_eq] <;> omega
          · by_cases hne : c = A + szA
            · subst hne
              refine ⟨?_, ?_⟩ <;> simp only [WORD_SIZE_eq] <;> omega
            · have := hcdisj c hc' hne
              refine ⟨?_, ?_⟩ <;> simp only [WORD_SIZE_eq] <;> omega
        have hrdS4 : rd (insert_free_block h3 A) (A + szA + szF) = hdrVal szS qS true := by
          rw [hagAll (A + szA + szF) (by omega) (by omega) (by omega)
            (by simp only [WORD_SIZE_eq]; omega) (by simp only [WORD_SIZE_eq]; omega)
            (by simp only [WORD_SIZE_eq]; omega)
            (fun c hc => (hcellsF c (List.mem_cons_of_mem A hc)).2), hrdS]
        have hrdS5 : rd (remove_free_block (insert_free_block h3 A) (A + szA))
            (A + szA + szF) = hdrVal szS qS true := by
          rw [hag5 (A + szA + szF) (by omega) hcellsF, hrdS4]
        have hrdF4' : rd (insert_free_block h3 A) (A + szA) = hdrVal szF false false := by
          rw [hrdF4, hhdrF, hdrVal_andNot_two hszF8]
        -- the coalesce computation
        have hb1 : rd (insert_free_block h3 A) A &&& TAG_PRECEDING_USED ≠ 0 := by
          rw [hrdA4, hpA]
          exact hdrVal_test_prec_true hszA8 false
        have hcoal : coalesce_free_block (insert_free_block h3 A) A =
            insert_free_block
              (wr (wr (remove_free_block
                  (remove_free_block (insert_free_block h3 A) (A + szA)) A)
                A ((szA + szF) ||| TAG_PRECEDING_USED))
                (A + szA + szF - WORD_SIZE) ((szA + szF) ||| TAG_PRECEDING_USED)) A := by
          simp only [coalesce_free_block]
          rw [hrdA4, SIZE_hdrVal hszA8, coalesceBack_stop hb1]
          dsimp only
          rw [coalesceFwd_one (by rw [hrdF4']; exact hdrVal_test_used_false hszF8 false)
            (by rw [hrdF4', SIZE_hdrVal hszF8])
            (by rw [hrdS5]; exact hdrVal_test_used_true hszS8 qS)
            (by rw [hsize4, hs3size]; omega)]
          dsimp only
          rw [if_pos (show szA + szF ≠ szA by omega)]
        rw [hcoal]
        -- remove the freed block itself from the list, then the final writes
        have hnd5 : (A :: fl.erase (A + szA)).Nodup := by
          rw [List.nodup_cons]
          exact ⟨fun hm => hAnotfl (List.mem_of_mem_erase hm), hnd.erase _⟩
        have hsep5 : ∀ b1 ∈ A :: fl.erase (A + szA), ∀ b2 ∈ A :: fl.erase (A + szA),
            b1 ≠ b2 → b1 + 32 ≤ b2 ∨ b2 + 32 ≤ b1 := by
          intro b1 h1 b2 h2 hne
          refine hsepAfl b1 ?_ b2 ?_ hne <;>
            [rcases List.mem_cons.mp h1 with rfl | h1'; rcases List.mem_cons.mp h2 with rfl | h2']
          · exact List.mem_cons_self _ _
          · exact List.mem_cons_of_mem _ (List.mem_of_mem_erase h1')
          · exact List.mem_cons_self _ _
          · exact List.mem_cons_of_mem _ (List.mem_of_mem_erase h2')
        obtain ⟨⟨pl6, hch6⟩, hsize6, hag6⟩ :=
          remove_spec hch5 hnd5 hsep5 (List.mem_cons_self _ _)
        rw [List.erase_cons_head] at hch6
        have hmemerase : ∀ c ∈ fl.erase (A + szA), c ∈ fl ∧ c ≠ A + szA := by
          intro c hc
          exact ⟨List.mem_of_mem_erase hc, ((hnd.mem_erase_iff).mp hc).1⟩
        -- the header and footer writes do not touch the remaining chain
        have hchw : ∀ c ∈ fl.erase (A + szA),
            (A ≠ c + WORD_SIZE ∧ A ≠ c + 2 * WORD_SIZE) ∧
            (A + szA + szF - WORD_SIZE ≠ c + WORD_SIZE ∧
             A + szA + szF - WORD_SIZE ≠ c + 2 * WORD_SIZE) := by
          intro c hc
          obtain ⟨hcfl, hcne⟩ := hmemerase c hc
          have hd := hcdisj c hcfl hcne
          refine ⟨⟨?_, ?_⟩, ?_, ?_⟩ <;> simp only [WORD_SIZE_eq] <;> omega
        have hch8pre : chainSeg
            (wr (wr (remove_free_block
                (remove_free_block (insert_free_block h3 A) (A + szA)) A)
              A ((szA + szF) ||| TAG_PRECEDING_USED))
              (A + szA + szF - WORD_SIZE) ((szA + szF) ||| TAG_PRECEDING_USED))
            0 (freeListHead (remove_free_block
                (remove_free_block (insert_free_block h3 A) (A + szA)) A))
            (fl.erase (A + szA)) pl6 0 := by
          refine chainSeg_wr_frame (chainSeg_wr_frame hch6 ?_) ?_
          · exact fun c hc => (hchw c hc).1
          · exact fun c hc => (hchw c hc).2
        have hflh8 : freeListHead
            (wr (wr (remove_free_block
                (remove_free_block (insert_free_block h3 A) (A + szA)) A)
              A ((szA + szF) ||| TAG_PRECEDING_USED))
              (A + szA + szF - WORD_SIZE) ((szA + szF) ||| TAG_PRECEDING_USED))
            = freeListHead (remove_free_block
                (remove_free_block (insert_free_block h3 A) (A + szA)) A) := by
          simp only [freeListHead]
          rw [rd_wr_ne (show (0:Nat) ≠ A + szA + szF - WORD_SIZE by
              simp only [WORD_SIZE_eq]; omega),
            rd_wr_ne (show (0:Nat) ≠ A by omega)]
        obtain ⟨⟨pl9, hch9⟩, hsize9, hag9⟩ :=
          insert_spec (hflh8.symm ▸ hch8pre) (hnd.erase _) (show A ≠ 0 by omega)
            (fun c hc => by
              have := hsepdisj c (List.mem_of_mem_erase hc); omega)
            (fun b1 h1 b2 h2 hne =>
              hsepfl b1 (List.mem_of_mem_erase h1) b2 (List.mem_of_mem_erase h2) hne)
        -- combined frame: cells never written by the whole operation
        have hagfinal : ∀ x, x ≠ 0 → x ≠ A → x ≠ A + szA → x ≠ A + (szA - WORD_SIZE) →
            x ≠ A + WORD_SIZE → x ≠ A + 2 * WORD_SIZE → x ≠ A + szA + szF - WORD_SIZE →
            (∀ c ∈ fl, x ≠ c + WORD_SIZE ∧ x ≠ c + 2 * WORD_SIZE) →
            rd (insert_free_block
              (wr (wr (remove_free_block
                  (remove_free_block (insert_free_block h3 A) (A + szA)) A)
                A ((szA + szF) ||| TAG_PRECEDING_USED))
                (A + szA + szF - WORD_SIZE) ((szA + szF) ||| TAG_PRECEDING_USED)) A) x
              = rd h x := by
          intro x h0 hxA hxF hxft hx8 hx16 hxft2 hcells
          rw [hag9 x h0 hx8 hx16
            (fun c hc => (hcells c (List.mem_of_mem_erase hc)).2),
            rd_wr_ne hxft2, rd_wr_ne hxA,
            hag6 x h0 (fun c hc => by
              rcases List.mem_cons.mp hc with rfl | hc'
              · exact ⟨hx8, hx16⟩
              · exact hcells c (List.mem_of_mem_erase hc')),
            hag5 x h0 (fun c hc => by
              rcases List.mem_cons.mp hc with rfl | hc'
              · exact ⟨hx8, hx16⟩
              · exact hcells c hc')]
          exact hagAll x h0 hxA hxF hxft hx8 hx16 (fun c hc => (hcells c hc).2)
        -- the new header and footer values
        have hrdhdr : rd (insert_free_block
            (wr (wr (remove_free_block
                (remove_free_block (insert_free_block h3 A) (A + szA)) A)
              A ((szA + szF) ||| TAG_PRECEDING_USED))
              (A + szA + szF - WORD_SIZE) ((szA + szF) ||| TAG_PRECEDING_USED)) A) A
            = hdrVal (szA + szF) true false := by
          rw [hag9 A (by omega) (by simp only [WORD_SIZE_eq]; omega)
              (by simp only [WORD_SIZE_eq]; omega)
              (fun c hc => by
                have := hsepdisj c (List.mem_of_mem_erase hc)
                simp only [WORD_SIZE_eq]; omega),
            rd_wr_ne (show A ≠ A + szA + szF - WORD_SIZE by
              simp only [WORD_SIZE_eq]; omega),
            rd_wr_eq, or_two_hdr (by omega)]
        have hrdftr : rd (insert_free_block
            (wr (wr (remove_free_block
                (remove_free_block (insert_free_block h3 A) (A + szA)) A)
              A ((szA + szF) ||| TAG_PRECEDING_USED))
              (A + szA + szF - WORD_SIZE) ((szA + szF) ||| TAG_PRECEDING_USED)) A)
            (A + szA + szF - WORD_SIZE)
            = hdrVal (szA + szF) true false := by
          rw [hag9 (A + szA + szF - WORD_SIZE)
              (by simp only [WORD_SIZE_eq]; omega)
              (by simp only [WORD_SIZE_eq]; omega)
              (by simp only [WORD_SIZE_eq]; omega)
              (fun c hc => by
                obtain ⟨hcfl, hcne⟩ := hmemerase c hc
                have := hcdisj c hcfl hcne
                simp only [WORD_SIZE_eq]; omega),
            rd_wr_eq, or_two_hdr (by omega)]
        have hsubpostT : ∀ e ∈ withAddrs (A + szA + szF) postT,
            e ∈ withAddrs WORD_SIZE (pre ++ (szA, true) :: (szF, false) :: postT) := by
          intro e hel
          rw [hwaddr]
          exact List.mem_append_right _ (List.mem_cons_of_mem _
            (List.mem_cons_of_mem _ hel))
        refine ⟨pre ++ (szA + szF, false) :: postT, A :: fl.erase (A + szA),
          ?_, ?_, ?_, ⟨pl9, hch9⟩, ?_, ?_⟩
        · refine blocksSeg_append.mpr ⟨?_, ?_⟩
          · refine blocksSeg_frame2 hsegpre ?_
            intro x hx
            obtain ⟨hxlb, hxub⟩ := segCells_bounds hsegpre hx
            refine hagfinal x (by simp only [WORD_SIZE_eq] at hxlb; omega) (by omega)
              (by omega) (by simp only [WORD_SIZE_eq]; omega)
              (by simp only [WORD_SIZE_eq]; omega) (by simp only [WORD_SIZE_eq]; omega)
              (by simp only [WORD_SIZE_eq]; omega) ?_
            intro c hc
            exact ⟨fun he => (WF_not_segCells_ptr hwf hc hsubpre).2 (he ▸ hx),
              fun he => (WF_not_segCells_ptr hwf hc hsubpre).1 (he ▸ hx)⟩
          · refine ⟨by simp only [MIN_BLOCK_SIZE_eq]; omega, by omega, ?_, ?_, ?_⟩
            · rw [← hAdef, ← hpAdef, hpA]
              exact hrdhdr
            · intro _
              rw [← hAdef, ← hpAdef, hpA]
              rw [show A + (szA + szF) - WORD_SIZE = A + szA + szF - WORD_SIZE by
                simp only [WORD_SIZE_eq]; omega]
              exact hrdftr
            · rw [← hAdef, show A + (szA + szF) = A + szA + szF by omega]
              refine blocksSeg_frame2 hsegpostT ?_
              intro x hx
              obtain ⟨hxlb, hxub⟩ := segCells_bounds hsegpostT hx
              refine hagfinal x (by simp only [WORD_SIZE_eq] at *; omega) (by omega)
                (by omega) (by simp only [WORD_SIZE_eq]; omega)
                (by simp only [WORD_SIZE_eq]; omega) (by simp only [WORD_SIZE_eq]; omega)
                (by simp only [WORD_SIZE_eq]; omega) ?_
              intro c hc
              exact ⟨fun he => (WF_not_segCells_ptr hwf hc hsubpostT).2 (he ▸ hx),
                fun he => (WF_not_segCells_ptr hwf hc hsubpostT).1 (he ▸ hx)⟩
        · rw [endA_append]
          simp only [endA]
          rw [← hAdef, hsize9]
          simp only [size_wr]
          rw [hsize6, hsize5, hsize4, hs3size]
          have hsA := hsentA
          rw [hendbl] at hsA
          simp only [endA] at hsA
          rw [← Nat.add_assoc]
          exact hsA
        · rw [endA_append]
          simp only [endA]
          have hend' : endP true (pre ++ (szA + szF, false) :: postT)
              = endP false postT := by
            rw [endP_append]; rfl
          rw [hend', ← hAdef, ← Nat.add_assoc]
          have hS : A + szA + szF ≤ endA (A + szA + szF) postT := le_endA _ _
          have hreadS : rd (insert_free_block
              (wr (wr (remove_free_block
                  (remove_free_block (insert_free_block h3 A) (A + szA)) A)
                A ((szA + szF) ||| TAG_PRECEDING_USED))
                (A + szA + szF - WORD_SIZE) ((szA + szF) ||| TAG_PRECEDING_USED)) A)
              (endA (A + szA + szF) postT)
              = rd h (endA (A + szA + szF) postT) := by
            refine hagfinal _ (by omega) (by omega) (by omega)
              (by simp only [WORD_SIZE_eq]; omega) (by simp only [WORD_SIZE_eq]; omega)
              (by simp only [WORD_SIZE_eq]; omega) (by simp only [WORD_SIZE_eq]; omega) ?_
            intro c hc
            obtain ⟨szc, hcm⟩ := WF_fl_block hwf hc
            obtain ⟨hclb, hcub, hc32, _, _⟩ := mem_withAddrs_facts hwf.seg hcm
            have hc32' : 32 ≤ szc := hc32
            have hcub' : c + szc ≤ endA (A + szA + szF) postT := by
              have hq := hcub
              rw [hendbl] at hq
              simpa only [endA] using hq
            refine ⟨?_, ?_⟩ <;> simp only [WORD_SIZE_eq] <;> omega
          rw [hreadS]
          have hv := hsentV
          rw [hendbl] at hv
          simp only [endA] at hv
          have hPbl : endP true (pre ++ (szA, true) :: (szF, false) :: postT)
              = endP false postT := by
            rw [endP_append]; rfl
          rw [hPbl] at hv
          exact hv
        · have hfp : freeAddrs WORD_SIZE (pre ++ (szA + szF, false) :: postT) =
              freeAddrs WORD_SIZE pre ++ A :: freeAddrs (A + szA + szF) postT := by
            rw [freeAddrs_append, freeAddrs_cons_free, ← hAdef, ← Nat.add_assoc]
          rw [hfp]
          have hnotin : A + szA ∉ freeAddrs WORD_SIZE pre := by
            intro hmem
            obtain ⟨sze, hm⟩ := mem_freeAddrs_iff.mp hmem
            have hb := (mem_withAddrs_facts hsegpre hm).2.1
            have h32 := (mem_withAddrs_facts hsegpre hm).2.2.1
            have h32' : 32 ≤ sze := h32
            rw [← hAdef] at hb
            omega
          have hq := hwf.perm
          rw [hfreeAeq, freeAddrs_cons_free] at hq
          have hek : (fl.erase (A + szA)).Perm
              (freeAddrs WORD_SIZE pre ++ freeAddrs (A + szA + szF) postT) := by
            have he2 := hq.erase (A + szA)
            rwa [List.erase_append_right _ hnotin, List.erase_cons_head] at he2
          exact ((hek.cons A).trans List.perm_middle.symm)
        · refine noAdjFree_append.mpr ⟨hadjpre, ?_, ?_⟩
          · exact Or.inl hpA
          · exact hadjpost.2.2
      · -- following block is used: no coalescing
        subst huF
        obtain ⟨hminF, hszF8, hhdrF, _, hsegpostT⟩ := hsegpost
        have hminF' : 32 ≤ szF := hminF
        have hvF : andNot (rd h (A + szA)) 2 = hdrVal szF false true := by
          rw [hhdrF, hdrVal_andNot_two hszF8]
        have hres : coalesce_free_block (insert_free_block h3 A) A
            = insert_free_block h3 A := by
          apply coalesce_noop
          · rw [hrdA4, hpA]
            exact hdrVal_test_prec_true hszA8 false
          · rw [hrdA4, SIZE_hdrVal hszA8, hrdF4, hvF]
            exact hdrVal_test_used_true hszF8 false
        rw [hres]
        have hsubpostT : ∀ e ∈ withAddrs (A + szA + szF) postT,
            e ∈ withAddrs WORD_SIZE (pre ++ (szA, true) :: (szF, true) :: postT) := by
          intro e hel
          rw [hwaddr]
          exact List.mem_append_right _ (List.mem_cons_of_mem _
            (List.mem_cons_of_mem _ hel))
        have hagpostT : ∀ x, segCells (A + szA + szF) postT x →
            rd (insert_free_block h3 A) x = rd h x := by
          intro x hx
          obtain ⟨hxlb, hxub⟩ := segCells_bounds hsegpostT hx
          refine hagAll x (by omega) (by omega) (by omega)
            (by simp only [WORD_SIZE_eq]; omega) (by simp only [WORD_SIZE_eq]; omega)
            (by simp only [WORD_SIZE_eq]; omega) ?_
          intro c hc he
          exact (WF_not_segCells_ptr hwf hc hsubpostT).1 (he ▸ hx)
        have hsegpostT4 : blocksSeg (insert_free_block h3 A) (A + szA + szF) true postT :=
          blocksSeg_frame2 hsegpostT hagpostT
        refine ⟨pre ++ (szA, false) :: (szF, true) :: postT, A :: fl,
          ?_, ?_, ?_, ⟨pl4, hch4⟩, ?_, ?_⟩
        · refine blocksSeg_append.mpr ⟨hsegpre4, ?_⟩
          refine ⟨hminA, hszA8, hrdA4, ?_, ?_⟩
          · intro _
            rw [hftaddr]
            exact hrdft4
          refine ⟨hminF, hszF8, ?_, ?_, hsegpostT4⟩
          · rw [hrdF4, hvF]
          · intro hcontra
            simp at hcontra
        · rw [endA_append]
          simp only [endA]
          rw [← hAdef, hsize4, hs3size]
          have hsA := hsentA
          rw [hendbl] at hsA
          simpa only [endA] using hsA
        · have hend' : endP true (pre ++ (szA, false) :: (szF, true) :: postT)
              = endP true postT := by
            rw [endP_append]; rfl
          have hPbl : endP true (pre ++ (szA, true) :: (szF, true) :: postT)
              = endP true postT := by
            rw [endP_append]; rfl
          rw [endA_append, hend']
          simp only [endA]
          rw [← hAdef]
          have hS : A + szA + szF ≤ endA (A + szA + szF) postT := le_endA _ _
          have hreadS : rd (insert_free_block h3 A) (endA (A + szA + szF) postT)
              = rd h (endA (A + szA + szF) postT) := by
            refine hagAll _ (by omega) (by omega) (by omega)
              (by simp only [WORD_SIZE_eq]; omega) (by simp only [WORD_SIZE_eq]; omega)
              (by simp only [WORD_SIZE_eq]; omega) ?_
            intro c hc
            obtain ⟨szc, hcm⟩ := WF_fl_block hwf hc
            obtain ⟨hclb, hcub, hc32, _, _⟩ := mem_withAddrs_facts hwf.seg hcm
            have hc32' : 32 ≤ szc := hc32
            have hcub' : c + szc ≤ endA (A + szA + szF) postT := by
              have := hcub
              rw [hendbl] at this
              simpa only [endA] using this
            simp only [WORD_SIZE_eq]
            omega
          rw [hreadS]
          have hv := hsentV
          rw [hendbl, hPbl] at hv
          simpa only [endA] using hv
        · have hfp : freeAddrs WORD_SIZE (pre ++ (szA, false) :: (szF, true) :: postT) =
              freeAddrs WORD_SIZE pre ++ A :: freeAddrs (A + szA + szF) postT := by
            rw [freeAddrs_append]
            rfl
          rw [hfp]
          have hperm0 : fl.Perm (freeAddrs WORD_SIZE pre ++ freeAddrs (A + szA + szF) postT) := by
            have hq := hwf.perm
            rw [hfreeAeq] at hq
            simpa only [freeAddrs_cons_used] using hq
          exact (hperm0.cons A).trans List.perm_middle.symm
        · refine noAdjFree_append.mpr ⟨hadjpre, ?_, ?_, ?_⟩
          · exact Or.inl hpA
          · exact Or.inr rfl
          · have := (noAdjFree_append.mp hwf.adj).2
            exact this.2.2

/-- Two consecutive writes to the same cell: only the second survives. -/
theorem wr_wr (h : Heap) (a v v' : Nat) : wr (wr h a v) a v' = wr h a v' := by
  simp only [wr]
  congr 1
  funext x
  by_cases hx : x = a <;> simp [hx]

/-- Setting the preceding-used mask bits on an 8-aligned size yields the
boundary-tag word of a free block. -/
theorem or_mask_hdr {sz : Nat} (hsz : sz % 8 = 0) (p : Bool) :
    sz ||| (if p then TAG_PRECEDING_USED else 0) = hdrVal sz p false := by
  rw [TAG_PRECEDING_USED_eq, or_mask hsz]
  cases p <;> simp [hdrVal, TAG_PRECEDING_USED] <;> rfl

/-- A block entry of `withAddrs` yields a decomposition of the block list
around that block. -/
theorem mem_withAddrs_decomp {a : Nat} {bl : List (Nat × Bool)} {b sz : Nat}
    {u : Bool} (hm : (b, sz, u) ∈ withAddrs a bl) :
    ∃ pre post, bl = pre ++ (sz, u) :: post ∧ b = endA a pre := by
  induction bl generalizing a with
  | nil => simp [withAddrs] at hm
  | cons hd tl ih =>
    obtain ⟨szh, uh⟩ := hd
    rcases List.mem_cons.mp hm with he | hmem
    · rw [Prod.mk.injEq, Prod.mk.injEq] at he
      obtain ⟨h1, h2, h3⟩ := he
      subst h1
      subst h2
      subst h3
      exact ⟨[], tl, rfl, rfl⟩
    · obtain ⟨pre', post', hbl, hb⟩ := ih hmem
      exact ⟨(szh, uh) :: pre', post', by rw [hbl]; rfl, hb⟩

/-- `noAdjFree` only uses the preceding flag at the head: the run is still
adjacency-free when the block before it becomes used. -/
theorem noAdjFree_true_of {p : Bool} {l : List (Nat × Bool)}
    (h : noAdjFree p l) : noAdjFree true l := by
  cases l with
  | nil => trivial
  | cons hd tl => exact ⟨Or.inl rfl, h.2⟩

/-- The request size computed by `mm_malloc` is at least `MIN_BLOCK_SIZE`. -/
theorem reqSize_ge (n : Nat) : MIN_BLOCK_SIZE ≤ reqSize n := by
  simp only [reqSize, MIN_BLOCK_SIZE, WORD_SIZE, ALIGNMENT]
  split
  · omega
  · omega

/-- The request size computed by `mm_malloc` is 8-aligned. -/
theorem reqSize_mod (n : Nat) : reqSize n % 8 = 0 := by
  simp only [reqSize, MIN_BLOCK_SIZE, WORD_SIZE, ALIGNMENT]
  split
  · rfl
  · omega

/-! ## Concrete scenario states

The spec's end-to-end scenarios S3/S4 (coalesce order) and S6 (LIFO
locality), run on the embedded allocator. -/

/-- The heap after `init()`. -/
def lifo0 : Heap := mm_init emptyHeap

/-- `a = allocate(16)` of scenario S6. -/
def lifoA : Option Nat × Heap := mm_malloc lifo0 16

/-- `b = allocate(16)` of scenario S6. -/
def lifoB : Option Nat × Heap := mm_malloc lifoA.2 16

/-- Scenario S6 after `free(a)`. -/
def lifoFA : Heap := mm_free lifoB.2 (lifoA.1.getD 0)

/-- Scenario S6 after `free(b)`. -/
def lifoFB : Heap := mm_free lifoFA (lifoB.1.getD 0)

/-- `c = allocate(16)` of scenario S6. -/
def lifoC : Option Nat × Heap := mm_malloc lifoFB 16

/-- `a = allocate(64)` of scenarios S3/S4. -/
def coal1 : Option Nat × Heap := mm_malloc lifo0 64

/-- `b = allocate(64)` of scenarios S3/S4. -/
def coal2 : Option Nat × Heap := mm_malloc coal1.2 64

/-- `c = allocate(64)` of scenarios S3/S4. -/
def coal3 : Option Nat × Heap := mm_malloc coal2.2 64

/-- Scenario S4's final heap: `free(c)` then `free(b)`. -/
def coalCB : Heap := mm_free (mm_free coal3.2 (coal3.1.getD 0)) (coal2.1.getD 0)

/-- Scenario S4's comparison heap: `free(b)` then `free(c)`. -/
def coalBC : Heap := mm_free (mm_free coal3.2 (coal2.1.getD 0)) (coal3.1.getD 0)

/-- A heap state that violates invariant I4 (two adjacent free blocks):
head word `0`, a free 32-byte block at `8` (header and footer `34`), a free
32-byte block at `40` (header and footer `32`), and the end-of-heap word at
`72`. -/
def adjFreeHeap : Heap :=
  wr (wr (wr (wr (wr { mem := fun _ => 0, size := 80 } 8 34) 32 34)
    40 32) 64 32) 72 1

/-- A heap on which `coalesce_free_block 8` finds both neighbor conditions
used: a free block at `8` whose header has the preceding-used tag, followed
at `40` by a word with the used tag. -/
def noCoalesceHeap : Heap :=
  wr (wr { mem := fun _ => 0, size := 48 } 8 34) 40 1

/-! ## The specification claims -/

/-- Claim C2, counterexample: in the S6 scenario `init(); a = allocate(16);
b = allocate(16); free(a); free(b); c = allocate(16)`, the pointer `c` is
NOT equal to `b`: `free(b)` coalesces `b` with its free neighbors, so the
freed block of `b` no longer exists as a separate free-list node, and the
subsequent allocation returns the merged block's payload, which is `a`. -/
theorem lifo_c_ne_b : lifoC.1 ≠ lifoB.1 ∧ lifoB.1 = some 48 := by decide

/-- Claim C2, amended statement: in the S6 scenario the returned pointer `c`
equals `a` (the payload of the merged block at the start of the heap), not
`b`: immediate coalescing in `mm_free` dissolves LIFO locality for adjacent
blocks. -/
theorem lifo_c_eq_a : lifoC.1 = lifoA.1 ∧ lifoA.1 = some 16 := by decide

/-- Claim C3, counterexample: `adjFreeHeap` violates invariant I4 (it has
two adjacent free blocks, so `noAdjacentFree` rejects its block list), yet
`mm_check` returns `0` on it rather than a nonzero value. -/
theorem mm_check_misses_violation :
    noAdjacentFree (heapBlocks adjFreeHeap) = false ∧
    mm_check adjFreeHeap = 0 := by decide

/-- Claim C3, amended statement: `mm_check` is a stub; it returns `0` on
every heap state, whether or not the invariants hold. -/
theorem mm_check_always_zero : ∀ h : Heap, mm_check h = 0 := fun _ => rfl

/-- Claim C5: after `init(); a = allocate(64); b = allocate(64);
c = allocate(64)`, freeing `c` then `b` produces the identical heap state
(block layout, tags, footers, and free-list content) as freeing `b` then
`c`. -/
theorem coalesce_order_irrelevant : heapView coalCB = heapView coalBC := by decide

/-- Claim C8: `allocate(0)` returns null and leaves the heap state
completely unchanged. -/
theorem malloc_zero_noop : ∀ h : Heap, mm_malloc h 0 = (none, h) :=
  fun _ => rfl

/-- Claim C9: on a well-formed heap, `search_free_list` returns the first
block in free-list order whose size is at least the request, and `0` (null)
when no block is large enough. -/
theorem search_first_fit {h : Heap} {bl : List (Nat × Bool)} {fl : List Nat}
    (hwf : WF h bl fl) (req : Nat) :
    search_free_list h req = ((fl.find? fun c => req ≤ SIZE (rd h c)).getD 0) :=
  search_spec hwf req

/-- Witness for claim C9: on the initial heap (free list `[8]`), the search
for `10` bytes returns the first-fit scan's answer, which is the block `8`. -/
theorem search_first_fit_witness :
    search_free_list (mm_init emptyHeap) 10
        = (([8].find? fun c => 10 ≤ SIZE (rd (mm_init emptyHeap) c)).getD 0) ∧
    search_free_list (mm_init emptyHeap) 10 = 8 :=
  ⟨search_first_fit init_WF 10, by decide⟩

/-- Claim C10: when block `b`'s header has the preceding-used tag and the
block immediately following `b` has the used tag, `coalesce_free_block` is
the identity on the heap: the free list and every header and footer are
unchanged. -/
theorem coalesce_no_neighbor_noop {h : Heap} {b : Nat}
    (hprec : rd h b &&& TAG_PRECEDING_USED ≠ 0)
    (hfoll : rd h (b + SIZE (rd h b)) &&& TAG_USED ≠ 0) :
    coalesce_free_block h b = h :=
  coalesce_noop hprec hfoll

/-- Witness for claim C10: on `noCoalesceHeap`, block `8` has the
preceding-used tag set and its follower at `40` is tagged used, and
coalescing leaves the heap unchanged. -/
theorem coalesce_no_neighbor_noop_witness :
    coalesce_free_block noCoalesceHeap 8 = noCoalesceHeap :=
  coalesce_no_neighbor_noop (by decide) (by decide)

/-! ## Preservation of well-formedness by `mm_malloc`, and reachability -/

/-- The allocation tail of `mm_malloc` preserves well-formedness: handing
out free block `endA WORD_SIZE pre` for request `req` returns its payload
address and leaves a well-formed heap, splitting exactly when the excess
is at least `MIN_BLOCK_SIZE`. -/
theorem mallocFinish_WF {h : Heap} {bl : List (Nat × Bool)} {fl : List Nat}
    (hwf : WF h bl fl) {req : Nat}
    (hreq32 : MIN_BLOCK_SIZE ≤ req) (hreq8 : req % 8 = 0)
    {pre post : List (Nat × Bool)} {szB : Nat}
    (hbl : bl = pre ++ (szB, false) :: post)
    (hfit : req ≤ szB) :
    (mallocFinish h req (endA WORD_SIZE pre)).1
        = some (endA WORD_SIZE pre + WORD_SIZE) ∧
    (MIN_BLOCK_SIZE ≤ szB - req →
      WF (mallocFinish h req (endA WORD_SIZE pre)).2
        (pre ++ (req, true) :: (szB - req, false) :: post)
        ((endA WORD_SIZE pre + req) :: fl.erase (endA WORD_SIZE pre))) ∧
    (szB - req < MIN_BLOCK_SIZE →
      WF (mallocFinish h req (endA WORD_SIZE pre)).2
        (pre ++ (szB, true) :: post)
        (fl.erase (endA WORD_SIZE pre))) := by
  subst hbl
  obtain ⟨hsegpre, hsegmid⟩ := blocksSeg_append.mp hwf.seg
  set B := endA WORD_SIZE pre with hBdef
  set pB := endP true pre with hpBdef
  obtain ⟨hminB, hszB8, hhdrB, hftBi, hsegpost⟩ := hsegmid
  have hftB := hftBi rfl
  have hminB' : 32 ≤ szB := hminB
  have hreq32' : 32 ≤ req := hreq32
  have hB8 : WORD_SIZE ≤ B := le_endA WORD_SIZE pre
  have hB8' : 8 ≤ B := hB8
  have hwaddr : withAddrs WORD_SIZE (pre ++ (szB, false) :: post) =
      withAddrs WORD_SIZE pre ++ (B, szB, false) :: withAddrs (B + szB) post := by
    rw [withAddrs_append]; rfl
  have hBmem : (B, szB, false) ∈
      withAddrs WORD_SIZE (pre ++ (szB, false) :: post) := by
    rw [hwaddr]; exact List.mem_append_right _ (List.mem_cons_self _ _)
  have hBfl : B ∈ fl := hwf.perm.mem_iff.mpr (mem_freeAddrs_iff.mpr ⟨szB, hBmem⟩)
  have hfreeAeq : freeAddrs WORD_SIZE (pre ++ (szB, false) :: post) =
      freeAddrs WORD_SIZE pre ++ B :: freeAddrs (B + szB) post := by
    rw [freeAddrs_append, freeAddrs_cons_free]
  have hnd := WF_fl_nodup hwf
  have hsepfl := WF_fl_sep hwf
  have hsepdisj : ∀ c ∈ fl, c ≠ B → B + szB ≤ c ∨ c + 32 ≤ B := by
    intro c hc hne
    obtain ⟨szc, hcm⟩ := WF_fl_block hwf hc
    have h32 := (mem_withAddrs_facts hwf.seg hcm).2.2.1
    have h32' : 32 ≤ szc := h32
    have hd := withAddrs_disjoint hwf.seg hcm hBmem hne
    omega
  have hcellsB : ∀ c ∈ fl, B ≠ c + WORD_SIZE ∧ B ≠ c + 2 * WORD_SIZE := by
    intro c hc
    by_cases hne : c = B
    · subst hne
      refine ⟨?_, ?_⟩ <;> simp only [WORD_SIZE_eq] <;> omega
    · have := hsepdisj c hc hne
      refine ⟨?_, ?_⟩ <;> simp only [WORD_SIZE_eq] <;> omega
  obtain ⟨pl, hch⟩ := hwf.chain
  have hflh1 : freeListHead (wr h B (hdrVal szB pB true)) = freeListHead h := by
    simp only [freeListHead]
    rw [rd_wr_ne (show (0 : Nat) ≠ B by omega)]
  have hch1 : chainSeg (wr h B (hdrVal szB pB true)) 0
      (freeListHead (wr h B (hdrVal szB pB true))) fl pl 0 := by
    rw [hflh1]
    exact chainSeg_wr_frame hch hcellsB
  obtain ⟨⟨pl2, hch2⟩, hsize2, hag2⟩ := remove_spec hch1 hnd hsepfl hBfl
  have hrdB2 : rd (remove_free_block (wr h B (hdrVal szB pB true)) B) B
      = hdrVal szB pB true := by
    rw [hag2 B (by omega) hcellsB, rd_wr_eq]
  have hagA : ∀ x, x ≠ 0 → x ≠ B →
      (∀ c ∈ fl, x ≠ c + WORD_SIZE ∧ x ≠ c + 2 * WORD_SIZE) →
      rd (remove_free_block (wr h B (hdrVal szB pB true)) B) x = rd h x := by
    intro x h0 hxB hcells
    rw [hag2 x h0 hcells, rd_wr_ne hxB]
  have hsub8 : (szB - req) % 8 = 0 := by omega
  have hred : mallocFinish h req B =
      if MIN_BLOCK_SIZE ≤ szB - req then
        (some (B + WORD_SIZE),
         insert_free_block
           (wr (wr (wr (remove_free_block (wr h B (hdrVal szB pB true)) B)
               B (hdrVal req pB true))
             (B + req) (hdrVal (szB - req) true false))
             (B + req + (szB - req) - WORD_SIZE) (hdrVal (szB - req) true false))
           (B + req))
      else
        (some (B + WORD_SIZE),
         wr (remove_free_block (wr h B (hdrVal szB pB true)) B)
           (B + szB)
           (rd (remove_free_block (wr h B (hdrVal szB pB true)) B) (B + szB)
             ||| TAG_PRECEDING_USED)) := by
    simp only [mallocFinish]
    rw [hhdrB, TAG_USED_eq, TAG_PRECEDING_USED_eq, hdrVal_or_one hszB8, hrdB2,
      SIZE_hdrVal hszB8, hdrVal_and_two hszB8, or_mask hreq8,
      show req + (if pB = true then 2 else 0) = hdrVal req pB false from by
        cases pB <;> rfl]
    rw [rd_wr_eq (remove_free_block (wr h B (hdrVal szB pB true)) B) B
        (hdrVal req pB false),
      hdrVal_or_one hreq8,
      wr_wr (remove_free_block (wr h B (hdrVal szB pB true)) B) B
        (hdrVal req pB false) (hdrVal req pB true)]
    rw [rd_wr_eq (wr (remove_free_block (wr h B (hdrVal szB pB true)) B) B
        (hdrVal req pB true)) (B + req) (szB - req),
      show andNot (szB - req) 1 = szB - req from hdrVal_andNot_one hsub8 false false,
      wr_wr (wr (remove_free_block (wr h B (hdrVal szB pB true)) B) B
        (hdrVal req pB true)) (B + req) (szB - req) (szB - req)]
    rw [rd_wr_eq (wr (remove_free_block (wr h B (hdrVal szB pB true)) B) B
        (hdrVal req pB true)) (B + req) (szB - req),
      show (szB - req) ||| 2 = hdrVal (szB - req) true false from or_two_hdr hsub8,
      wr_wr (wr (remove_free_block (wr h B (hdrVal szB pB true)) B) B
        (hdrVal req pB true)) (B + req) (szB - req) (hdrVal (szB - req) true false)]
    rw [rd_wr_eq (wr (remove_free_block (wr h B (hdrVal szB pB true)) B) B
        (hdrVal req pB true)) (B + req) (hdrVal (szB - req) true false),
      SIZE_hdrVal hsub8]
  have hadjpre : noAdjFree true pre := (noAdjFree_append.mp hwf.adj).1
  have hadjmid := (noAdjFree_append.mp hwf.adj).2
  have hadjtail : noAdjFree false post := hadjmid.2
  have hsubpre : ∀ e ∈ withAddrs WORD_SIZE pre,
      e ∈ withAddrs WORD_SIZE (pre ++ (szB, false) :: post) := by
    intro e hel
    rw [hwaddr]
    exact List.mem_append_left _ hel
  have hsubpost : ∀ e ∈ withAddrs (B + szB) post,
      e ∈ withAddrs WORD_SIZE (pre ++ (szB, false) :: post) := by
    intro e hel
    rw [hwaddr]
    exact List.mem_append_right _ (List.mem_cons_of_mem _ hel)
  have hBnotpre : B ∉ freeAddrs WORD_SIZE pre := by
    intro hmem
    obtain ⟨sze, hm⟩ := mem_freeAddrs_iff.mp hmem
    have hb := (mem_withAddrs_facts hsegpre hm).2.1
    have h32 := (mem_withAddrs_facts hsegpre hm).2.2.1
    have h32' : 32 ≤ sze := h32
    rw [← hBdef] at hb
    omega
  have hek : (fl.erase B).Perm
      (freeAddrs WORD_SIZE pre ++ freeAddrs (B + szB) post) := by
    have hq := hwf.perm
    rw [hfreeAeq] at hq
    have he2 := hq.erase B
    rwa [List.erase_append_right _ hBnotpre, List.erase_cons_head] at he2
  have hsentA := hwf.sentinelAddr
  have hsentV := hwf.sentinelVal
  have hendbl : endA WORD_SIZE (pre ++ (szB, false) :: post)
      = endA (B + szB) post := by
    rw [endA_append]
    rfl
  have hendPbl : endP true (pre ++ (szB, false) :: post) = endP false post := by
    rw [endP_append]
    rfl
  have hsentcell : ∀ c ∈ fl, endA (B + szB) post ≠ c + WORD_SIZE ∧
      endA (B + szB) post ≠ c + 2 * WORD_SIZE := by
    intro c hc
    obtain ⟨szc, hcm⟩ := WF_fl_block hwf hc
    obtain ⟨hclb, hcub, hc32, _, _⟩ := mem_withAddrs_facts hwf.seg hcm
    have hc32' : 32 ≤ szc := hc32
    have hcub' : c + szc ≤ endA (B + szB) post := by
      have hq2 := hcub
      rw [hendbl] at hq2
      exact hq2
    refine ⟨?_, ?_⟩ <;> simp only [WORD_SIZE_eq] <;> omega
  have hSsent : B + szB ≤ endA (B + szB) post := le_endA _ _
  refine ⟨?_, ?_, ?_⟩
  · rw [hred]
    by_cases hc : MIN_BLOCK_SIZE ≤ szB - req
    · rw [if_pos hc]
    · rw [if_neg hc]
  · intro hsp
    rw [hred, if_pos hsp]
    have hsp' : 32 ≤ szB - req := hsp
    have hftaddr : B + req + (szB - req) - WORD_SIZE = B + szB - WORD_SIZE := by
      simp only [WORD_SIZE_eq]
      omega
    have hcellsS : ∀ c ∈ fl, B + req ≠ c + WORD_SIZE ∧
        B + req ≠ c + 2 * WORD_SIZE := by
      intro c hc
      by_cases hne : c = B
      · subst hne
        refine ⟨?_, ?_⟩ <;> simp only [WORD_SIZE_eq] <;> omega
      · have := hsepdisj c hc hne
        refine ⟨?_, ?_⟩ <;> simp only [WORD_SIZE_eq] <;> omega
    have hcellsft : ∀ c ∈ fl, B + req + (szB - req) - WORD_SIZE ≠ c + WORD_SIZE ∧
        B + req + (szB - req) - WORD_SIZE ≠ c + 2 * WORD_SIZE := by
      intro c hc
      by_cases hne : c = B
      · subst hne
        refine ⟨?_, ?_⟩ <;> simp only [WORD_SIZE_eq] <;> omega
      · have := hsepdisj c hc hne
        refine ⟨?_, ?_⟩ <;> simp only [WORD_SIZE_eq] <;> omega
    have hflh3 : freeListHead
        (wr (wr (wr (remove_free_block (wr h B (hdrVal szB pB true)) B)
            B (hdrVal req pB true))
          (B + req) (hdrVal (szB - req) true false))
          (B + req + (szB - req) - WORD_SIZE) (hdrVal (szB - req) true false))
        = freeListHead (remove_free_block (wr h B (hdrVal szB pB true)) B) := by
      simp only [freeListHead]
      rw [rd_wr_ne (show (0 : Nat) ≠ B + req + (szB - req) - WORD_SIZE by
          simp only [WORD_SIZE_eq]; omega),
        rd_wr_ne (show (0 : Nat) ≠ B + req by omega),
        rd_wr_ne (show (0 : Nat) ≠ B by omega)]
    have hch3 : chainSeg
        (wr (wr (wr (remove_free_block (wr h B (hdrVal szB pB true)) B)
            B (hdrVal req pB true))
          (B + req) (hdrVal (szB - req) true false))
          (B + req + (szB - req) - WORD_SIZE) (hdrVal (szB - req) true false))
        0 (freeListHead
          (wr (wr (wr (remove_free_block (wr h B (hdrVal szB pB true)) B)
              B (hdrVal req pB true))
            (B + req) (hdrVal (szB - req) true false))
            (B + req + (szB - req) - WORD_SIZE) (hdrVal (szB - req) true false)))
        (fl.erase B) pl2 0 := by
      rw [hflh3]
      refine chainSeg_wr_frame (chainSeg_wr_frame (chainSeg_wr_frame hch2 ?_) ?_) ?_
      · exact fun c hc => hcellsB c (List.mem_of_mem_erase hc)
      · exact fun c hc => hcellsS c (List.mem_of_mem_erase hc)
      · exact fun c hc => hcellsft c (List.mem_of_mem_erase hc)
    obtain ⟨⟨pl9, hch9⟩, hsize9, hag9⟩ :=
      insert_spec hch3 (hnd.erase _) (show B + req ≠ 0 by omega)
        (fun c hc => by
          have hcfl := List.mem_of_mem_erase hc
          have hcne := ((hnd.mem_erase_iff).mp hc).1
          have := hsepdisj c hcfl hcne
          omega)
        (fun b1 h1 b2 h2 hne =>
          hsepfl b1 (List.mem_of_mem_erase h1) b2 (List.mem_of_mem_erase h2) hne)
    have hagfinal : ∀ x, x ≠ 0 → x ≠ B → x ≠ B + req → x ≠ B + req + WORD_SIZE →
        x ≠ B + req + 2 * WORD_SIZE → x ≠ B + req + (szB - req) - WORD_SIZE →
        (∀ c ∈ fl, x ≠ c + WORD_SIZE ∧ x ≠ c + 2 * WORD_SIZE) →
        rd (insert_free_block
          (wr (wr (wr (remove_free_block (wr h B (hdrVal szB pB true)) B)
              B (hdrVal req pB true))
            (B + req) (hdrVal (szB - req) true false))
            (B + req + (szB - req) - WORD_SIZE) (hdrVal (szB - req) true false))
          (B + req)) x = rd h x := by
      intro x h0 hxB hxS hxS8 hxS16 hxft hcells
      rw [hag9 x h0 hxS8 hxS16
          (fun c hc => (hcells c (List.mem_of_mem_erase hc)).2),
        rd_wr_ne hxft, rd_wr_ne hxS, rd_wr_ne hxB]
      exact hagA x h0 hxB hcells
    have hrdBH : rd (insert_free_block
        (wr (wr (wr (remove_free_block (wr h B (hdrVal szB pB true)) B)
            B (hdrVal req pB true))
          (B + req) (hdrVal (szB - req) true false))
          (B + req + (szB - req) - WORD_SIZE) (hdrVal (szB - req) true false))
        (B + req)) B = hdrVal req pB true := by
      rw [hag9 B (by omega) (by simp only [WORD_SIZE_eq]; omega)
          (by simp only [WORD_SIZE_eq]; omega)
          (fun c hc => (hcellsB c (List.mem_of_mem_erase hc)).2),
        rd_wr_ne (show B ≠ B + req + (szB - req) - WORD_SIZE by
          simp only [WORD_SIZE_eq]; omega),
        rd_wr_ne (show B ≠ B + req by omega), rd_wr_eq]
    have hrdSH : rd (insert_free_block
        (wr (wr (wr (remove_free_block (wr h B (hdrVal szB pB true)) B)
            B (hdrVal req pB true))
          (B + req) (hdrVal (szB - req) true false))
          (B + req + (szB - req) - WORD_SIZE) (hdrVal (szB - req) true false))
        (B + req)) (B + req) = hdrVal (szB - req) true false := by
      rw [hag9 (B + req) (by omega) (by simp only [WORD_SIZE_eq]; omega)
          (by simp only [WORD_SIZE_eq]; omega)
          (fun c hc => (hcellsS c (List.mem_of_mem_erase hc)).2),
        rd_wr_ne (show B + req ≠ B + req + (szB - req) - WORD_SIZE by
          simp only [WORD_SIZE_eq]; omega),
        rd_wr_eq]
    have hrdftH : rd (insert_free_block
        (wr (wr (wr (remove_free_block (wr h B (hdrVal szB pB true)) B)
            B (hdrVal req pB true))
          (B + req) (hdrVal (szB - req) true false))
          (B + req + (szB - req) - WORD_SIZE) (hdrVal (szB - req) true false))
        (B + req)) (B + req + (szB - req) - WORD_SIZE)
        = hdrVal (szB - req) true false := by
      rw [hag9 (B + req + (szB - req) - WORD_SIZE)
          (by simp only [WORD_SIZE_eq]; omega)
          (by simp only [WORD_SIZE_eq]; omega)
          (by simp only [WORD_SIZE_eq]; omega)
          (fun c hc => (hcellsft c (List.mem_of_mem_erase hc)).2),
        rd_wr_eq]
    refine ⟨?_, ?_, ?_, ⟨pl9, hch9⟩, ?_, ?_⟩
    · refine blocksSeg_append.mpr ⟨?_, ?_⟩
      · refine blocksSeg_frame2 hsegpre ?_
        intro x hx
        obtain ⟨hxlb, hxub⟩ := segCells_bounds hsegpre hx
        rw [← hBdef] at hxub
        refine hagfinal x (by simp only [WORD_SIZE_eq] at hxlb; omega) (by omega)
          (by omega) (by simp only [WORD_SIZE_eq]; omega)
          (by simp only [WORD_SIZE_eq]; omega) (by simp only [WORD_SIZE_eq]; omega) ?_
        intro c hc
        exact ⟨fun he => (WF_not_segCells_ptr hwf hc hsubpre).2 (he ▸ hx),
          fun he => (WF_not_segCells_ptr hwf hc hsubpre).1 (he ▸ hx)⟩
      · refine ⟨hreq32, hreq8, ?_, ?_, ?_⟩
        · rw [← hBdef, ← hpBdef]
          exact hrdBH
        · intro hco
          exact absurd hco (by simp)
        · rw [← hBdef]
          refine ⟨by simp only [MIN_BLOCK_SIZE_eq]; omega, hsub8, hrdSH, ?_, ?_⟩
          · intro _
            exact hrdftH
          · have hsegpost' : blocksSeg h (B + req + (szB - req)) false post := by
              rw [show B + req + (szB - req) = B + szB by omega]
              exact hsegpost
            have hsubpost' : ∀ e ∈ withAddrs (B + req + (szB - req)) post,
                e ∈ withAddrs WORD_SIZE (pre ++ (szB, false) :: post) := by
              rw [show B + req + (szB - req) = B + szB by omega]
              exact hsubpost
            refine blocksSeg_frame2 hsegpost' ?_
            intro x hx
            obtain ⟨hxlb, hxub⟩ := segCells_bounds hsegpost' hx
            refine hagfinal x (by omega) (by omega) (by omega)
              (by simp only [WORD_SIZE_eq]; omega)
              (by simp only [WORD_SIZE_eq]; omega)
              (by simp only [WORD_SIZE_eq]; omega) ?_
            intro c hc
            exact ⟨fun he => (WF_not_segCells_ptr hwf hc hsubpost').2 (he ▸ hx),
              fun he => (WF_not_segCells_ptr hwf hc hsubpost').1 (he ▸ hx)⟩
    · rw [endA_append]
      simp only [endA]
      rw [← hBdef, hsize9]
      simp only [size_wr]
      rw [hsize2]
      simp only [size_wr]
      rw [show B + req + (szB - req) = B + szB by omega]
      have hsA := hsentA
      rw [hendbl] at hsA
      exact hsA
    · rw [endA_append]
      simp only [endA]
      have hend' : endP true (pre ++ (req, true) :: (szB - req, false) :: post)
          = endP false post := by
        rw [endP_append]
        rfl
      rw [hend', ← hBdef]
      have hxeq : endA (B + req + (szB - req)) post = endA (B + szB) post := by
        rw [show B + req + (szB - req) = B + szB by omega]
      have hreadS : rd (insert_free_block
          (wr (wr (wr (remove_free_block (wr h B (hdrVal szB pB true)) B)
              B (hdrVal req pB true))
            (B + req) (hdrVal (szB - req) true false))
            (B + req + (szB - req) - WORD_SIZE) (hdrVal (szB - req) true false))
          (B + req)) (endA (B + req + (szB - req)) post)
          = rd h (endA (B + szB) post) := by
        rw [hxeq]
        refine hagfinal _ (by omega) (by omega) (by omega)
          (by simp only [WORD_SIZE_eq]; omega)
          (by simp only [WORD_SIZE_eq]; omega)
          (by simp only [WORD_SIZE_eq]; omega) ?_
        exact hsentcell
      rw [hreadS]
      have hv := hsentV
      rw [hendbl, hendPbl] at hv
      exact hv
    · have hfp : freeAddrs WORD_SIZE (pre ++ (req, true) :: (szB - req, false) :: post)
          = freeAddrs WORD_SIZE pre ++ (B + req) :: freeAddrs (B + szB) post := by
        rw [freeAddrs_append, freeAddrs_cons_used, freeAddrs_cons_free, ← hBdef,
          show B + req + (szB - req) = B + szB by omega]
      rw [hfp]
      exact (hek.cons _).trans List.perm_middle.symm
    · exact noAdjFree_append.mpr ⟨hadjpre, Or.inr rfl, Or.inl rfl, hadjtail⟩
  · intro hns
    rw [hred, if_neg (show ¬ MIN_BLOCK_SIZE ≤ szB - req by
      simp only [MIN_BLOCK_SIZE_eq] at hns ⊢; omega)]
    have hcellsF : ∀ c ∈ fl, B + szB ≠ c + WORD_SIZE ∧
        B + szB ≠ c + 2 * WORD_SIZE := by
      intro c hc
      by_cases hne : c = B
      · subst hne
        refine ⟨?_, ?_⟩ <;> simp only [WORD_SIZE_eq] <;> omega
      · have := hsepdisj c hc hne
        refine ⟨?_, ?_⟩ <;> simp only [WORD_SIZE_eq] <;> omega
    have hstopval : ∃ szN, szN % 8 = 0 ∧
        rd h (B + szB) = hdrVal szN false true := by
      cases post with
      | nil =>
        refine ⟨0, by norm_num, ?_⟩
        have hv := hsentV
        rw [hendbl] at hv
        simp only [endA] at hv
        rw [hendPbl] at hv
        simpa only [endP] using hv
      | cons hdN postT =>
        obtain ⟨szN, uN⟩ := hdN
        obtain ⟨_, hszN8, hhdrN, _, _⟩ := hsegpost
        have huN : uN = true := by
          rcases hadjtail.1 with hc | hc
          · exact absurd hc (by simp)
          · exact hc
        exact ⟨szN, hszN8, by rw [hhdrN, huN]⟩
    obtain ⟨szN, hszN8, hrdN⟩ := hstopval
    have hrdN2 : rd (remove_free_block (wr h B (hdrVal szB pB true)) B)
        (B + szB) = hdrVal szN false true := by
      rw [hagA (B + szB) (by omega) (by omega) hcellsF, hrdN]
    have hwrval : rd (remove_free_block (wr h B (hdrVal szB pB true)) B)
        (B + szB) ||| TAG_PRECEDING_USED = hdrVal szN true true := by
      rw [hrdN2, TAG_PRECEDING_USED_eq, hdrVal_or_two hszN8]
    rw [hwrval]
    have hagH : ∀ x, x ≠ 0 → x ≠ B → x ≠ B + szB →
        (∀ c ∈ fl, x ≠ c + WORD_SIZE ∧ x ≠ c + 2 * WORD_SIZE) →
        rd (wr (remove_free_block (wr h B (hdrVal szB pB true)) B)
          (B + szB) (hdrVal szN true true)) x = rd h x := by
      intro x h0 hxB hxF hcells
      rw [rd_wr_ne hxF]
      exact hagA x h0 hxB hcells
    have hchH : chainSeg
        (wr (remove_free_block (wr h B (hdrVal szB pB true)) B)
          (B + szB) (hdrVal szN true true)) 0
        (freeListHead (wr (remove_free_block (wr h B (hdrVal szB pB true)) B)
          (B + szB) (hdrVal szN true true)))
        (fl.erase B) pl2 0 := by
      have hflhH : freeListHead
          (wr (remove_free_block (wr h B (hdrVal szB pB true)) B)
            (B + szB) (hdrVal szN true true))
          = freeListHead (remove_free_block (wr h B (hdrVal szB pB true)) B) := by
        simp only [freeListHead]
        rw [rd_wr_ne (show (0 : Nat) ≠ B + szB by omega)]
      rw [hflhH]
      exact chainSeg_wr_frame hch2
        (fun c hc => hcellsF c (List.mem_of_mem_erase hc))
    have hrdBH : rd (wr (remove_free_block (wr h B (hdrVal szB pB true)) B)
        (B + szB) (hdrVal szN true true)) B = hdrVal szB pB true := by
      rw [rd_wr_ne (show B ≠ B + szB by omega)]
      exact hrdB2
    refine ⟨?_, ?_, ?_, ⟨pl2, hchH⟩, ?_, ?_⟩
    · refine blocksSeg_append.mpr ⟨?_, ?_⟩
      · refine blocksSeg_frame2 hsegpre ?_
        intro x hx
        obtain ⟨hxlb, hxub⟩ := segCells_bounds hsegpre hx
        rw [← hBdef] at hxub
        refine hagH x (by simp only [WORD_SIZE_eq] at hxlb; omega) (by omega)
          (by omega) ?_
        intro c hc
        exact ⟨fun he => (WF_not_segCells_ptr hwf hc hsubpre).2 (he ▸ hx),
          fun he => (WF_not_segCells_ptr hwf hc hsubpre).1 (he ▸ hx)⟩
      · refine ⟨hminB, hszB8, ?_, ?_, ?_⟩
        · rw [← hBdef, ← hpBdef]
          exact hrdBH
        · intro hco
          exact absurd hco (by simp)
        · rw [← hBdef]
          cases post with
          | nil => trivial
          | cons hdN postT =>
            obtain ⟨szN', uN⟩ := hdN
            obtain ⟨hminN, hszN8', hhdrN, _, hsegpostT⟩ := hsegpost
            have huN : uN = true := by
              rcases hadjtail.1 with hc | hc
              · exact absurd hc (by simp)
              · exact hc
            subst huN
            have hminN' : 32 ≤ szN' := hminN
            have hszNeq : szN' = szN := by
              have heq := hrdN
              rw [hhdrN] at heq
              have h2 : SIZE (hdrVal szN' false true) = szN' :=
                SIZE_hdrVal hszN8' false true
              have h3 : SIZE (hdrVal szN false true) = szN :=
                SIZE_hdrVal hszN8 false true
              rw [heq, h3] at h2
              omega
            subst hszNeq
            refine ⟨hminN, hszN8', ?_, ?_, ?_⟩
            · rw [rd_wr_eq]
            · intro hco
              exact absurd hco (by simp)
            · refine blocksSeg_frame2 hsegpostT ?_
              intro x hx
              obtain ⟨hxlb, hxub⟩ := segCells_bounds hsegpostT hx
              refine hagH x (by omega) (by omega) (by omega) ?_
              intro c hc
              exact ⟨fun he => (WF_not_segCells_ptr hwf hc
                  (fun e he2 => hsubpost e (List.mem_cons_of_mem _ he2))).2 (he ▸ hx),
                fun he => (WF_not_segCells_ptr hwf hc
                  (fun e he2 => hsubpost e (List.mem_cons_of_mem _ he2))).1 (he ▸ hx)⟩
    · rw [endA_append]
      simp only [endA, size_wr]
      rw [← hBdef, hsize2]
      simp only [size_wr]
      have hsA := hsentA
      rw [hendbl] at hsA
      exact hsA
    · rw [endA_append]
      simp only [endA]
      rw [← hBdef]
      have hend' : endP true (pre ++ (szB, true) :: post) = endP true post := by
        rw [endP_append]
        rfl
      rw [hend']
      cases post with
      | nil =>
        simp only [endA, endP]
        rw [rd_wr_eq]
        have hv := hsentV
        rw [hendbl] at hv
        simp only [endA] at hv
        rw [hendPbl] at hv
        simp only [endP] at hv
        rw [hv] at hrdN
        have hszN0 : szN = 0 := by
          have h2 : SIZE (hdrVal szN false true) = szN :=
            SIZE_hdrVal hszN8 false true
          have h3 : SIZE (hdrVal 0 false true) = 0 :=
            SIZE_hdrVal (by norm_num) false true
          rw [← hrdN, h3] at h2
          omega
        rw [hszN0]
      | cons hdN postT =>
        obtain ⟨szN', uN⟩ := hdN
        have huN : uN = true := by
          rcases hadjtail.1 with hc | hc
          · exact absurd hc (by simp)
          · exact hc
        subst huN
        have hreadS : rd (wr (remove_free_block (wr h B (hdrVal szB pB true)) B)
            (B + szB) (hdrVal szN true true))
            (endA (B + szB) ((szN', true) :: postT))
            = rd h (endA (B + szB) ((szN', true) :: postT)) := by
          have hminN' : 32 ≤ szN' := hsegpost.1
          have hS2 : B + szB + szN' ≤ endA (B + szB + szN') postT := le_endA _ _
          refine hagH _ (by simp only [endA] at *; omega)
            (by simp only [endA] at *; omega) (by simp only [endA] at *; omega) ?_
          exact hsentcell
        rw [hreadS]
        have hv := hsentV
        rw [hendbl] at hv
        rw [hendPbl] at hv
        simpa only [endP] using hv
    · have hfp : freeAddrs WORD_SIZE (pre ++ (szB, true) :: post) =
          freeAddrs WORD_SIZE pre ++ freeAddrs (B + szB) post := by
        rw [freeAddrs_append, freeAddrs_cons_used]
      rw [hfp]
      exact hek
    · refine noAdjFree_append.mpr ⟨hadjpre, Or.inr rfl, ?_⟩
      exact noAdjFree_true_of hadjtail

/-- `request_more_space` preserves well-formedness and leaves the head of
the free list pointing at a free block of at least the requested size. -/
theorem grow_WF {h : Heap} {bl : List (Nat × Bool)} {fl : List Nat}
    (hwf : WF h bl fl) {req : Nat}
    (hreq32 : MIN_BLOCK_SIZE ≤ req) (hreq8 : req % 8 = 0) :
    ∃ pre2 post2 szb fl2,
      WF (request_more_space h req) (pre2 ++ (szb, false) :: post2)
        (endA WORD_SIZE pre2 :: fl2) ∧ req ≤ szb := by
  have hreq32' : 32 ≤ req := hreq32
  set T := (req + PAGE_SIZE - 1) / PAGE_SIZE * PAGE_SIZE with hTdef
  have hT8 : T % 8 = 0 := by
    rw [hTdef]
    simp only [PAGE_SIZE_eq]
    omega
  have hTreq : req ≤ T := by
    rw [hTdef]
    simp only [PAGE_SIZE_eq]
    omega
  have hT32 : 32 ≤ T := by omega
  set N := endA WORD_SIZE bl with hNdef
  have hsentA : N + WORD_SIZE = h.size := hwf.sentinelAddr
  have hN8 : WORD_SIZE ≤ N := le_endA _ _
  have hN8' : 8 ≤ N := hN8
  set pN := endP true bl with hpNdef
  have hsentV : rd h N = hdrVal 0 pN true := hwf.sentinelVal
  have hmask : rd (mem_sbrk h T).1 N &&& TAG_PRECEDING_USED
      = if pN then 2 else 0 := by
    have hr : rd (mem_sbrk h T).1 N = hdrVal 0 pN true := hsentV
    rw [hr, TAG_PRECEDING_USED_eq, hdrVal_and_two (by norm_num)]
  have hval : T ||| (if pN then 2 else 0) = hdrVal T pN false := by
    rw [or_mask hT8]
    rcases Bool.dichotomy pN with hp | hp <;> rw [hp] <;>
      simp [hdrVal, TAG_PRECEDING_USED, TAG_USED]
  have hgrow : request_more_space h req =
      coalesce_free_block
        (insert_free_block
          (wr (wr (wr (mem_sbrk h T).1 N (hdrVal T pN false))
            (N + (T - WORD_SIZE)) (hdrVal T pN false))
            (N + T) TAG_USED) N) N := by
    simp only [request_more_space]
    rw [← hTdef]
    rw [show (mem_sbrk h T).2 - WORD_SIZE = N by
      simp only [mem_sbrk]
      simp only [WORD_SIZE_eq] at hsentA ⊢
      omega]
    rw [hmask, hval]
  rw [hgrow]
  have hnd := WF_fl_nodup hwf
  have hsepfl := WF_fl_sep hwf
  obtain ⟨pl, hch⟩ := hwf.chain
  have hflbound : ∀ c ∈ fl, c + 32 ≤ N := by
    intro c hc
    obtain ⟨szc, hcm⟩ := WF_fl_block hwf hc
    have hub := (mem_withAddrs_facts hwf.seg hcm).2.1
    have h32 := (mem_withAddrs_facts hwf.seg hcm).2.2.1
    have h32' : 32 ≤ szc := h32
    rw [← hNdef] at hub
    omega
  have hNfl : N ∉ fl := fun hc => by have := hflbound N hc; omega
  have hch1 : chainSeg (mem_sbrk h T).1 0 (freeListHead (mem_sbrk h T).1)
      fl pl 0 := chainSeg_frame hch (fun b _ => ⟨rfl, rfl⟩)
  have hcells3 : ∀ c ∈ fl,
      (N ≠ c + WORD_SIZE ∧ N ≠ c + 2 * WORD_SIZE) ∧
      (N + (T - WORD_SIZE) ≠ c + WORD_SIZE ∧
        N + (T - WORD_SIZE) ≠ c + 2 * WORD_SIZE) ∧
      (N + T ≠ c + WORD_SIZE ∧ N + T ≠ c + 2 * WORD_SIZE) := by
    intro c hc
    have := hflbound c hc
    refine ⟨⟨?_, ?_⟩, ⟨?_, ?_⟩, ?_, ?_⟩ <;> simp only [WORD_SIZE_eq] <;> omega
  have hch4 : chainSeg
      (wr (wr (wr (mem_sbrk h T).1 N (hdrVal T pN false))
        (N + (T - WORD_SIZE)) (hdrVal T pN false))
        (N + T) TAG_USED) 0
      (freeListHead (wr (wr (wr (mem_sbrk h T).1 N (hdrVal T pN false))
        (N + (T - WORD_SIZE)) (hdrVal T pN false))
        (N + T) TAG_USED)) fl pl 0 := by
    have hflh4 : freeListHead (wr (wr (wr (mem_sbrk h T).1 N (hdrVal T pN false))
        (N + (T - WORD_SIZE)) (hdrVal T pN false))
        (N + T) TAG_USED) = freeListHead (mem_sbrk h T).1 := by
      simp only [freeListHead]
      rw [rd_wr_ne (show (0 : Nat) ≠ N + T by omega),
        rd_wr_ne (show (0 : Nat) ≠ N + (T - WORD_SIZE) by
          simp only [WORD_SIZE_eq]; omega),
        rd_wr_ne (show (0 : Nat) ≠ N by omega)]
    rw [hflh4]
    refine chainSeg_wr_frame (chainSeg_wr_frame (chainSeg_wr_frame hch1 ?_) ?_) ?_
    · exact fun c hc => (hcells3 c hc).1
    · exact fun c hc => (hcells3 c hc).2.1
    · exact fun c hc => (hcells3 c hc).2.2
  obtain ⟨⟨pl5, hch5⟩, hsize5, hag5⟩ :=
    insert_spec hch4 hnd (show N ≠ 0 by omega)
      (fun c hc => Or.inr (hflbound c hc)) hsepfl
  have hrdN5 : rd (insert_free_block
      (wr (wr (wr (mem_sbrk h T).1 N (hdrVal T pN false))
        (N + (T - WORD_SIZE)) (hdrVal T pN false))
        (N + T) TAG_USED) N) N = hdrVal T pN false := by
    rw [hag5 N (by omega) (by simp only [WORD_SIZE_eq]; omega)
        (by simp only [WORD_SIZE_eq]; omega)
        (fun c hc => (hcells3 c hc).1.2),
      rd_wr_ne (show N ≠ N + T by omega),
      rd_wr_ne (show N ≠ N + (T - WORD_SIZE) by
        simp only [WORD_SIZE_eq]; omega),
      rd_wr_eq]
  have hrdS5 : rd (insert_free_block
      (wr (wr (wr (mem_sbrk h T).1 N (hdrVal T pN false))
        (N + (T - WORD_SIZE)) (hdrVal T pN false))
        (N + T) TAG_USED) N) (N + T) = TAG_USED := by
    rw [hag5 (N + T) (by omega) (by simp only [WORD_SIZE_eq]; omega)
        (by simp only [WORD_SIZE_eq]; omega)
        (fun c hc => by
          have := hflbound c hc
          simp only [WORD_SIZE_eq]
          omega),
      rd_wr_eq]
  have hrdft5 : rd (insert_free_block
      (wr (wr (wr (mem_sbrk h T).1 N (hdrVal T pN false))
        (N + (T - WORD_SIZE)) (hdrVal T pN false))
        (N + T) TAG_USED) N) (N + (T - WORD_SIZE)) = hdrVal T pN false := by
    rw [hag5 (N + (T - WORD_SIZE)) (by simp only [WORD_SIZE_eq]; omega)
        (by simp only [WORD_SIZE_eq]; omega)
        (by simp only [WORD_SIZE_eq]; omega)
        (fun c hc => by
          have := hflbound c hc
          simp only [WORD_SIZE_eq]
          omega),
      rd_wr_ne (show N + (T - WORD_SIZE) ≠ N + T by
        simp only [WORD_SIZE_eq]; omega),
      rd_wr_eq]
  have hagG : ∀ x, x ≠ 0 → x ≠ N → x ≠ N + (T - WORD_SIZE) → x ≠ N + T →
      x ≠ N + WORD_SIZE → x ≠ N + 2 * WORD_SIZE →
      (∀ c ∈ fl, x ≠ c + 2 * WORD_SIZE) →
      rd (insert_free_block
        (wr (wr (wr (mem_sbrk h T).1 N (hdrVal T pN false))
          (N + (T - WORD_SIZE)) (hdrVal T pN false))
          (N + T) TAG_USED) N) x = rd h x := by
    intro x h0 hxN hxft hxS hx8 hx16 hcells
    rw [hag5 x h0 hx8 hx16 hcells, rd_wr_ne hxS, rd_wr_ne hxft, rd_wr_ne hxN]
    rfl
  have hsegbl5 : blocksSeg (insert_free_block
      (wr (wr (wr (mem_sbrk h T).1 N (hdrVal T pN false))
        (N + (T - WORD_SIZE)) (hdrVal T pN false))
        (N + T) TAG_USED) N) WORD_SIZE true bl := by
    refine blocksSeg_frame2 hwf.seg ?_
    intro x hx
    obtain ⟨hxlb, hxub⟩ := segCells_bounds hwf.seg hx
    rw [← hNdef] at hxub
    refine hagG x (by simp only [WORD_SIZE_eq] at hxlb; omega) (by omega)
      (by simp only [WORD_SIZE_eq]; omega) (by omega)
      (by simp only [WORD_SIZE_eq]; omega) (by simp only [WORD_SIZE_eq]; omega) ?_
    intro c hc he
    exact (WF_not_segCells_ptr hwf hc (fun e he2 => he2)).1 (he ▸ hx)
  rcases Bool.dichotomy pN with hp | hp
  · -- the old last block is free: the new region merges backward into it
    have hpe : endP true bl = false := by
      rw [← hpNdef]
      exact hp
    obtain ⟨bl0, szP, hble⟩ := endP_false_decomp hpe
    subst hble
    obtain ⟨hsegbl0, hsegPmid⟩ := blocksSeg_append.mp hwf.seg
    obtain ⟨hminP, hszP8, hhdrP, hftPi, _⟩ := hsegPmid
    have hftP := hftPi rfl
    have hminP' : 32 ≤ szP := hminP
    set P := endA WORD_SIZE bl0 with hPdef
    set pP := endP true bl0 with hpPdef
    have hNP : N = P + szP := by
      rw [hNdef, endA_append]
      simp only [endA]
    have hP8 : WORD_SIZE ≤ P := le_endA WORD_SIZE bl0
    have hP8' : 8 ≤ P := hP8
    have hpP : pP = true := by
      have hj := (noAdjFree_append.mp hwf.adj).2
      rcases hj.1 with hc | hc
      · exact hc
      · exact absurd hc (by simp)
    have hfpre : freeAddrs WORD_SIZE (bl0 ++ [(szP, false)]) =
        freeAddrs WORD_SIZE bl0 ++ [P] := by
      rw [freeAddrs_append]
      rfl
    have hPfl : P ∈ fl := by
      refine hwf.perm.mem_iff.mpr ?_
      rw [hfpre]
      exact List.mem_append_right _ (List.mem_cons_self _ _)
    have hPmem : (P, szP, false) ∈
        withAddrs WORD_SIZE (bl0 ++ [(szP, false)]) := by
      rw [withAddrs_append]
      exact List.mem_append_right _ (List.mem_cons_self _ _)
    have hPdisj : ∀ c ∈ fl, c ≠ P → c + 32 ≤ P ∨ N ≤ c := by
      intro c hc hne
      obtain ⟨szc, hcm⟩ := WF_fl_block hwf hc
      have h32 := (mem_withAddrs_facts hwf.seg hcm).2.2.1
      have h32' : 32 ≤ szc := h32
      have hd := withAddrs_disjoint hwf.seg hcm hPmem hne
      omega
    have hcellsP : ∀ c ∈ N :: fl, P ≠ c + WORD_SIZE ∧ P ≠ c + 2 * WORD_SIZE := by
      intro c hc
      rcases List.mem_cons.mp hc with rfl | hc'
      · refine ⟨?_, ?_⟩ <;> simp only [WORD_SIZE_eq] <;> omega
      · by_cases hne : c = P
        · subst hne
          refine ⟨?_, ?_⟩ <;> simp only [WORD_SIZE_eq] <;> omega
        · have := hPdisj c hc' hne
          refine ⟨?_, ?_⟩ <;> simp only [WORD_SIZE_eq] <;> omega
    have hrdN5' : rd (insert_free_block
        (wr (wr (wr (mem_sbrk h T).1 N (hdrVal T pN false))
          (N + (T - WORD_SIZE)) (hdrVal T pN false))
          (N + T) TAG_USED) N) N = hdrVal T false false := by
      rw [hrdN5, hp]
    have hrdPft5 : rd (insert_free_block
        (wr (wr (wr (mem_sbrk h T).1 N (hdrVal T pN false))
          (N + (T - WORD_SIZE)) (hdrVal T pN false))
          (N + T) TAG_USED) N) (N - WORD_SIZE) = hdrVal szP pP false := by
      rw [hagG (N - WORD_SIZE) (by simp only [WORD_SIZE_eq]; omega)
          (by simp only [WORD_SIZE_eq]; omega)
          (by simp only [WORD_SIZE_eq]; omega)
          (by simp only [WORD_SIZE_eq]; omega)
          (by simp only [WORD_SIZE_eq]; omega)
          (by simp only [WORD_SIZE_eq]; omega)
          (fun c hc => by
            have := hflbound c hc
            simp only [WORD_SIZE_eq]
            omega),
        show N - WORD_SIZE = P + szP - WORD_SIZE by
          simp only [WORD_SIZE_eq]; omega]
      exact hftP
    have hrdP5 : rd (insert_free_block
        (wr (wr (wr (mem_sbrk h T).1 N (hdrVal T pN false))
          (N + (T - WORD_SIZE)) (hdrVal T pN false))
          (N + T) TAG_USED) N) P = hdrVal szP pP false := by
      rw [hagG P (by omega) (by omega) (by simp only [WORD_SIZE_eq]; omega)
          (by omega) (by simp only [WORD_SIZE_eq]; omega)
          (by simp only [WORD_SIZE_eq]; omega)
          (fun c hc => (hcellsP c (List.mem_cons_of_mem N hc)).2)]
      exact hhdrP
    have hndN : (N :: fl).Nodup := by
      rw [List.nodup_cons]
      exact ⟨hNfl, hnd⟩
    have hsepN : ∀ b1 ∈ N :: fl, ∀ b2 ∈ N :: fl, b1 ≠ b2 →
        b1 + 32 ≤ b2 ∨ b2 + 32 ≤ b1 := by
      intro b1 h1 b2 h2 hne
      rcases List.mem_cons.mp h1 with rfl | h1' <;>
        rcases List.mem_cons.mp h2 with rfl | h2'
      · omega
      · have := hflbound b2 h2'
        omega
      · have := hflbound b1 h1'
        omega
      · exact hsepfl b1 h1' b2 h2' hne
    obtain ⟨⟨pl6, hch6⟩, hsize6, hag6⟩ :=
      remove_spec hch5 hndN hsepN (List.mem_cons_of_mem N hPfl)
    have herase1 : (N :: fl).erase P = N :: fl.erase P := by
      rw [List.erase_cons_tail]
      simp only [beq_iff_eq]
      omega
    rw [herase1] at hch6
    have hrdP6 : rd (remove_free_block (insert_free_block
        (wr (wr (wr (mem_sbrk h T).1 N (hdrVal T pN false))
          (N + (T - WORD_SIZE)) (hdrVal T pN false))
          (N + T) TAG_USED) N) P) P = hdrVal szP pP false := by
      rw [hag6 P (by omega) hcellsP]
      exact hrdP5
    have hb0 : rd (insert_free_block
        (wr (wr (wr (mem_sbrk h T).1 N (hdrVal T pN false))
          (N + (T - WORD_SIZE)) (hdrVal T pN false))
          (N + T) TAG_USED) N) N &&& TAG_PRECEDING_USED = 0 := by
      rw [hrdN5']
      exact hdrVal_test_prec_false hT8 false
    have hftsize : SIZE (rd (insert_free_block
        (wr (wr (wr (mem_sbrk h T).1 N (hdrVal T pN false))
          (N + (T - WORD_SIZE)) (hdrVal T pN false))
          (N + T) TAG_USED) N) (N - WORD_SIZE)) = szP := by
      rw [hrdPft5, SIZE_hdrVal hszP8]
    have hNmszP : N - szP = P := by omega
    have hbackstop : rd (remove_free_block (insert_free_block
        (wr (wr (wr (mem_sbrk h T).1 N (hdrVal T pN false))
          (N + (T - WORD_SIZE)) (hdrVal T pN false))
          (N + T) TAG_USED) N) (N - szP)) (N - szP)
        &&& TAG_PRECEDING_USED ≠ 0 := by
      rw [hNmszP, hrdP6, hpP]
      exact hdrVal_test_prec_true hszP8 false
    have hback : coalesceBack (insert_free_block
        (wr (wr (wr (mem_sbrk h T).1 N (hdrVal T pN false))
          (N + (T - WORD_SIZE)) (hdrVal T pN false))
          (N + T) TAG_USED) N).size
        (insert_free_block
          (wr (wr (wr (mem_sbrk h T).1 N (hdrVal T pN false))
            (N + (T - WORD_SIZE)) (hdrVal T pN false))
            (N + T) TAG_USED) N) N T
        = (remove_free_block (insert_free_block
            (wr (wr (wr (mem_sbrk h T).1 N (hdrVal T pN false))
              (N + (T - WORD_SIZE)) (hdrVal T pN false))
              (N + T) TAG_USED) N) P, P, T + szP) := by
      rw [coalesceBack_one hb0 hftsize hbackstop
        (by rw [hsize5]; simp only [size_wr, mem_sbrk]; omega), hNmszP]
    have hcellsS2 : ∀ c ∈ N :: fl, N + T ≠ c + WORD_SIZE ∧
        N + T ≠ c + 2 * WORD_SIZE := by
      intro c hc
      rcases List.mem_cons.mp hc with rfl | hc'
      · refine ⟨?_, ?_⟩ <;> simp only [WORD_SIZE_eq] <;> omega
      · have := hflbound c hc'
        refine ⟨?_, ?_⟩ <;> simp only [WORD_SIZE_eq] <;> omega
    have hfwdstop : rd (remove_free_block (insert_free_block
        (wr (wr (wr (mem_sbrk h T).1 N (hdrVal T pN false))
          (N + (T - WORD_SIZE)) (hdrVal T pN false))
          (N + T) TAG_USED) N) P) (N + T) &&& TAG_USED ≠ 0 := by
      rw [hag6 (N + T) (by omega) hcellsS2, hrdS5]
      decide
    have hcoal : coalesce_free_block (insert_free_block
        (wr (wr (wr (mem_sbrk h T).1 N (hdrVal T pN false))
          (N + (T - WORD_SIZE)) (hdrVal T pN false))
          (N + T) TAG_USED) N) N =
        insert_free_block
          (wr (wr (remove_free_block (remove_free_block (insert_free_block
              (wr (wr (wr (mem_sbrk h T).1 N (hdrVal T pN false))
                (N + (T - WORD_SIZE)) (hdrVal T pN false))
                (N + T) TAG_USED) N) P) N)
            P ((T + szP) ||| TAG_PRECEDING_USED))
            (N + T - WORD_SIZE) ((T + szP) ||| TAG_PRECEDING_USED)) P := by
      simp only [coalesce_free_block]
      rw [hrdN5', SIZE_hdrVal hT8, hback]
      dsimp only
      rw [coalesceFwd_stop hfwdstop]
      dsimp only
      rw [if_pos (show T + szP ≠ T by omega)]
    rw [hcoal]
    have hnd6 : (N :: fl.erase P).Nodup := by
      rw [List.nodup_cons]
      exact ⟨fun hm => hNfl (List.mem_of_mem_erase hm), hnd.erase _⟩
    have hsep6 : ∀ b1 ∈ N :: fl.erase P, ∀ b2 ∈ N :: fl.erase P,
        b1 ≠ b2 → b1 + 32 ≤ b2 ∨ b2 + 32 ≤ b1 := by
      intro b1 h1 b2 h2 hne
      refine hsepN b1 ?_ b2 ?_ hne <;>
        [rcases List.mem_cons.mp h1 with rfl | h1'; rcases List.mem_cons.mp h2 with rfl | h2']
      · exact List.mem_cons_self _ _
      · exact List.mem_cons_of_mem _ (List.mem_of_mem_erase h1')
      · exact List.mem_cons_self _ _
      · exact List.mem_cons_of_mem _ (List.mem_of_mem_erase h2')
    obtain ⟨⟨pl7, hch7⟩, hsize7, hag7⟩ :=
      remove_spec hch6 hnd6 hsep6 (List.mem_cons_self _ _)
    rw [List.erase_cons_head] at hch7
    have hmemerase : ∀ c ∈ fl.erase P, c ∈ fl ∧ c ≠ P := by
      intro c hc
      exact ⟨List.mem_of_mem_erase hc, ((hnd.mem_erase_iff).mp hc).1⟩
    have hchw : ∀ c ∈ fl.erase P,
        (P ≠ c + WORD_SIZE ∧ P ≠ c + 2 * WORD_SIZE) ∧
        (N + T - WORD_SIZE ≠ c + WORD_SIZE ∧
          N + T - WORD_SIZE ≠ c + 2 * WORD_SIZE) := by
      intro c hc
      obtain ⟨hcfl, hcne⟩ := hmemerase c hc
      have hd1 := hPdisj c hcfl hcne
      have hd2 := hflbound c hcfl
      refine ⟨⟨?_, ?_⟩, ?_, ?_⟩ <;> simp only [WORD_SIZE_eq] <;> omega
    have hch8pre : chainSeg
        (wr (wr (remove_free_block (remove_free_block (insert_free_block
            (wr (wr (wr (mem_sbrk h T).1 N (hdrVal T pN false))
              (N + (T - WORD_SIZE)) (hdrVal T pN false))
              (N + T) TAG_USED) N) P) N)
          P ((T + szP) ||| TAG_PRECEDING_USED))
          (N + T - WORD_SIZE) ((T + szP) ||| TAG_PRECEDING_USED))
        0 (freeListHead (remove_free_block (remove_free_block (insert_free_block
            (wr (wr (wr (mem_sbrk h T).1 N (hdrVal T pN false))
              (N + (T - WORD_SIZE)) (hdrVal T pN false))
              (N + T) TAG_USED) N) P) N))
        (fl.erase P) pl7 0 := by
      refine chainSeg_wr_frame (chainSeg_wr_frame hch7 ?_) ?_
      · exact fun c hc => (hchw c hc).1
      · exact fun c hc => (hchw c hc).2
    have hflh8 : freeListHead
        (wr (wr (remove_free_block (remove_free_block (insert_free_block
            (wr (wr (wr (mem_sbrk h T).1 N (hdrVal T pN false))
              (N + (T - WORD_SIZE)) (hdrVal T pN false))
              (N + T) TAG_USED) N) P) N)
          P ((T + szP) ||| TAG_PRECEDING_USED))
          (N + T - WORD_SIZE) ((T + szP) ||| TAG_PRECEDING_USED))
        = freeListHead (remove_free_block (remove_free_block (insert_free_block
            (wr (wr (wr (mem_sbrk h T).1 N (hdrVal T pN false))
              (N + (T - WORD_SIZE)) (hdrVal T pN false))
              (N + T) TAG_USED) N) P) N) := by
      simp only [freeListHead]
      rw [rd_wr_ne (show (0 : Nat) ≠ N + T - WORD_SIZE by
          simp only [WORD_SIZE_eq]; omega),
        rd_wr_ne (show (0 : Nat) ≠ P by omega)]
    obtain ⟨⟨pl9, hch9⟩, hsize9, hag9⟩ :=
      insert_spec (hflh8.symm ▸ hch8pre) (hnd.erase _) (show P ≠ 0 by omega)
        (fun c hc => by
          obtain ⟨hcfl, hcne⟩ := hmemerase c hc
          have := hPdisj c hcfl hcne
          omega)
        (fun b1 h1 b2 h2 hne =>
          hsepfl b1 (List.mem_of_mem_erase h1) b2 (List.mem_of_mem_erase h2) hne)
    have hagfinal : ∀ x, x ≠ 0 → x ≠ N → x ≠ N + T → x ≠ P →
        x ≠ N + WORD_SIZE → x ≠ N + 2 * WORD_SIZE → x ≠ N + T - WORD_SIZE →
        (∀ c ∈ fl, x ≠ c + WORD_SIZE ∧ x ≠ c + 2 * WORD_SIZE) →
        rd (insert_free_block
          (wr (wr (remove_free_block (remove_free_block (insert_free_block
              (wr (wr (wr (mem_sbrk h T).1 N (hdrVal T pN false))
                (N + (T - WORD_SIZE)) (hdrVal T pN false))
                (N + T) TAG_USED) N) P) N)
            P ((T + szP) ||| TAG_PRECEDING_USED))
            (N + T - WORD_SIZE) ((T + szP) ||| TAG_PRECEDING_USED)) P) x
          = rd h x := by
      intro x h0 hxN hxS hxP hx8 hx16 hxft hcells
      rw [hag9 x h0 (hcells P hPfl).1 (hcells P hPfl).2
          (fun c hc => (hcells c (List.mem_of_mem_erase hc)).2),
        rd_wr_ne hxft, rd_wr_ne hxP,
        hag7 x h0 (fun c hc => by
          rcases List.mem_cons.mp hc with rfl | hc'
          · exact ⟨hx8, hx16⟩
          · exact hcells c (List.mem_of_mem_erase hc')),
        hag6 x h0 (fun c hc => by
          rcases List.mem_cons.mp hc with rfl | hc'
          · exact ⟨hx8, hx16⟩
          · exact hcells c hc')]
      exact hagG x h0 hxN
        (by simp only [WORD_SIZE_eq] at hxft ⊢; omega) hxS hx8 hx16
        (fun c hc => (hcells c hc).2)
    have hT8P : (T + szP) % 8 = 0 := by omega
    have hrdhdr : rd (insert_free_block
        (wr (wr (remove_free_block (remove_free_block (insert_free_block
            (wr (wr (wr (mem_sbrk h T).1 N (hdrVal T pN false))
              (N + (T - WORD_SIZE)) (hdrVal T pN false))
              (N + T) TAG_USED) N) P) N)
          P ((T + szP) ||| TAG_PRECEDING_USED))
          (N + T - WORD_SIZE) ((T + szP) ||| TAG_PRECEDING_USED)) P) P
        = hdrVal (T + szP) true false := by
      rw [hag9 P (by omega) (by simp only [WORD_SIZE_eq]; omega)
          (by simp only [WORD_SIZE_eq]; omega)
          (fun c hc => (hcellsP c (List.mem_cons_of_mem N
            (List.mem_of_mem_erase hc))).2),
        rd_wr_ne (show P ≠ N + T - WORD_SIZE by
          simp only [WORD_SIZE_eq]; omega),
        rd_wr_eq, or_two_hdr hT8P]
    have hrdftr : rd (insert_free_block
        (wr (wr (remove_free_block (remove_free_block (insert_free_block
            (wr (wr (wr (mem_sbrk h T).1 N (hdrVal T pN false))
              (N + (T - WORD_SIZE)) (hdrVal T pN false))
              (N + T) TAG_USED) N) P) N)
          P ((T + szP) ||| TAG_PRECEDING_USED))
          (N + T - WORD_SIZE) ((T + szP) ||| TAG_PRECEDING_USED)) P)
        (N + T - WORD_SIZE) = hdrVal (T + szP) true false := by
      rw [hag9 (N + T - WORD_SIZE) (by simp only [WORD_SIZE_eq]; omega)
          (by simp only [WORD_SIZE_eq]; omega)
          (by simp only [WORD_SIZE_eq]; omega)
          (fun c hc => (hchw c hc).2.2),
        rd_wr_eq, or_two_hdr hT8P]
    have hrdsent : rd (insert_free_block
        (wr (wr (remove_free_block (remove_free_block (insert_free_block
            (wr (wr (wr (mem_sbrk h T).1 N (hdrVal T pN false))
              (N + (T - WORD_SIZE)) (hdrVal T pN false))
              (N + T) TAG_USED) N) P) N)
          P ((T + szP) ||| TAG_PRECEDING_USED))
          (N + T - WORD_SIZE) ((T + szP) ||| TAG_PRECEDING_USED)) P)
        (N + T) = TAG_USED := by
      rw [hag9 (N + T) (by omega) (by simp only [WORD_SIZE_eq]; omega)
          (by simp only [WORD_SIZE_eq]; omega)
          (fun c hc => (hcellsS2 c (List.mem_cons_of_mem N
            (List.mem_of_mem_erase hc))).2),
        rd_wr_ne (show N + T ≠ N + T - WORD_SIZE by
          simp only [WORD_SIZE_eq]; omega),
        rd_wr_ne (show N + T ≠ P by omega),
        hag7 (N + T) (by omega) (fun c hc => by
          rcases List.mem_cons.mp hc with rfl | hc'
          · exact hcellsS2 N (List.mem_cons_self _ _)
          · exact hcellsS2 c (List.mem_cons_of_mem N (List.mem_of_mem_erase hc'))),
        hag6 (N + T) (by omega) hcellsS2]
      exact hrdS5
    have hsubbl0 : ∀ e ∈ withAddrs WORD_SIZE bl0,
        e ∈ withAddrs WORD_SIZE (bl0 ++ [(szP, false)]) := by
      intro e hel
      rw [withAddrs_append]
      exact List.mem_append_left _ hel
    refine ⟨bl0, [], T + szP, fl.erase P, ?_, by omega⟩
    refine ⟨?_, ?_, ?_, ⟨pl9, hch9⟩, ?_, ?_⟩
    · refine blocksSeg_append.mpr ⟨?_, ?_⟩
      · refine blocksSeg_frame2 hsegbl0 ?_
        intro x hx
        obtain ⟨hxlb, hxub⟩ := segCells_bounds hsegbl0 hx
        rw [← hPdef] at hxub
        refine hagfinal x (by simp only [WORD_SIZE_eq] at hxlb; omega) (by omega)
          (by omega) (by omega) (by simp only [WORD_SIZE_eq]; omega)
          (by simp only [WORD_SIZE_eq]; omega) (by simp only [WORD_SIZE_eq]; omega) ?_
        intro c hc
        exact ⟨fun he => (WF_not_segCells_ptr hwf hc hsubbl0).2 (he ▸ hx),
          fun he => (WF_not_segCells_ptr hwf hc hsubbl0).1 (he ▸ hx)⟩
      · refine ⟨by simp only [MIN_BLOCK_SIZE_eq]; omega, hT8P, ?_, ?_, trivial⟩
        · rw [← hPdef, ← hpPdef, hpP]
          exact hrdhdr
        · intro _
          rw [← hPdef, ← hpPdef, hpP,
            show P + (T + szP) - WORD_SIZE = N + T - WORD_SIZE by
              simp only [WORD_SIZE_eq]; omega]
          exact hrdftr
    · rw [endA_append]
      simp only [endA]
      rw [← hPdef, hsize9]
      simp only [size_wr]
      rw [hsize7, hsize6, hsize5]
      simp only [size_wr, mem_sbrk]
      omega
    · rw [endA_append]
      simp only [endA]
      have hend' : endP true (bl0 ++ [(T + szP, false)]) = false := by
        rw [endP_append]
        rfl
      rw [hend', ← hPdef, show P + (T + szP) = N + T by omega, hrdsent]
      rfl
    · have hfp : freeAddrs WORD_SIZE (bl0 ++ [(T + szP, false)]) =
          freeAddrs WORD_SIZE bl0 ++ [P] := by
        rw [freeAddrs_append]
        rfl
      rw [hfp]
      have hPnotbl0 : P ∉ freeAddrs WORD_SIZE bl0 := by
        intro hmem
        obtain ⟨sze, hm⟩ := mem_freeAddrs_iff.mp hmem
        have hb := (mem_withAddrs_facts hsegbl0 hm).2.1
        have h32 := (mem_withAddrs_facts hsegbl0 hm).2.2.1
        have h32' : 32 ≤ sze := h32
        rw [← hPdef] at hb
        omega
      have hq := hwf.perm
      rw [hfpre] at hq
      have hek : (fl.erase P).Perm (freeAddrs WORD_SIZE bl0) := by
        have he2 := hq.erase P
        rwa [List.erase_append_right _ hPnotbl0, List.erase_cons_head,
          List.append_nil] at he2
      refine (hek.cons P).trans ?_
      simpa using (@List.perm_middle _ P (freeAddrs WORD_SIZE bl0) []).symm
    · exact noAdjFree_append.mpr
        ⟨(noAdjFree_append.mp hwf.adj).1, Or.inl hpP, trivial⟩
  · -- the old last block is used: no coalescing happens
    have hb1 : rd (insert_free_block
        (wr (wr (wr (mem_sbrk h T).1 N (hdrVal T pN false))
          (N + (T - WORD_SIZE)) (hdrVal T pN false))
          (N + T) TAG_USED) N) N &&& TAG_PRECEDING_USED ≠ 0 := by
      rw [hrdN5, hp]
      exact hdrVal_test_prec_true hT8 false
    have hf1 : rd (insert_free_block
        (wr (wr (wr (mem_sbrk h T).1 N (hdrVal T pN false))
          (N + (T - WORD_SIZE)) (hdrVal T pN false))
          (N + T) TAG_USED) N)
        (N + SIZE (rd (insert_free_block
          (wr (wr (wr (mem_sbrk h T).1 N (hdrVal T pN false))
            (N + (T - WORD_SIZE)) (hdrVal T pN false))
            (N + T) TAG_USED) N) N)) &&& TAG_USED ≠ 0 := by
      rw [hrdN5, SIZE_hdrVal hT8, hrdS5]
      decide
    rw [coalesce_noop hb1 hf1]
    refine ⟨bl, [], T, fl, ?_, hTreq⟩
    refine ⟨?_, ?_, ?_, ⟨pl5, hch5⟩, ?_, ?_⟩
    · refine blocksSeg_append.mpr ⟨hsegbl5, ?_⟩
      refine ⟨hT32, hT8, ?_, ?_, trivial⟩
      · rw [← hNdef, ← hpNdef]
        exact hrdN5
      · intro _
        rw [← hNdef, ← hpNdef,
          show N + T - WORD_SIZE = N + (T - WORD_SIZE) by
            simp only [WORD_SIZE_eq]; omega]
        exact hrdft5
    · rw [endA_append]
      simp only [endA]
      rw [← hNdef, hsize5]
      simp only [size_wr, mem_sbrk]
      omega
    · rw [endA_append]
      simp only [endA]
      have hend' : endP true (bl ++ [(T, false)]) = false := by
        rw [endP_append]
        rfl
      rw [hend', ← hNdef, hrdS5]
      rfl
    · have hfp : freeAddrs WORD_SIZE (bl ++ [(T, false)]) =
          freeAddrs WORD_SIZE bl ++ [N] := by
        rw [freeAddrs_append]
        rfl
      rw [hfp]
      refine (hwf.perm.cons N).trans ?_
      simpa using (@List.perm_middle _ N (freeAddrs WORD_SIZE bl) []).symm
    · refine noAdjFree_append.mpr ⟨hwf.adj, ?_, trivial⟩
      refine Or.inl ?_
      rw [← hpNdef]
      exact hp

/-- `mm_malloc` preserves well-formedness of the heap, on every path
(zero size, allocation from the free list with or without splitting, and
the grow-then-allocate path). -/
theorem malloc_WF {h : Heap} {bl : List (Nat × Bool)} {fl : List Nat}
    (hwf : WF h bl fl) (n : Nat) : Inv (mm_malloc h n).2 := by
  by_cases hn : n = 0
  · subst hn
    exact ⟨bl, fl, hwf⟩
  · have hreq32 := reqSize_ge n
    have hreq8 := reqSize_mod n
    simp only [mm_malloc]
    rw [if_neg hn]
    by_cases hf : search_free_list h (reqSize n) = 0
    · rw [if_pos hf]
      obtain ⟨pre2, post2, szb, fl2, hwf2, hfit⟩ := grow_WF hwf hreq32 hreq8
      obtain ⟨hsegpre2, hsegmid2⟩ := blocksSeg_append.mp hwf2.seg
      obtain ⟨hminb2, hszb8, hhdrb2, _, _⟩ := hsegmid2
      have hsz2 : SIZE (rd (request_more_space h (reqSize n))
          (endA WORD_SIZE pre2)) = szb := by
        rw [hhdrb2, SIZE_hdrVal hszb8]
      have hsearch : search_free_list (request_more_space h (reqSize n))
          (reqSize n) = endA WORD_SIZE pre2 := by
        rw [search_spec hwf2, List.find?_cons_of_pos _ (by
          rw [decide_eq_true_eq, hsz2]
          exact hfit)]
        rfl
      rw [hsearch]
      have hall := mallocFinish_WF hwf2 hreq32 hreq8 rfl hfit
      by_cases hs : MIN_BLOCK_SIZE ≤ szb - reqSize n
      · exact ⟨_, _, hall.2.1 hs⟩
      · exact ⟨_, _, hall.2.2 (by
          simp only [MIN_BLOCK_SIZE_eq] at hs ⊢
          omega)⟩
    · rw [if_neg hf]
      have hspec := search_spec hwf (reqSize n)
      cases hfind : fl.find? (fun c => reqSize n ≤ SIZE (rd h c)) with
      | none =>
        rw [hfind] at hspec
        exact absurd hspec hf
      | some b =>
        have hbfl : b ∈ fl := List.mem_of_find?_eq_some hfind
        have hble : reqSize n ≤ SIZE (rd h b) := by
          have hp := List.find?_some hfind
          exact of_decide_eq_true hp
        obtain ⟨szb, hbm⟩ := WF_fl_block hwf hbfl
        obtain ⟨pre2, post2, hbl2, hbadd⟩ := mem_withAddrs_decomp hbm
        have hfit : reqSize n ≤ szb := by
          obtain ⟨_, _, _, hszb8, q, hrdb, _⟩ := mem_withAddrs_facts hwf.seg hbm
          rw [hrdb, SIZE_hdrVal hszb8] at hble
          exact hble
        have hsrch : search_free_list h (reqSize n) = b := by
          rw [hspec, hfind]
          rfl
        rw [hsrch]
        subst hbadd
        have hall := mallocFinish_WF hwf hreq32 hreq8 hbl2 hfit
        by_cases hs : MIN_BLOCK_SIZE ≤ szb - reqSize n
        · exact ⟨_, _, hall.2.1 hs⟩
        · exact ⟨_, _, hall.2.2 (by
            simp only [MIN_BLOCK_SIZE_eq] at hs ⊢
            omega)⟩

/-- Every heap state reachable by a valid call sequence is well formed. -/
theorem Reach_Inv {h : Heap} (hr : Reach h) : Inv h := by
  induction hr with
  | init => exact ⟨[(32, false)], [8], init_WF⟩
  | malloc h0 n _ ih =>
    obtain ⟨bl, fl, hwf⟩ := ih
    exact malloc_WF hwf n
  | free h0 p _ hvalid ih =>
    obtain ⟨bl, fl, hwf⟩ := ih
    simp only [validFreeArg, List.any_eq_true] at hvalid
    obtain ⟨e, hemem, hef⟩ := hvalid
    obtain ⟨hp, hused⟩ := of_decide_eq_true hef
    rw [WF_heapBlocks hwf] at hemem
    obtain ⟨a, ham, hae⟩ := List.mem_map.mp hemem
    obtain ⟨addr, sz, u⟩ := a
    obtain ⟨_, _, _, hsz8, q, hrd, _⟩ := mem_withAddrs_facts hwf.seg ham
    have hu : u = true := by
      have hub : usedBit e.2 = true := hused
      rw [← hae] at hub
      simp only at hub
      rw [hrd, usedBit_hdrVal hsz8] at hub
      exact hub
    subst hu
    obtain ⟨pre, post, hbl, haddr⟩ := mem_withAddrs_decomp ham
    have hpe : p = endA WORD_SIZE pre + WORD_SIZE := by
      rw [← hp, ← hae, ← haddr]
    rw [hpe]
    exact free_WF hwf hbl

/-- Over a block run with correct headers and no two adjacent free blocks,
the extracted `(address, header)` list passes the `noAdjacentFree` check. -/
theorem noAdjacentFree_of_seg {h : Heap} {a : Nat} {p : Bool}
    {bl : List (Nat × Bool)} (hseg : blocksSeg h a p bl)
    (hadj : noAdjFree p bl) :
    noAdjacentFree ((withAddrs a bl).map fun e => (e.1, rd h e.1)) = true := by
  induction bl generalizing a p with
  | nil => rfl
  | cons hd tl ih =>
    obtain ⟨sz, u⟩ := hd
    obtain ⟨hmin, hsz8, hhdr, _, hsegtl⟩ := hseg
    cases tl with
    | nil => rfl
    | cons hd2 tl2 =>
      obtain ⟨sz2, u2⟩ := hd2
      have hhdr2 : rd h (a + sz) = hdrVal sz2 u u2 := hsegtl.2.2.1
      have hsz28 : sz2 % 8 = 0 := hsegtl.2.1
      have ih2 := ih hsegtl hadj.2
      simp only [withAddrs, List.map, noAdjacentFree] at ih2 ⊢
      have hor : (u || u2) = true := by
        rcases hadj.2.1 with hc | hc <;> rw [hc] <;> simp
      rw [ih2, hhdr, hhdr2, usedBit_hdrVal hsz8, usedBit_hdrVal hsz28, hor]
      rfl

/-- The extracted block sizes of a run sum to the run's extent. -/
theorem sumSizes_of_seg {h : Heap} {a : Nat} {p : Bool}
    {bl : List (Nat × Bool)} (hseg : blocksSeg h a p bl) :
    sumSizes ((withAddrs a bl).map fun e => (e.1, rd h e.1))
      = (bl.map Prod.fst).sum := by
  induction bl generalizing a p with
  | nil => rfl
  | cons hd tl ih =>
    obtain ⟨sz, u⟩ := hd
    obtain ⟨hmin, hsz8, hhdr, _, hsegtl⟩ := hseg
    have ih2 := ih hsegtl
    simp only [withAddrs, List.map_cons, sumSizes, List.map, List.sum_cons] at ih2 ⊢
    rw [hhdr, SIZE_hdrVal hsz8, ih2]

/-- On a well-formed heap no two adjacent blocks are both free, as read
back by the heap walker. -/
theorem WF_noAdjacentFree {h : Heap} {bl : List (Nat × Bool)} {fl : List Nat}
    (hwf : WF h bl fl) : noAdjacentFree (heapBlocks h) = true := by
  rw [WF_heapBlocks hwf]
  exact noAdjacentFree_of_seg hwf.seg hwf.adj

/-- On a well-formed heap the block sizes read back by the heap walker,
plus the head slot and the sentinel word, partition the heap exactly. -/
theorem WF_sumSizes {h : Heap} {bl : List (Nat × Bool)} {fl : List Nat}
    (hwf : WF h bl fl) : sumSizes (heapBlocks h) + 2 * WORD_SIZE = h.size := by
  rw [WF_heapBlocks hwf, sumSizes_of_seg hwf.seg]
  have hend := endA_eq_add_sum WORD_SIZE bl
  have hsent := hwf.sentinelAddr
  simp only [WORD_SIZE_eq] at *
  omega

/-- Claim C1: for every finite sequence of valid calls (`mm_init`, then any
interleaving of `mm_malloc` and `mm_free` on payloads of allocated blocks),
the resulting heap has no two adjacent blocks that are both free. -/
theorem reach_no_adjacent_free {h : Heap} (hr : Reach h) :
    noAdjacentFree (heapBlocks h) = true := by
  obtain ⟨bl, fl, hwf⟩ := Reach_Inv hr
  exact WF_noAdjacentFree hwf

/-- Witness for claim C1: the invariant holds on the initial heap. -/
theorem reach_no_adjacent_free_witness :
    noAdjacentFree (heapBlocks (mm_init emptyHeap)) = true :=
  reach_no_adjacent_free Reach.init

/-- Claim C6: after every valid call sequence the block sizes read back
from the heap, plus two words for the free-list head slot and the
end-of-heap word, exactly partition the heap region. -/
theorem reach_size_partition {h : Heap} (hr : Reach h) :
    sumSizes (heapBlocks h) + 2 * WORD_SIZE = h.size := by
  obtain ⟨bl, fl, hwf⟩ := Reach_Inv hr
  exact WF_sumSizes hwf

/-- Witness for claim C6: the partition equation on the initial heap,
whose total size is 48 bytes. -/
theorem reach_size_partition_witness :
    (sumSizes (heapBlocks (mm_init emptyHeap)) + 2 * WORD_SIZE
      = (mm_init emptyHeap).size) ∧
    (mm_init emptyHeap).size = 48 :=
  ⟨reach_size_partition Reach.init, by decide⟩

/-- Claim C4: on a well-formed heap, when the first free-list scan for the
computed request size returns null, the scan repeated after
`request_more_space` returns a non-null block, so `mm_malloc` never writes
through a null pointer on the grow path. -/
theorem grow_makes_search_succeed {h : Heap} {bl : List (Nat × Bool)}
    {fl : List Nat} (hwf : WF h bl fl) {n : Nat} (hn : n ≠ 0)
    (hfail : search_free_list h (reqSize n) = 0) :
    search_free_list (request_more_space h (reqSize n)) (reqSize n) ≠ 0 := by
  obtain ⟨pre2, post2, szb, fl2, hwf2, hfit⟩ :=
    grow_WF hwf (reqSize_ge n) (reqSize_mod n)
  obtain ⟨hsegpre2, hsegmid2⟩ := blocksSeg_append.mp hwf2.seg
  obtain ⟨hminb2, hszb8, hhdrb2, _, _⟩ := hsegmid2
  have hsz2 : SIZE (rd (request_more_space h (reqSize n))
      (endA WORD_SIZE pre2)) = szb := by
    rw [hhdrb2, SIZE_hdrVal hszb8]
  have hsearch : search_free_list (request_more_space h (reqSize n))
      (reqSize n) = endA WORD_SIZE pre2 := by
    rw [search_spec hwf2, List.find?_cons_of_pos _ (by
      rw [decide_eq_true_eq, hsz2]
      exact hfit)]
    rfl
  rw [hsearch]
  have h8 := le_endA WORD_SIZE pre2
  intro h0
  rw [h0] at h8
  simp only [WORD_SIZE_eq] at h8
  omega

/-- Witness for claim C4: on the initial heap the scan for a 64-byte
request fails, and after growing the heap the repeated scan succeeds. -/
theorem grow_makes_search_succeed_witness :
    search_free_list (request_more_space (mm_init emptyHeap) (reqSize 64))
      (reqSize 64) ≠ 0 :=
  grow_makes_search_succeed init_WF (by decide) (by decide)

/-- Claim C7: when the free block handed to the allocation tail of
`mm_malloc` exceeds the request by at least `MIN_BLOCK_SIZE`, the block is
split into a used block of exactly the request size followed by a free
remainder; when the excess is smaller than `MIN_BLOCK_SIZE` the whole
block is allocated unsplit. -/
theorem malloc_split_threshold {h : Heap} {bl : List (Nat × Bool)}
    {fl : List Nat} (hwf : WF h bl fl) {req : Nat}
    (hreq32 : MIN_BLOCK_SIZE ≤ req) (hreq8 : req % 8 = 0)
    {pre post : List (Nat × Bool)} {szB : Nat}
    (hbl : bl = pre ++ (szB, false) :: post) (hfit : req ≤ szB) :
    (MIN_BLOCK_SIZE ≤ szB - req →
      WF (mallocFinish h req (endA WORD_SIZE pre)).2
        (pre ++ (req, true) :: (szB - req, false) :: post)
        ((endA WORD_SIZE pre + req) :: fl.erase (endA WORD_SIZE pre))) ∧
    (szB - req < MIN_BLOCK_SIZE →
      WF (mallocFinish h req (endA WORD_SIZE pre)).2
        (pre ++ (szB, true) :: post) (fl.erase (endA WORD_SIZE pre))) :=
  ⟨(mallocFinish_WF hwf hreq32 hreq8 hbl hfit).2.1,
   (mallocFinish_WF hwf hreq32 hreq8 hbl hfit).2.2⟩

/-- Witness for claim C7: allocating 32 bytes from the initial heap's
single 32-byte free block (excess 0, below the split threshold). -/
theorem malloc_split_threshold_witness :
    (MIN_BLOCK_SIZE ≤ 32 - 32 →
      WF (mallocFinish (mm_init emptyHeap) 32
            (endA WORD_SIZE ([] : List (Nat × Bool)))).2
        ([] ++ (32, true) :: ((32 : Nat) - 32, false) :: [])
        ((endA WORD_SIZE ([] : List (Nat × Bool)) + 32) ::
          ([8] : List Nat).erase (endA WORD_SIZE ([] : List (Nat × Bool))))) ∧
    ((32 : Nat) - 32 < MIN_BLOCK_SIZE →
      WF (mallocFinish (mm_init emptyHeap) 32
            (endA WORD_SIZE ([] : List (Nat × Bool)))).2
        ([] ++ (32, true) :: [])
        (([8] : List Nat).erase (endA WORD_SIZE ([] : List (Nat × Bool))))) :=
  malloc_split_threshold init_WF (by decide) (by decide) rfl (by decide)


end MM
